import Mathlib

/-
  Verification development for a line-numbered mini-BASIC interpreter
  (lexer.go, ast.go, parser.go, runtime.go, program table).

  Numbers are modelled as rationals (the Go code uses float64); all
  concrete inputs appearing in the claims are small integers on which
  IEEE-754 double arithmetic and exact rational arithmetic agree.
  Go maps are modelled as association lists (update-in-place semantics),
  the bufio input reader as a list of already-trimmed lines, and the
  output writer as the list of emitted chunks.
-/

set_option maxHeartbeats 1000000

namespace MiniBasic

/-- Runtime values: tagged union of a number and a text (runtime.go, type Value). -/
inductive Value where
  | num (n : ℚ)
  | str (s : String)
deriving DecidableEq, Repr

/-- Association-list lookup standing for a Go map read (returns none when absent). -/
def lookupA {κ α : Type} [DecidableEq κ] : List (κ × α) → κ → Option α
  | [], _ => none
  | (k, v) :: rest, key => if k = key then some v else lookupA rest key

/-- Association-list update standing for a Go map write (insert or overwrite). -/
def setA {κ α : Type} [DecidableEq κ] : List (κ × α) → κ → α → List (κ × α)
  | [], key, v => [(key, v)]
  | (k, w) :: rest, key, v =>
    if k = key then (key, v) :: rest else (k, w) :: setA rest key v

/-- Association-list removal standing for a Go map delete (absent key is a no-op). -/
def removeA {κ α : Type} [DecidableEq κ] : List (κ × α) → κ → List (κ × α)
  | [], _ => []
  | (k, w) :: rest, key => if k = key then removeA rest key else (k, w) :: removeA rest key

/-- Case normalization of a variable name (strings.ToUpper, ASCII identifiers). -/
def upName (s : String) : String := ⟨s.data.map Char.toUpper⟩

/-- Test for the string-variable suffix (strings.HasSuffix(name, dollar)). -/
def isStrName (s : String) : Bool := s.data.getLast? = some '$'

/-- Variable environment: two maps keyed by upper-cased name (runtime.go, type Env). -/
structure Env where
  NumVars : List (String × ℚ)
  StrVars : List (String × String)
deriving DecidableEq, Repr

/-- Fresh empty environment (runtime.go, NewEnv). -/
def NewEnv : Env := ⟨[], []⟩

/-- Env.Get: total read with kind-appropriate zero default (runtime.go lines 59-65). -/
def Env.Get (e : Env) (name : String) : Value :=
  let nm := upName name
  if isStrName nm then Value.str ((lookupA e.StrVars nm).getD "")
  else Value.num ((lookupA e.NumVars nm).getD 0)

/-- Env.Set: kind-checked write (runtime.go lines 67-82). -/
def Env.Set (e : Env) (name : String) (v : Value) : Except String Env :=
  let nm := upName name
  if isStrName nm then
    match v with
    | Value.str s => Except.ok ⟨e.NumVars, setA e.StrVars nm s⟩
    | Value.num _ => Except.error ("type mismatch: " ++ nm ++ " is string variable")
  else
    match v with
    | Value.num n => Except.ok ⟨setA e.NumVars nm n, e.StrVars⟩
    | Value.str _ => Except.error ("type mismatch: " ++ nm ++ " is numeric variable")

/-- Expression AST (ast.go): literals, variable references, unary sign, binary operator. -/
inductive Expr where
  | numberLit (v : ℚ)
  | stringLit (s : String)
  | varRef (name : String)
  | unary (op : String) (rhs : Expr)
  | binary (op : String) (lhs : Expr) (rhs : Expr)
deriving DecidableEq, Repr

/-- Statement AST (ast.go). The Go IfStmt carries a HasLine flag selecting between an
embedded statement and a jump-target line; that tagged pair is split into the two
constructors ifS and ifLine. -/
inductive Stmt where
  | rem
  | letS (name : String) (e : Expr)
  | print (exprs : List Expr)
  | input (name : String)
  | ifS (cond : Expr) (thenStmt : Stmt)
  | ifLine (cond : Expr) (thenLine : Int)
  | goto (line : Int)
  | endS
deriving DecidableEq, Repr

/-- evalBinary (runtime.go lines 274-333), translated exactly — including the
greater-or-equal branch at line 325, which compares the left operand against the
NEGATED right operand (ln > -rn) instead of using a direct ln >= rn test. -/
def evalBinary (op : String) (l r : Value) : Except String Value :=
  if op = "+" ∨ op = "-" ∨ op = "*" ∨ op = "/" then
    match l, r with
    | Value.num ln, Value.num rn =>
      if op = "+" then Except.ok (Value.num (ln + rn))
      else if op = "-" then Except.ok (Value.num (ln - rn))
      else if op = "*" then Except.ok (Value.num (ln * rn))
      else if rn = 0 then Except.error "division by zero"
      else Except.ok (Value.num (ln / rn))
    | _, _ => Except.error "arithmetic requires numbers"
  else if op = "=" ∨ op = "<>" then
    match l, r with
    | Value.num ln, Value.num rn =>
      let ok : Bool := if op = "<>" then decide (ln ≠ rn) else decide (ln = rn)
      if ok then Except.ok (Value.num 1) else Except.ok (Value.num 0)
    | Value.str ls, Value.str rs =>
      let ok : Bool := if op = "<>" then decide (ls ≠ rs) else decide (ls = rs)
      if ok then Except.ok (Value.num 1) else Except.ok (Value.num 0)
    | _, _ => Except.error "type mismatch in comparison"
  else if op = "<" ∨ op = "<=" ∨ op = ">" ∨ op = ">=" then
    match l, r with
    | Value.num ln, Value.num rn =>
      let ok : Bool :=
        if op = "<" then decide (ln < rn)
        else if op = "<=" then decide (ln ≤ rn)
        else if op = ">" then decide (ln > rn)
        else decide (ln > -rn)
      if ok then Except.ok (Value.num 1) else Except.ok (Value.num 0)
    | _, _ => Except.error "ordered comparison requires numbers"
  else Except.error ("unsupported operator " ++ op)

/-- Expression evaluation: recursive tree walk (runtime.go, evalExpr). -/
def evalExpr (env : Env) : Expr → Except String Value
  | Expr.numberLit v => Except.ok (Value.num v)
  | Expr.stringLit s => Except.ok (Value.str s)
  | Expr.varRef n => Except.ok (env.Get n)
  | Expr.unary op rhs =>
    match evalExpr env rhs with
    | Except.error e => Except.error e
    | Except.ok v =>
      match v with
      | Value.num n =>
        if op = "+" then Except.ok (Value.num n)
        else if op = "-" then Except.ok (Value.num (-n))
        else Except.error ("unsupported unary op " ++ op)
      | Value.str _ => Except.error ("unary " ++ op ++ " requires number")
  | Expr.binary op lhs rhs =>
    match evalExpr env lhs with
    | Except.error e => Except.error e
    | Except.ok lv =>
      match evalExpr env rhs with
      | Except.error e => Except.error e
      | Except.ok rv => evalBinary op lv rv

/-- Digit predicate ('0' <= ch && ch <= '9', lexer.go isDigit). -/
def isDigitCh (c : Char) : Bool := decide ('0' ≤ c ∧ c ≤ '9')

/-- Numeric value of a digit character. -/
def digitVal (c : Char) : ℕ := c.toNat - '0'.toNat

/-- Fold a digit string into the natural number it denotes. -/
def digitsToNat (ds : List Char) : ℕ := ds.foldl (fun a c => 10 * a + digitVal c) 0

/-- Character of a single decimal digit. -/
def digitChar (r : ℕ) : Char := Char.ofNat ('0'.toNat + r)

/-- Decimal digits of a positive natural, most significant first: fuel-indexed
accumulator form (the fuel only bounds the recursion; any fuel at least the
number itself is enough). -/
def natToCharsAux : ℕ → ℕ → List Char → List Char
  | 0, _, acc => acc
  | fuel + 1, n, acc =>
    if n = 0 then acc else natToCharsAux fuel (n / 10) (digitChar (n % 10) :: acc)

/-- Decimal digit string of a natural number. -/
def natToChars (n : ℕ) : List Char := if n = 0 then ['0'] else natToCharsAux n n []

/-- Decimal rendering of an integer (fmt %d). -/
def intToChars (i : Int) : List Char :=
  if i < 0 then '-' :: natToChars i.natAbs else natToChars i.toNat

/-- Trailing zero characters removed (the mantissa of the scientific form). -/
def stripZeros (l : List Char) : List Char :=
  (l.reverse.dropWhile (fun c => c == '0')).reverse

/-- All factors p removed from n, fuel-structural; fuel n suffices. -/
def rmF (p : ℕ) : ℕ → ℕ → ℕ
  | 0, n => n
  | f + 1, n => if 2 ≤ p ∧ 1 ≤ n ∧ n % p = 0 then rmF p f (n / p) else n

/-- All factors p removed from n. -/
def rm (p n : ℕ) : ℕ := rmF p n n

/-- Denominators of exact decimal fractions: no prime factors besides 2 and 5 —
the denominators a finite decimal (and hence a float64 literal) can take. -/
def decDen (d : ℕ) : Bool := decide (rm 5 (rm 2 d) = 1)

/-- First scale k (from k0 up, fuel-bounded) with d dividing 10^k. -/
def decScaleAux (d : ℕ) : ℕ → ℕ → Option ℕ
  | 0, _ => none
  | f + 1, k => if 10 ^ k % d = 0 then some k else decScaleAux d f (k + 1)

/-- Minimal number of fraction digits of an exact decimal rational. -/
def decScale (q : ℚ) : Option ℕ := decScaleAux q.den (q.den + 1) 0

/-- Fixed-notation digit string of the value m / 10^k. -/
def fixedChars (m k : ℕ) : List Char :=
  if k = 0 then natToChars m
  else if k < (natToChars m).length then
    (natToChars m).take ((natToChars m).length - k) ++
      ('.' :: (natToChars m).drop ((natToChars m).length - k))
  else '0' :: '.' :: (List.replicate (k - (natToChars m).length) '0' ++ natToChars m)

/-- Exponent part of the scientific form: sign and at least two digits (fmtE). -/
def expChars (e : ℤ) : List Char :=
  (if e < 0 then '-' else '+') ::
    (if (natToChars e.natAbs).length < 2 then '0' :: natToChars e.natAbs
     else natToChars e.natAbs)

/-- Scientific-notation digit string of the value m / 10^k: shortest mantissa
(trailing zeros stripped), the letter e, then the signed decimal exponent. -/
def sciChars (m k : ℕ) : List Char :=
  (match stripZeros (natToChars m) with
   | [] => ['0']
   | d :: rest => if rest = [] then [d] else d :: '.' :: rest) ++
    ('e' :: expChars (((natToChars m).length : ℤ) - 1 - (k : ℤ)))

/-- Digit string of a nonnegative exact decimal value, following
strconv.FormatFloat(g, -1): fixed notation while the decimal exponent lies in
[-4, 21), scientific notation outside that window; rationals that are no exact
decimal fall back to the Rat printer (they stand for no value of the modelled
programs). -/
def formatPos (q : ℚ) : List Char :=
  match decScale q with
  | none => (toString q).data
  | some k =>
    if ((natToChars (q.num.toNat * (10 ^ k / q.den))).length : ℤ) - 1 - (k : ℤ) < -4 ∨
        21 ≤ ((natToChars (q.num.toNat * (10 ^ k / q.den))).length : ℤ) - 1 - (k : ℤ) then
      sciChars (q.num.toNat * (10 ^ k / q.den)) k
    else fixedChars (q.num.toNat * (10 ^ k / q.den)) k

/-- Modelled strconv.FormatFloat with format g and precision -1 (shortest form).
The rational stands for the exact decimal value a source literal denotes; the
model prints its minimal decimal form — fixed notation for decimal exponents in
[-4, 21), scientific notation with a signed two-digit-minimum exponent outside,
exactly Go's window — which coincides with Go's shortest float64 output on the
short decimal values the covered statements carry. -/
def formatNum (q : ℚ) : String :=
  if q.num < 0 then ⟨'-' :: formatPos (-q)⟩ else ⟨formatPos q⟩

/-- Value.String (runtime.go lines 36-45). -/
def valueString : Value → String
  | Value.num n => formatNum n
  | Value.str s => s

/-- Space/tab trimming at both ends (strings.TrimSpace, ASCII whitespace). -/
def trimSpace (s : String) : String :=
  ⟨((s.data.dropWhile (fun c => c = ' ' ∨ c = '\t')).reverse.dropWhile
      (fun c => c = ' ' ∨ c = '\t')).reverse⟩

/-- Unsigned decimal body of the float parser: digits with an optional fraction
part. Exponent and special-value syntax is out of scope; the claims feed only
plain decimal literals through this function. -/
def parseFloatCore (cs : List Char) : Option ℚ :=
  match cs.dropWhile isDigitCh with
  | [] => if cs.takeWhile isDigitCh = [] then none else some (digitsToNat (cs.takeWhile isDigitCh))
  | c :: rest2 =>
    if c = '.' then
      if rest2.dropWhile isDigitCh = [] ∧
          (cs.takeWhile isDigitCh ≠ [] ∨ rest2.takeWhile isDigitCh ≠ []) then
        some ((digitsToNat (cs.takeWhile isDigitCh) : ℚ) +
          (digitsToNat (rest2.takeWhile isDigitCh) : ℚ) / 10 ^ (rest2.takeWhile isDigitCh).length)
      else none
    else none

/-- Modelled strconv.ParseFloat for plain decimal input (optional sign, digits,
optional fraction); see parseFloatCore for the unsigned body. -/
def parseFloatM (s : String) : Option ℚ :=
  match s.data with
  | [] => none
  | c :: t =>
    if c = '+' then parseFloatCore t
    else if c = '-' then (parseFloatCore t).map Neg.neg
    else parseFloatCore (c :: t)

/-- Program table: line number to source text and parsed statement (part_002). -/
structure Program where
  Source : List (Int × String)
  Stmts : List (Int × Stmt)
deriving DecidableEq, Repr

/-- Fresh empty program (part_002, NewProgram). -/
def NewProgram : Program := ⟨[], []⟩

/-- SetLine: insert or replace a program line (part_002 lines 32-35). -/
def SetLine (p : Program) (lineNo : Int) (src : String) (stmt : Stmt) : Program :=
  ⟨setA p.Source lineNo src, setA p.Stmts lineNo stmt⟩

/-- DeleteLine: remove a program line, silently ignoring absent keys (part_002 lines 37-40). -/
def DeleteLine (p : Program) (lineNo : Int) : Program :=
  ⟨removeA p.Source lineNo, removeA p.Stmts lineNo⟩

/-- OrderedLines: the keys of the statement table in ascending numeric order
(part_002 lines 42-49: collect map keys, then sort.Ints). -/
def OrderedLines (p : Program) : List Int :=
  (p.Stmts.map Prod.fst).insertionSort (· ≤ ·)

/-- Position of a line number in the ordered line list; models the lineIndex map
built by Run (runtime.go lines 111-114), which is injective because keys are unique. -/
def idxOfA : List Int → Int → Option ℕ
  | [], _ => none
  | k :: rest, key => if k = key then some 0 else (idxOfA rest key).map (· + 1)

/-- Outcome of executing a single statement: the (nextPC, end) pair or an error,
together with the environment, remaining input and output after the statement. -/
structure ExecR where
  res : Except String (ℕ × Bool)
  env : Env
  inp : List String
  out : List String
deriving Repr

/-- Evaluation of the expression list of a PRINT statement into its printed parts;
the Go loop (runtime.go lines 162-169) stops at the first failing expression and
returns its error before anything is written. -/
def evalParts (env : Env) : List Expr → Except String (List String)
  | [] => Except.ok []
  | e :: rest =>
    match evalExpr env e with
    | Except.error msg => Except.error msg
    | Except.ok v =>
      match evalParts env rest with
      | Except.error msg => Except.error msg
      | Except.ok parts => Except.ok (valueString v :: parts)

/-- execStmt (runtime.go lines 140-230). The input reader is a list of trimmed
lines (empty list = end of input, which INPUT tolerates as an empty line); the
output writer is the list of chunks written so far. -/
def execStmt (lineIndex : Int → Option ℕ) : Stmt → ℕ → Env → List String → List String → ExecR
  | Stmt.rem, pc, env, inp, out => ⟨Except.ok (pc + 1, false), env, inp, out⟩
  | Stmt.letS name e, pc, env, inp, out =>
    (match evalExpr env e with
     | Except.error msg => ⟨Except.error msg, env, inp, out⟩
     | Except.ok v =>
       match env.Set name v with
       | Except.error msg => ⟨Except.error msg, env, inp, out⟩
       | Except.ok env2 => ⟨Except.ok (pc + 1, false), env2, inp, out⟩)
  | Stmt.print exprs, pc, env, inp, out =>
    (match exprs with
     | [] => ⟨Except.ok (pc + 1, false), env, inp, out ++ ["\n"]⟩
     | _ :: _ =>
       match evalParts env exprs with
       | Except.error msg => ⟨Except.error msg, env, inp, out⟩
       | Except.ok parts =>
         ⟨Except.ok (pc + 1, false), env, inp, out ++ [String.intercalate " " parts ++ "\n"]⟩)
  | Stmt.input name, pc, env, inp, out =>
    let out2 := out ++ ["? "]
    let line := inp.headD ""
    let inp2 := inp.tail
    if isStrName (upName name) then
      match env.Set name (Value.str line) with
      | Except.error msg => ⟨Except.error msg, env, inp2, out2⟩
      | Except.ok env2 => ⟨Except.ok (pc + 1, false), env2, inp2, out2⟩
    else
      match parseFloatM (trimSpace line) with
      | none => ⟨Except.error "INPUT expects number", env, inp2, out2⟩
      | some n =>
        match env.Set name (Value.num n) with
        | Except.error msg => ⟨Except.error msg, env, inp2, out2⟩
        | Except.ok env2 => ⟨Except.ok (pc + 1, false), env2, inp2, out2⟩
  | Stmt.ifS cond thenStmt, pc, env, inp, out =>
    (match evalExpr env cond with
     | Except.error msg => ⟨Except.error msg, env, inp, out⟩
     | Except.ok (Value.str _) => ⟨Except.error "IF condition must be numeric", env, inp, out⟩
     | Except.ok (Value.num c) =>
       if c = 0 then ⟨Except.ok (pc + 1, false), env, inp, out⟩
       else execStmt lineIndex thenStmt pc env inp out)
  | Stmt.ifLine cond thenLine, pc, env, inp, out =>
    (match evalExpr env cond with
     | Except.error msg => ⟨Except.error msg, env, inp, out⟩
     | Except.ok (Value.str _) => ⟨Except.error "IF condition must be numeric", env, inp, out⟩
     | Except.ok (Value.num c) =>
       if c = 0 then ⟨Except.ok (pc + 1, false), env, inp, out⟩
       else
         match lineIndex thenLine with
         | none => ⟨Except.error ("undefined line " ++ toString thenLine), env, inp, out⟩
         | some idx => ⟨Except.ok (idx, false), env, inp, out⟩)
  | Stmt.goto line, _, env, inp, out =>
    (match lineIndex line with
     | none => ⟨Except.error ("undefined line " ++ toString line), env, inp, out⟩
     | some idx => ⟨Except.ok (idx, false), env, inp, out⟩)
  | Stmt.endS, _, env, inp, out => ⟨Except.ok (0, true), env, inp, out⟩

/-- Result of a run: normal completion, a runtime error, or exhaustion of the
modelling fuel (the Go loop has no fuel; fuelOut marks a run still in progress
after the given number of iterations). -/
inductive RunResult where
  | ok (out : List String)
  | err (msg : String) (out : List String)
  | fuelOut (out : List String)
deriving DecidableEq, Repr

/-- Output carried by a run result. -/
def RunResult.output : RunResult → List String
  | RunResult.ok out => out
  | RunResult.err _ out => out
  | RunResult.fuelOut out => out

/-- Discriminator for the fuel-exhaustion marker. -/
def RunResult.isFuelOut : RunResult → Bool
  | RunResult.fuelOut _ => true
  | _ => false

/-- The main interpreter loop (runtime.go lines 116-137), one fuel unit per
iteration. Mirrors: bounds check on pc, the MaxOps budget check, statement lookup,
execution, error wrapping with the line number, and the end signal. Returns the
result together with the final environment and remaining input. -/
def runLoop (stmts : List (Int × Stmt)) (order : List Int) (lineIndex : Int → Option ℕ)
    (maxOps : Int) :
    ℕ → ℕ → ℕ → Env → List String → List String → RunResult × Env × List String
  | 0, _, _, env, inp, out => (RunResult.fuelOut out, env, inp)
  | fuel + 1, pc, ops, env, inp, out =>
    if h : pc < order.length then
      if maxOps > 0 ∧ ((ops : Int) + 1) > maxOps then
        (RunResult.err "runtime error: operation limit exceeded (possible infinite loop)" out,
          env, inp)
      else
        match lookupA stmts (order.get ⟨pc, h⟩) with
        | none =>
          (RunResult.err ("runtime error at line " ++ toString (order.get ⟨pc, h⟩) ++
            ": unknown statement type") out, env, inp)
        | some stmt =>
          match execStmt lineIndex stmt pc env inp out with
          | ⟨Except.error msg, env2, inp2, out2⟩ =>
            (RunResult.err ("runtime error at line " ++ toString (order.get ⟨pc, h⟩) ++
              ": " ++ msg) out2, env2, inp2)
          | ⟨Except.ok (_, true), env2, inp2, out2⟩ => (RunResult.ok out2, env2, inp2)
          | ⟨Except.ok (nextPC, false), env2, inp2, out2⟩ =>
            runLoop stmts order lineIndex maxOps fuel nextPC
              (if maxOps > 0 then ops + 1 else ops) env2 inp2 out2
    else (RunResult.ok out, env, inp)

/-- Interpreter state (runtime.go, type Interpreter): program, environment, the
input reader position and the step budget. -/
structure Interp where
  Prog : Program
  Env : Env
  Inp : List String
  MaxOps : Int
deriving DecidableEq, Repr

/-- NewInterpreter (runtime.go lines 92-100): fresh environment and the default
step budget of one million. -/
def NewInterpreter (prog : Program) (inp : List String) : Interp :=
  ⟨prog, NewEnv, inp, 1000000⟩

/-- ResetEnv (runtime.go lines 102-104): replace the environment, keep all else. -/
def ResetEnv (it : Interp) : Interp := { it with Env := NewEnv }

/-- Run (runtime.go lines 106-138) with explicit fuel: empty programs return at
once; otherwise the ordered line list and line index are built and the loop runs.
The updated interpreter carries the mutated environment and consumed input. -/
def RunI (it : Interp) (fuel : ℕ) : RunResult × Interp :=
  let order := OrderedLines it.Prog
  if order.length = 0 then (RunResult.ok [], it)
  else
    let r := runLoop it.Prog.Stmts order (idxOfA order) it.MaxOps fuel 0 0 it.Env it.Inp []
    (r.1, { it with Env := r.2.1, Inp := r.2.2 })

/-- Two successive REPL RUN commands (main.go lines 75-80): each constructs no new
program, resets the environment and runs; the input reader state persists. -/
def runTwice (it : Interp) (fuel : ℕ) : RunResult × RunResult :=
  let r1 := RunI (ResetEnv it) fuel
  let r2 := RunI (ResetEnv r1.2) fuel
  (r1.1, r2.1)

/-- Syntactic absence of INPUT statements, including inside embedded IF bodies. -/
def noInputStmt : Stmt → Bool
  | Stmt.input _ => false
  | Stmt.ifS _ s => noInputStmt s
  | _ => true

/-- Test program: 10 PRINT 1 / 0. -/
def progDivZero : Program :=
  ⟨[(10, "PRINT 1 / 0")],
   [(10, Stmt.print [Expr.binary "/" (Expr.numberLit 1) (Expr.numberLit 0)])]⟩

/-- Test program: 10 GOTO 10 (a one-line jump cycle). -/
def progSelfLoop : Program := ⟨[(10, "GOTO 10")], [(10, Stmt.goto 10)]⟩

/-- Test program: 10 INPUT X, 20 PRINT X. -/
def progInput : Program :=
  ⟨[(10, "INPUT X"), (20, "PRINT X")],
   [(10, Stmt.input "X"), (20, Stmt.print [Expr.varRef "X"])]⟩

/-- Test program: 10 LET X = 5, 20 PRINT X + 1 (no INPUT statements). -/
def progPlain : Program :=
  ⟨[(10, "LET X = 5"), (20, "PRINT X + 1")],
   [(10, Stmt.letS "X" (Expr.numberLit 5)),
    (20, Stmt.print [Expr.binary "+" (Expr.varRef "X") (Expr.numberLit 1)])]⟩

/-- Test program: 10 GOTO 40 where line 40 does not exist. -/
def progBadGoto : Program := ⟨[(10, "GOTO 40")], [(10, Stmt.goto 40)]⟩

/-- The exact decimal value one half (test value inside the fixed window). -/
def qHalf : ℚ := ⟨1, 2, by decide, Nat.coprime_one_left 2⟩

/-- The exact decimal value 10^-5 (test value below the fixed window). -/
def qTiny : ℚ := ⟨1, 100000, by decide, Nat.coprime_one_left 100000⟩

/-- Editing operation on the program table: the line-set and line-delete calls the
REPL collaborator makes (main.go lines 48-71 calling part_002). -/
inductive POp where
  | set (lineNo : Int) (src : String) (stmt : Stmt)
  | del (lineNo : Int)

/-- Application of a sequence of editing operations to a program table. -/
def applyOps : List POp → Program → Program
  | [], p => p
  | POp.set n s st :: rest, p => applyOps rest (SetLine p n s st)
  | POp.del n :: rest, p => applyOps rest (DeleteLine p n)

/-- Letter predicate (lexer.go isLetter via unicode.IsLetter; source identifiers
are ASCII letters). -/
def isLetterCh (c : Char) : Bool := c.isAlpha

/-- Identifier-continuation characters: letters or digits (lexer.go readIdentifier). -/
def isIdentCh (c : Char) : Bool := isLetterCh c ∨ isDigitCh c

/-- Token kinds (lexer.go TokenType). ASSIGN and EQ share the lexeme in the
source and the lexer only ever emits ASSIGN; the parser decides by context. -/
inductive TokType where
  | illegal
  | eofT
  | ident
  | number
  | stringT
  | assign
  | plus
  | minus
  | aster
  | slash
  | neq
  | lt
  | lte
  | gt
  | gte
  | lparen
  | rparen
  | comma
  | remK
  | letK
  | printK
  | inputK
  | ifK
  | thenK
  | gotoK
  | endK
  | runK
  | listK
  | newK
deriving DecidableEq, Repr

/-- Token: kind and literal text (lexer.go Token). -/
structure Token where
  type : TokType
  literal : String
deriving DecidableEq, Repr

/-- The end-of-input token. -/
def eofTok : Token := ⟨TokType.eofT, ""⟩

/-- Keyword table lookup after upper-casing (lexer.go LookupIdent). -/
def lookupIdent (s : String) : TokType :=
  if s = "REM" then TokType.remK
  else if s = "LET" then TokType.letK
  else if s = "PRINT" then TokType.printK
  else if s = "INPUT" then TokType.inputK
  else if s = "IF" then TokType.ifK
  else if s = "THEN" then TokType.thenK
  else if s = "GOTO" then TokType.gotoK
  else if s = "END" then TokType.endK
  else if s = "RUN" then TokType.runK
  else if s = "LIST" then TokType.listK
  else if s = "NEW" then TokType.newK
  else TokType.ident

/-- The keyword lexemes, for stating that an identifier is not a keyword. -/
def keywordStrings : List String :=
  ["REM", "LET", "PRINT", "INPUT", "IF", "THEN", "GOTO", "END", "RUN", "LIST", "NEW"]

/-- Whitespace skipping: spaces, tabs and carriage returns (lexer.go lines 120-124). -/
def skipWS : List Char → List Char
  | [] => []
  | c :: cs => if c = ' ' ∨ c = '\t' ∨ c = '\r' then skipWS cs else c :: cs

/-- Identifier reading (lexer.go readIdentifier): letters/digits, then at most one
trailing dollar sign. Returns the consumed characters and the rest. -/
def readIdentCore : List Char → List Char × List Char
  | [] => ([], [])
  | c :: cs =>
    if isIdentCh c then
      ((c :: (readIdentCore cs).1), (readIdentCore cs).2)
    else if c = '$' then ([c], cs)
    else ([], c :: cs)

/-- Number reading (lexer.go readNumber): digits with at most one decimal point;
the flag records whether a point was already consumed. -/
def readNumCore : Bool → List Char → List Char × List Char
  | _, [] => ([], [])
  | hasDot, c :: cs =>
    if isDigitCh c then
      ((c :: (readNumCore hasDot cs).1), (readNumCore hasDot cs).2)
    else if ¬hasDot ∧ c = '.' then
      ((c :: (readNumCore true cs).1), (readNumCore true cs).2)
    else ([], c :: cs)

/-- String-body reading after the opening quote (lexer.go readString): up to the
closing quote, failing on a newline or end of input before it. (Go also stops at
an embedded NUL byte; inputs here contain none.) -/
def readStrCore : List Char → Option (List Char × List Char)
  | [] => none
  | c :: cs =>
    if c = '"' then some ([], cs)
    else if c = '\n' then none
    else
      match readStrCore cs with
      | none => none
      | some (s, r) => some (c :: s, r)

/-- Upper-casing of a character list (strings.ToUpper on ASCII). -/
def upChars (cs : List Char) : List Char := cs.map Char.toUpper

/-- NextToken (lexer.go lines 126-207): skip whitespace, then greedy two-character
operators, single-character operators and delimiters, strings, identifiers or
keywords (upper-cased), numbers, and illegal bytes. Returns the token and the
remaining input. On an unterminated string the Go lexer has consumed up to the
terminator; the model drops the rest (no claim inspects input after an illegal token). -/
def nextToken (cs : List Char) : Token × List Char :=
  match skipWS cs with
  | [] => (eofTok, [])
  | c :: cs1 =>
    if c = '+' then (⟨TokType.plus, "+"⟩, cs1)
    else if c = '-' then (⟨TokType.minus, "-"⟩, cs1)
    else if c = '*' then (⟨TokType.aster, "*"⟩, cs1)
    else if c = '/' then (⟨TokType.slash, "/"⟩, cs1)
    else if c = '(' then (⟨TokType.lparen, "("⟩, cs1)
    else if c = ')' then (⟨TokType.rparen, ")"⟩, cs1)
    else if c = ',' then (⟨TokType.comma, ","⟩, cs1)
    else if c = '=' then (⟨TokType.assign, "="⟩, cs1)
    else if c = '<' then
      match cs1 with
      | '=' :: cs2 => (⟨TokType.lte, "<="⟩, cs2)
      | '>' :: cs2 => (⟨TokType.neq, "<>"⟩, cs2)
      | _ => (⟨TokType.lt, "<"⟩, cs1)
    else if c = '>' then
      match cs1 with
      | '=' :: cs2 => (⟨TokType.gte, ">="⟩, cs2)
      | _ => (⟨TokType.gt, ">"⟩, cs1)
    else if c = '"' then
      match readStrCore cs1 with
      | none => (⟨TokType.illegal, "unterminated string"⟩, [])
      | some (s, r) => (⟨TokType.stringT, ⟨s⟩⟩, r)
    else if isLetterCh c then
      (⟨lookupIdent ⟨upChars (readIdentCore (c :: cs1)).1⟩,
        ⟨upChars (readIdentCore (c :: cs1)).1⟩⟩, (readIdentCore (c :: cs1)).2)
    else if isDigitCh c then
      (⟨TokType.number, ⟨(readNumCore false (c :: cs1)).1⟩⟩, (readNumCore false (c :: cs1)).2)
    else (⟨TokType.illegal, ⟨[c]⟩⟩, cs1)

/-- Repeated tokenization with fuel (one unit per produced token); the end-of-input
token is not stored, parsing treats a missing token as EOF just as repeated
NextToken calls keep yielding EOF. -/
def tokenizeF : ℕ → List Char → List Token
  | 0, _ => []
  | fuel + 1, cs =>
    match nextToken cs with
    | (t, rest) => if t.type = TokType.eofT then [] else t :: tokenizeF fuel rest

/-- The token stream of an input: every call of NextToken consumes at least one
character, so length-plus-one fuel always suffices. -/
def tokens (cs : List Char) : List Token := tokenizeF (cs.length + 1) cs

/-- Binding powers (part_000 lines 16-25); the source calls the top rank PREFIX. -/
def LOWEST : ℕ := 1

/-- COMPARE precedence: rank of the comparison operators. -/
def COMPARE : ℕ := 2

/-- SUM precedence: rank of additive operators. -/
def SUM : ℕ := 3

/-- PRODUCT precedence: rank of multiplicative operators. -/
def PRODUCT : ℕ := 4

/-- Unary sign precedence (PREFIX in the source). -/
def UNARYPREC : ℕ := 5

/-- The precedence map (part_000 lines 28-39); unmapped kinds rank LOWEST
(part_000 peekPrecedence and curPrecedence). -/
def tokPrec : TokType → ℕ
  | TokType.assign => COMPARE
  | TokType.neq => COMPARE
  | TokType.lt => COMPARE
  | TokType.lte => COMPARE
  | TokType.gt => COMPARE
  | TokType.gte => COMPARE
  | TokType.plus => SUM
  | TokType.minus => SUM
  | TokType.aster => PRODUCT
  | TokType.slash => PRODUCT
  | _ => LOWEST

/-- The operator kinds accepted by the infix switch of parseExpr (part_000 line 211). -/
def isInfixOp : TokType → Bool
  | TokType.plus => true
  | TokType.minus => true
  | TokType.aster => true
  | TokType.slash => true
  | TokType.assign => true
  | TokType.neq => true
  | TokType.lt => true
  | TokType.lte => true
  | TokType.gt => true
  | TokType.gte => true
  | _ => false

/-- Parser state: the remaining token stream (head = current token, second =
lookahead, exactly the curTok/peekTok pair of part_000) and accumulated errors. -/
structure PState where
  toks : List Token
  errs : List String
deriving DecidableEq, Repr

/-- The current token (EOF once the stream is exhausted). -/
def curTok (p : PState) : Token := p.toks.headD eofTok

/-- The lookahead token (EOF once the stream is exhausted). -/
def peekTok (p : PState) : Token := (p.toks.drop 1).headD eofTok

/-- Advance to the next token (part_000 nextToken). -/
def advance (p : PState) : PState := ⟨p.toks.drop 1, p.errs⟩

/-- Record a parse error (part_000 addErr; message texts are modelled). -/
def addErr (p : PState) (msg : String) : PState := ⟨p.toks, p.errs ++ [msg]⟩

/-- Modelled strconv.Atoi on a 64-bit platform: optional sign, decimal digits
only, and the int64 range check (out-of-range input is an error). -/
def atoiM (s : String) : Option Int :=
  match s.data with
  | [] => none
  | c :: t =>
    if c = '+' then
      (if t ≠ [] ∧ t.all isDigitCh ∧ digitsToNat t < 2 ^ 63 then some (digitsToNat t)
       else none)
    else if c = '-' then
      (if t ≠ [] ∧ t.all isDigitCh ∧ digitsToNat t ≤ 2 ^ 63 then some (-(digitsToNat t : Int))
       else none)
    else if (c :: t).all isDigitCh ∧ digitsToNat (c :: t) < 2 ^ 63 then
      some (digitsToNat (c :: t))
    else none

/-- parseIntStrict (main.go lines 138-147): reject any comma, then Atoi. -/
def parseIntStrict (s : String) : Option Int :=
  if s.data.contains ',' then none else atoiM s

mutual

/-- parseExpr (part_000 lines 203-222): prefix part then the climbing loop. One
fuel unit per call; exhaustion returns a failure (never reached from the fuel
the wrappers pass). -/
def parseExprF : ℕ → ℕ → PState → Option Expr × PState
  | 0, _, p => (none, addErr p "fuel exhausted")
  | fuel + 1, pr, p =>
    match parsePrefixF fuel p with
    | (none, p1) => (none, p1)
    | (some left, p1) => parseLoopF fuel pr left p1

/-- The infix loop of parseExpr: while the lookahead is not EOF and binds tighter
than the threshold, consume an operator token and extend to the left. -/
def parseLoopF : ℕ → ℕ → Expr → PState → Option Expr × PState
  | 0, _, _, p => (none, addErr p "fuel exhausted")
  | fuel + 1, pr, left, p =>
    if (peekTok p).type ≠ TokType.eofT ∧ pr < tokPrec (peekTok p).type then
      if isInfixOp (peekTok p).type then
        match parseInfixF fuel left (advance p) with
        | (none, p1) => (none, p1)
        | (some left2, p1) => parseLoopF fuel pr left2 p1
      else (some left, p)
    else (some left, p)

/-- parsePrefix (part_000 lines 224-261): literals, variable references, unary
sign, parenthesized subexpressions. -/
def parsePrefixF : ℕ → PState → Option Expr × PState
  | 0, p => (none, addErr p "fuel exhausted")
  | fuel + 1, p =>
    match (curTok p).type with
    | TokType.number =>
      (match parseFloatM (curTok p).literal with
       | none => (none, addErr p ("invalid number " ++ (curTok p).literal))
       | some v => (some (Expr.numberLit v), p))
    | TokType.stringT => (some (Expr.stringLit (curTok p).literal), p)
    | TokType.ident => (some (Expr.varRef (curTok p).literal), p)
    | TokType.plus =>
      (match parseExprF fuel UNARYPREC (advance p) with
       | (none, p1) => (none, p1)
       | (some rhs, p1) => (some (Expr.unary (curTok p).literal rhs), p1))
    | TokType.minus =>
      (match parseExprF fuel UNARYPREC (advance p) with
       | (none, p1) => (none, p1)
       | (some rhs, p1) => (some (Expr.unary (curTok p).literal rhs), p1))
    | TokType.lparen =>
      (match parseExprF fuel LOWEST (advance p) with
       | (none, p1) => (none, p1)
       | (some e, p1) =>
         if (peekTok p1).type = TokType.rparen then (some e, advance p1)
         else (none, addErr p1 "expected closing paren"))
    | _ => (none, addErr p "unexpected token in expression")

/-- parseInfix (part_000 lines 263-272): record the operator, parse the right
operand at the operator's own binding power. -/
def parseInfixF : ℕ → Expr → PState → Option Expr × PState
  | 0, _, p => (none, addErr p "fuel exhausted")
  | fuel + 1, left, p =>
    match parseExprF fuel (tokPrec (curTok p).type) (advance p) with
    | (none, p1) => (none, p1)
    | (some right, p1) => (some (Expr.binary (curTok p).literal left right), p1)

/-- ParseStatement (part_000 lines 66-92): dispatch on the leading token. -/
def parseStatementF : ℕ → PState → Option Stmt × PState
  | 0, p => (none, addErr p "fuel exhausted")
  | fuel + 1, p =>
    match (curTok p).type with
    | TokType.remK => (some Stmt.rem, p)
    | TokType.letK => parseLetF fuel true p
    | TokType.ident =>
      if (peekTok p).type = TokType.assign then parseLetF fuel false p
      else (none, addErr p ("unexpected identifier " ++ (curTok p).literal))
    | TokType.printK => parsePrintF fuel p
    | TokType.inputK => parseInputF fuel p
    | TokType.ifK => parseIfF fuel p
    | TokType.gotoK => parseGotoF fuel p
    | TokType.endK => (some Stmt.endS, p)
    | _ => (none, addErr p "unexpected token")

/-- parseLetStmt (part_000 lines 94-123): optional LET keyword, identifier,
assignment sign, then the value expression at lowest binding power. -/
def parseLetF : ℕ → Bool → PState → Option Stmt × PState
  | 0, _, p => (none, addErr p "fuel exhausted")
  | fuel + 1, hasLET, p =>
    match (if hasLET then advance p else p) with
    | p0 =>
      if (curTok p0).type = TokType.ident then
        if (peekTok p0).type = TokType.assign then
          match parseExprF fuel LOWEST (advance (advance p0)) with
          | (none, p1) => (none, p1)
          | (some e, p1) => (some (Stmt.letS (curTok p0).literal e), p1)
        else (none, addErr p0 "expected assignment after identifier")
      else (none, addErr p0 "LET requires identifier")

/-- parsePrintStmt (part_000 lines 125-147): bare PRINT on immediate EOF,
otherwise a comma-separated expression list. -/
def parsePrintF : ℕ → PState → Option Stmt × PState
  | 0, p => (none, addErr p "fuel exhausted")
  | fuel + 1, p =>
    if (peekTok p).type = TokType.eofT then (some (Stmt.print []), p)
    else
      match parseExprF fuel LOWEST (advance p) with
      | (none, p1) => (none, p1)
      | (some first, p1) => parsePrintLoopF fuel [first] p1

/-- The comma loop of parsePrintStmt. -/
def parsePrintLoopF : ℕ → List Expr → PState → Option Stmt × PState
  | 0, _, p => (none, addErr p "fuel exhausted")
  | fuel + 1, acc, p =>
    if (peekTok p).type = TokType.comma then
      match parseExprF fuel LOWEST (advance (advance p)) with
      | (none, p1) => (none, p1)
      | (some e, p1) => parsePrintLoopF fuel (acc ++ [e]) p1
    else (some (Stmt.print acc), p)

/-- parseInputStmt (part_000 lines 149-156). -/
def parseInputF : ℕ → PState → Option Stmt × PState
  | 0, p => (none, addErr p "fuel exhausted")
  | _ + 1, p =>
    if (curTok (advance p)).type = TokType.ident then
      (some (Stmt.input (curTok (advance p)).literal), advance p)
    else (none, addErr (advance p) "INPUT requires identifier")

/-- parseIfStmt (part_000 lines 158-187), transcribed exactly: after the
condition the lookahead must be THEN, then a single nextToken is performed — the
source comment reads "token after THEN" but the current token is THEN itself, so
the NUMBER test below inspects the THEN token and the embedded-statement branch
re-parses starting at THEN. -/
def parseIfF : ℕ → PState → Option Stmt × PState
  | 0, p => (none, addErr p "fuel exhausted")
  | fuel + 1, p =>
    match parseExprF fuel LOWEST (advance p) with
    | (none, p1) => (none, p1)
    | (some cond, p1) =>
      if (peekTok p1).type = TokType.thenK then
        if (curTok (advance p1)).type = TokType.number ∧
            (peekTok (advance p1)).type = TokType.eofT then
          match parseIntStrict (curTok (advance p1)).literal with
          | none => (none, addErr (advance p1) "invalid line number after THEN")
          | some n => (some (Stmt.ifLine cond n), advance p1)
        else
          match parseStatementF fuel (advance p1) with
          | (none, p2) => (none, p2)
          | (some thenStmt, p2) => (some (Stmt.ifS cond thenStmt), p2)
      else (none, addErr p1 "THEN requires statement or line number")

/-- parseGotoStmt (part_000 lines 189-201). -/
def parseGotoF : ℕ → PState → Option Stmt × PState
  | 0, p => (none, addErr p "fuel exhausted")
  | _ + 1, p =>
    if (curTok (advance p)).type = TokType.number then
      match parseIntStrict (curTok (advance p)).literal with
      | none => (none, addErr (advance p) "invalid GOTO line number")
      | some n => (some (Stmt.goto n), advance p)
    else (none, addErr (advance p) "GOTO requires line number")

end

/-- Expression parsing of a whole source text at lowest binding power: the
NewParser construction of part_000 followed by parseExpr(LOWEST); twice the
character count plus a margin over-provisions the fuel. -/
def parseExprTop (s : String) : Option Expr :=
  (parseExprF (2 * s.length + 16) LOWEST ⟨tokens s.data, []⟩).1

/-- Statement parsing of a whole source text (parseOneStatement of main.go
without its dead trailing-token check). -/
def parseStatementTop (src : List Char) : Option Stmt :=
  (parseStatementF (2 * src.length + 16) ⟨tokens src, []⟩).1

/-- Escaping of one character as strconv.Quote performs it on the quote and the
backslash; other printable ASCII characters pass through unchanged (control
characters, which Quote would also escape, are excluded by the well-formedness
predicate below). -/
def quoteChar (c : Char) : List Char :=
  if c = '\\' then ['\\', '\\'] else if c = '"' then ['\\', '"'] else [c]

/-- Modelled strconv.Quote for printable ASCII content (ast.go StringLit.String). -/
def quoteStr (cs : List Char) : List Char := '"' :: cs.flatMap quoteChar ++ ['"']

/-- Stringification of expressions (ast.go String methods): numbers in shortest
form, strings quoted, unary and binary nodes fully parenthesized. -/
def renderExpr : Expr → List Char
  | Expr.numberLit v => (formatNum v).data
  | Expr.stringLit s => quoteStr s.data
  | Expr.varRef n => n.data
  | Expr.unary op rhs => '(' :: (op.data ++ renderExpr rhs) ++ [')']
  | Expr.binary op l r =>
    '(' :: (renderExpr l ++ ' ' :: (op.data ++ ' ' :: renderExpr r)) ++ [')']

/-- Comma-space joining of printed expressions (strings.Join(parts, ", ")). -/
def renderExprList : List Expr → List Char
  | [] => []
  | [e] => renderExpr e
  | e :: rest => renderExpr e ++ ',' :: ' ' :: renderExprList rest

/-- Stringification of statements (ast.go String methods). -/
def renderStmt : Stmt → List Char
  | Stmt.rem => "REM".data
  | Stmt.letS n e => n.data ++ (' ' :: '=' :: ' ' :: renderExpr e)
  | Stmt.print [] => "PRINT".data
  | Stmt.print (e :: rest) => "PRINT ".data ++ renderExprList (e :: rest)
  | Stmt.input n => "INPUT ".data ++ n.data
  | Stmt.ifS c s => "IF ".data ++ renderExpr c ++ (" THEN ".data ++ renderStmt s)
  | Stmt.ifLine c n => "IF ".data ++ renderExpr c ++ (" THEN ".data ++ intToChars n)
  | Stmt.goto n => "GOTO ".data ++ intToChars n
  | Stmt.endS => "END".data

/-- Token constructors for the expected lexing of renderings. -/
def numTok (ds : List Char) : Token := ⟨TokType.number, ⟨ds⟩⟩

/-- Identifier token. -/
def identTok (n : String) : Token := ⟨TokType.ident, n⟩

/-- String-literal token. -/
def strTok (s : String) : Token := ⟨TokType.stringT, s⟩

/-- Kind of an operator lexeme. -/
def opTypeOf (op : String) : TokType :=
  if op = "+" then TokType.plus
  else if op = "-" then TokType.minus
  else if op = "*" then TokType.aster
  else if op = "/" then TokType.slash
  else if op = "=" then TokType.assign
  else if op = "<>" then TokType.neq
  else if op = "<" then TokType.lt
  else if op = "<=" then TokType.lte
  else if op = ">" then TokType.gt
  else if op = ">=" then TokType.gte
  else TokType.illegal

/-- Operator token. -/
def opTokOf (op : String) : Token := ⟨opTypeOf op, op⟩

/-- Left-parenthesis token. -/
def lparenTok : Token := ⟨TokType.lparen, "("⟩

/-- Right-parenthesis token. -/
def rparenTok : Token := ⟨TokType.rparen, ")"⟩

/-- Comma token. -/
def commaTok : Token := ⟨TokType.comma, ","⟩

/-- Expected token sequence of a rendered expression. -/
def exprToks : Expr → List Token
  | Expr.numberLit v => [numTok (formatNum v).data]
  | Expr.stringLit s => [strTok s]
  | Expr.varRef n => [identTok n]
  | Expr.unary op rhs => lparenTok :: opTokOf op :: (exprToks rhs ++ [rparenTok])
  | Expr.binary op l r =>
    lparenTok :: ((exprToks l ++ opTokOf op :: exprToks r) ++ [rparenTok])

/-- The final token of a rendered expression (the token the parser rests on
after consuming the expression). -/
def lastTok : Expr → Token
  | Expr.numberLit v => numTok (formatNum v).data
  | Expr.stringLit s => strTok s
  | Expr.varRef n => identTok n
  | Expr.unary _ _ => rparenTok
  | Expr.binary _ _ _ => rparenTok

/-- Expected token sequence of a comma-joined expression list. -/
def exprListToks : List Expr → List Token
  | [] => []
  | [e] => exprToks e
  | e :: rest => exprToks e ++ commaTok :: exprListToks rest

/-- Expected token sequence of a rendered statement. -/
def stmtToks : Stmt → List Token
  | Stmt.rem => [⟨TokType.remK, "REM"⟩]
  | Stmt.letS n e => identTok n :: ⟨TokType.assign, "="⟩ :: exprToks e
  | Stmt.print [] => [⟨TokType.printK, "PRINT"⟩]
  | Stmt.print (e :: rest) => ⟨TokType.printK, "PRINT"⟩ :: exprListToks (e :: rest)
  | Stmt.input n => [⟨TokType.inputK, "INPUT"⟩, identTok n]
  | Stmt.ifS c s => ⟨TokType.ifK, "IF"⟩ :: (exprToks c ++ ⟨TokType.thenK, "THEN"⟩ :: stmtToks s)
  | Stmt.ifLine c n =>
    ⟨TokType.ifK, "IF"⟩ :: (exprToks c ++ [⟨TokType.thenK, "THEN"⟩, numTok (intToChars n)])
  | Stmt.goto n => [⟨TokType.gotoK, "GOTO"⟩, numTok (intToChars n)]
  | Stmt.endS => [⟨TokType.endK, "END"⟩]

/-- The uppercase letters. -/
def upperList : List Char :=
  ['A', 'B', 'C', 'D', 'E', 'F', 'G', 'H', 'I', 'J', 'K', 'L', 'M',
   'N', 'O', 'P', 'Q', 'R', 'S', 'T', 'U', 'V', 'W', 'X', 'Y', 'Z']

/-- The decimal digits. -/
def digitList : List Char := ['0', '1', '2', '3', '4', '5', '6', '7', '8', '9']

/-- Identifier continuation characters of well-formed names. -/
def upperOrDigit (c : Char) : Bool := upperList.contains c || digitList.contains c

/-- Well-formed identifier base: an uppercase letter followed by uppercase
letters or digits — the shape the lexer emits for identifiers. -/
def baseOK : List Char → Bool
  | [] => false
  | c :: rest => upperList.contains c && rest.all upperOrDigit

/-- Well-formed variable name as stored by the parser: an upper-cased identifier
that is not a keyword, optionally carrying the string-variable suffix. -/
def nameWF (s : String) : Bool :=
  (baseOK s.data && !(keywordStrings.contains s)) ||
  (decide (s.data.getLast? = some '$') && baseOK s.data.dropLast)

/-- String-literal characters that survive quoting unchanged: printable ASCII
other than the quote and the backslash. -/
def strCharOK (c : Char) : Bool :=
  decide (32 ≤ c.toNat) && decide (c.toNat ≤ 126) && !(c = '"') && !(c = '\\')

/-- Well-formed numeric literal value: a nonnegative exact decimal whose
shortest form stays in fixed notation — zero, or a value in [10^-4, 10^21),
both bounds written multiplicatively over the numerator and denominator. -/
def numWF (q : ℚ) : Bool :=
  decide (0 ≤ q.num) && decDen q.den &&
    (decide (q.num = 0) ||
      (decide ((q.den : ℤ) ≤ 10 ^ 4 * q.num) && decide (q.num < 10 ^ 21 * (q.den : ℤ))))

/-- The binary operator lexemes. -/
def binOpsL : List String := ["+", "-", "*", "/", "=", "<>", "<", "<=", ">", ">="]

/-- Well-formed expressions: the shapes the parser can produce, with literals
restricted as discussed above. -/
def exprWF : Expr → Bool
  | Expr.numberLit v => numWF v
  | Expr.stringLit s => s.data.all strCharOK
  | Expr.varRef n => nameWF n
  | Expr.unary op rhs => (op = "+" || op = "-") && exprWF rhs
  | Expr.binary op l r => binOpsL.contains op && exprWF l && exprWF r

/-- Well-formed statements: the statement shapes the parser can produce. The IF
forms are excluded because parseIfStmt (see parseIfF) can never return one: its
single advance leaves the THEN token current, so both IF branches fail. -/
def stmtWF : Stmt → Bool
  | Stmt.rem => true
  | Stmt.letS n e => nameWF n && exprWF e
  | Stmt.print es => es.all exprWF
  | Stmt.input n => nameWF n
  | Stmt.ifS _ _ => false
  | Stmt.ifLine _ _ => false
  | Stmt.goto n => decide (0 ≤ n) && decide (n < 2 ^ 63)
  | Stmt.endS => true

/-- Value of the digit string of n appended after digits worth a (specification
device for reasoning about natToCharsAux; not executed). -/
def dval (a : ℕ) (n : ℕ) : ℕ :=
  if n = 0 then a else 10 * dval a (n / 10) + n % 10
termination_by n
decreasing_by exact Nat.div_lt_self (by omega) (by norm_num)

/-- Characters that may follow a rendered expression chunk in a rendered
statement: nothing, a space, a closing parenthesis, or a comma. -/
def followOk : List Char → Prop
  | [] => True
  | c :: _ => c = ' ' ∨ c = ')' ∨ c = ','

/-- Fuel sufficient for parsePrefixF to consume a rendered well-formed
expression (specification device bounding the recursion depth of the parse). -/
def pFuel : Expr → ℕ
  | Expr.numberLit _ => 1
  | Expr.stringLit _ => 1
  | Expr.varRef _ => 1
  | Expr.unary _ rhs => pFuel rhs + 4
  | Expr.binary _ l r => pFuel l + pFuel r + 5

/-- Fuel sufficient for the PRINT comma loop over a rendered tail list. -/
def plFuel : List Expr → ℕ
  | [] => 1
  | e :: rest => pFuel e + plFuel rest + 2

/-- Fuel sufficient for parseStatementF on a rendered well-formed statement. -/
def sFuel : Stmt → ℕ
  | Stmt.rem => 1
  | Stmt.letS _ e => pFuel e + 3
  | Stmt.print [] => 2
  | Stmt.print (e :: rest) => pFuel e + plFuel rest + 3
  | Stmt.input _ => 2
  | Stmt.ifS _ _ => 1
  | Stmt.ifLine _ _ => 1
  | Stmt.goto _ => 2
  | Stmt.endS => 1

/-- Separator-led token tails of a PRINT expression list: a comma before each
further expression. -/
def sepToks : List Expr → List Token
  | [] => []
  | e :: rest => commaTok :: (exprToks e ++ sepToks rest)

/-- Thresholds at which the climbing loop of parseExpr stops before the given
remaining tokens: either nothing follows, or the next token binds no tighter. -/
def stopAt (pr : ℕ) : List Token → Prop
  | [] => True
  | t :: _ => tokPrec t.type ≤ pr

/-- C1: the claim demands direct greater-or-equal semantics for the operator >=,
but evalBinary (runtime.go line 325) compares the left operand against the negated
right operand (l.Num > -r.Num). At l = 0, r = 0 the claim requires numeric 1
(0 >= 0 holds) while the code returns numeric 0; at l = 2, r = 3 the claim requires
numeric 0 (2 >= 3 fails) while the code returns numeric 1 (2 > -3). -/
theorem evalBinary_ge_is_negated_compare :
    evalBinary ">=" (Value.num 0) (Value.num 0) = Except.ok (Value.num 0) ∧
    ((0 : ℚ) ≥ 0) ∧
    evalBinary ">=" (Value.num 2) (Value.num 3) = Except.ok (Value.num 1) ∧
    ¬((2 : ℚ) ≥ 3) := by
  refine ⟨by rfl, by norm_num, by rfl, by norm_num⟩

/-- Helper for C10: with a non-positive budget, the one-line self jump cycle makes
the interpreter loop consume every unit of fuel with no visible progress. -/
theorem selfLoop_runLoop (maxOps : Int) (hle : maxOps ≤ 0) :
    ∀ fuel ops env inp out,
      runLoop progSelfLoop.Stmts [10] (idxOfA [10]) maxOps fuel 0 ops env inp out =
        (RunResult.fuelOut out, env, inp) := by
  intro fuel
  induction fuel with
  | zero => intro ops env inp out; rfl
  | succ n ih =>
    intro ops env inp out
    rw [runLoop]
    rw [dif_pos (show 0 < ([10] : List Int).length by decide)]
    rw [if_neg (show ¬((maxOps > 0) ∧ ((ops : Int) + 1) > maxOps) from fun h => absurd h.1 (by omega))]
    show runLoop progSelfLoop.Stmts [10] (idxOfA [10]) maxOps n 0
      (if maxOps > 0 then ops + 1 else ops) env inp out = (RunResult.fuelOut out, env, inp)
    rw [if_neg (show ¬(maxOps > 0) by omega)]
    exact ih ops env inp out

/-- C10: when MaxOps is zero or negative, the budget check is skipped: on the
program 10 GOTO 10 the run neither terminates nor reports the operation-limit
error — for every fuel bound the loop is still running (fuelOut) with no output. -/
theorem run_unbounded_when_maxOps_nonpositive (maxOps : Int) (fuel : ℕ) (hle : maxOps ≤ 0) :
    (RunI ⟨progSelfLoop, NewEnv, [], maxOps⟩ fuel).1 = RunResult.fuelOut [] := by
  have horder : OrderedLines progSelfLoop = [10] := rfl
  simp only [RunI, horder]
  rw [selfLoop_runLoop maxOps hle fuel 0 NewEnv [] []]
  rfl

/-- Witness for C10 at maxOps = 0 and fuel = 5. -/
theorem run_unbounded_when_maxOps_nonpositive_witness :
    (0 : Int) ≤ 0 ∧ (RunI ⟨progSelfLoop, NewEnv, [], 0⟩ 5).1 = RunResult.fuelOut [] :=
  ⟨by decide, run_unbounded_when_maxOps_nonpositive 0 5 (by decide)⟩

/-- Helper for C2: with a positive budget and fuel beyond the remaining budget,
the loop never runs out of fuel — every iteration either executes a counted
statement (shrinking the remaining budget) or stops with a result. -/
theorem runLoop_no_fuelOut (stmts : List (Int × Stmt)) (order : List Int)
    (li : Int → Option ℕ) (maxOps : Int) (hpos : 0 < maxOps) :
    ∀ (fuel ops : ℕ), (ops : Int) ≤ maxOps → maxOps.toNat - ops < fuel →
    ∀ pc env inp out,
      ((runLoop stmts order li maxOps fuel pc ops env inp out).1).isFuelOut = false := by
  intro fuel
  induction fuel with
  | zero => intro ops h1 h2; omega
  | succ n ih =>
    intro ops h1 h2 pc env inp out
    rw [runLoop]
    split
    · split
      · rfl
      · rename_i hlim
        have hops : (ops : Int) + 1 ≤ maxOps := by
          rcases Decidable.not_and_iff_or_not.mp hlim with h | h
          · exact absurd hpos h
          · omega
        split
        · rfl
        · split
          · rfl
          · rfl
          · exact ih (ops + 1) (by omega) (by omega) _ _ _ _
    · rfl

/-- C2: the default budget installed by NewInterpreter is 1,000,000, and whenever
MaxOps is positive, a run given fuel beyond MaxOps never exhausts it: the loop
stops — normally, with a runtime error, or with the probable-infinite-loop error
once the counted statement executions would exceed MaxOps (the error text being
the one runLoop emits when the budget check fires). So at most MaxOps statement
executions are ever performed. -/
theorem run_respects_step_budget :
    (∀ prog inp, (NewInterpreter prog inp).MaxOps = 1000000) ∧
    (∀ it fuel, 0 < it.MaxOps → it.MaxOps.toNat < fuel →
      ((RunI it fuel).1).isFuelOut = false) ∧
    (RunI ⟨progSelfLoop, NewEnv, [], 3⟩ 10).1 =
      RunResult.err "runtime error: operation limit exceeded (possible infinite loop)" [] := by
  refine ⟨fun prog inp => rfl, fun it fuel h1 h2 => ?_, by rfl⟩
  simp only [RunI]
  by_cases hlen : (OrderedLines it.Prog).length = 0
  · rw [if_pos hlen]; rfl
  · rw [if_neg hlen]
    exact runLoop_no_fuelOut it.Prog.Stmts (OrderedLines it.Prog)
      (idxOfA (OrderedLines it.Prog)) it.MaxOps h1 fuel 0 (by omega) (by omega) 0 it.Env it.Inp []

/-- Witness for C2: the self-jump program with MaxOps = 3 and fuel 10. -/
theorem run_respects_step_budget_witness :
    (0 : Int) < (Interp.mk progSelfLoop NewEnv [] 3).MaxOps ∧
    ((Interp.mk progSelfLoop NewEnv [] 3).MaxOps).toNat < 10 ∧
    ((RunI (Interp.mk progSelfLoop NewEnv [] 3) 10).1).isFuelOut = false :=
  ⟨by decide, by decide,
    run_respects_step_budget.2.1 (Interp.mk progSelfLoop NewEnv [] 3) 10 (by decide) (by decide)⟩

/-- Helper for C4: if some expression of the list fails to evaluate, the part
collection of the PRINT loop fails (with the message of the first failure). -/
theorem evalParts_error_of_mem (env : Env) :
    ∀ (exprs : List Expr), (∃ e ∈ exprs, ∃ m, evalExpr env e = Except.error m) →
      ∃ msg, evalParts env exprs = Except.error msg := by
  intro exprs
  induction exprs with
  | nil => rintro ⟨e, he, _⟩; cases he
  | cons a rest ih =>
    rintro ⟨e, he, m, hm⟩
    cases ha : evalExpr env a with
    | error msg2 => exact ⟨msg2, by rw [evalParts, ha]⟩
    | ok v =>
      have hrest : ∃ e ∈ rest, ∃ m, evalExpr env e = Except.error m := by
        rcases List.mem_cons.mp he with rfl | hr
        · rw [hm] at ha; cases ha
        · exact ⟨e, hr, m, hm⟩
      rcases ih hrest with ⟨msg, hmsg⟩
      exact ⟨msg, by rw [evalParts, ha, hmsg]⟩

/-- C4: if evaluating any expression of a PRINT statement fails, the statement
returns that error having written nothing (environment, input and output are
untouched); and the one-line program 10 PRINT 1 / 0 fails with a division-by-zero
runtime error naming line 10 while emitting no output at all. -/
theorem print_failfast :
    (∀ (li : Int → Option ℕ) (exprs : List Expr) (pc : ℕ) (env : Env)
        (inp out : List String),
      (∃ e ∈ exprs, ∃ m, evalExpr env e = Except.error m) →
      ∃ msg, evalParts env exprs = Except.error msg ∧
        execStmt li (Stmt.print exprs) pc env inp out = ⟨Except.error msg, env, inp, out⟩) ∧
    (RunI (NewInterpreter progDivZero []) 2).1 =
      RunResult.err "runtime error at line 10: division by zero" [] := by
  refine ⟨fun li exprs pc env inp out hex => ?_, by rfl⟩
  rcases evalParts_error_of_mem env exprs hex with ⟨msg, hmsg⟩
  refine ⟨msg, hmsg, ?_⟩
  cases exprs with
  | nil => rcases hex with ⟨e, he, _⟩; cases he
  | cons a rest => rw [execStmt, hmsg]

/-- Witness for C4 with the expression 1 / 0 under the empty environment. -/
theorem print_failfast_witness :
    (∃ e ∈ [Expr.binary "/" (Expr.numberLit 1) (Expr.numberLit 0)],
      ∃ m, evalExpr NewEnv e = Except.error m) ∧
    ∃ msg, evalParts NewEnv [Expr.binary "/" (Expr.numberLit 1) (Expr.numberLit 0)] =
        Except.error msg ∧
      execStmt (fun _ => none)
        (Stmt.print [Expr.binary "/" (Expr.numberLit 1) (Expr.numberLit 0)]) 0 NewEnv [] [] =
        ⟨Except.error msg, NewEnv, [], []⟩ :=
  ⟨⟨Expr.binary "/" (Expr.numberLit 1) (Expr.numberLit 0), List.mem_singleton.mpr rfl,
      "division by zero", by rfl⟩,
    print_failfast.1 (fun _ => none) _ 0 NewEnv [] []
      ⟨Expr.binary "/" (Expr.numberLit 1) (Expr.numberLit 0), List.mem_singleton.mpr rfl,
        "division by zero", by rfl⟩⟩

/-- Index search misses exactly the absent line numbers. -/
theorem idxOfA_eq_none_iff (l : List Int) (n : Int) : idxOfA l n = none ↔ n ∉ l := by
  induction l with
  | nil => simp [idxOfA]
  | cons k rest ih =>
    by_cases h : k = n
    · subst h; simp [idxOfA]
    · simp [idxOfA, h, Option.map_eq_none', ih, Ne.symm h]

/-- Index search returns a position holding the searched line number. -/
theorem idxOfA_get? (l : List Int) (n : Int) :
    ∀ i, idxOfA l n = some i → l.get? i = some n := by
  induction l with
  | nil => intro i h; cases h
  | cons k rest ih =>
    intro i h
    by_cases hk : k = n
    · subst hk; rw [idxOfA, if_pos rfl] at h; cases h; rfl
    · rw [idxOfA, if_neg hk] at h
      rcases Option.map_eq_some'.mp h with ⟨j, hj, rfl⟩
      simpa using ih j hj

/-- Membership in the ordered line list is membership among the table keys. -/
theorem mem_OrderedLines (p : Program) (n : Int) :
    n ∈ OrderedLines p ↔ n ∈ p.Stmts.map Prod.fst :=
  (List.perm_insertionSort (· ≤ ·) (p.Stmts.map Prod.fst)).mem_iff

/-- C5: a GOTO, or the true branch of a jump-target conditional, to a line number
absent from the program table fails with the undefined-line error (never a silent
advance), and to a present line number sets the program counter to that line's
position in the ascending line order. -/
theorem jump_resolution (p : Program) (pc : ℕ) (env : Env) (inp out : List String)
    (n : Int) (cond : Expr) (c : ℚ) :
    (n ∉ p.Stmts.map Prod.fst →
      execStmt (idxOfA (OrderedLines p)) (Stmt.goto n) pc env inp out =
        ⟨Except.error ("undefined line " ++ toString n), env, inp, out⟩) ∧
    (n ∈ p.Stmts.map Prod.fst →
      ∃ idx, idxOfA (OrderedLines p) n = some idx ∧
        execStmt (idxOfA (OrderedLines p)) (Stmt.goto n) pc env inp out =
          ⟨Except.ok (idx, false), env, inp, out⟩ ∧
        (OrderedLines p).get? idx = some n) ∧
    (evalExpr env cond = Except.ok (Value.num c) → c ≠ 0 →
      (n ∉ p.Stmts.map Prod.fst →
        execStmt (idxOfA (OrderedLines p)) (Stmt.ifLine cond n) pc env inp out =
          ⟨Except.error ("undefined line " ++ toString n), env, inp, out⟩) ∧
      (n ∈ p.Stmts.map Prod.fst →
        ∃ idx, idxOfA (OrderedLines p) n = some idx ∧
          execStmt (idxOfA (OrderedLines p)) (Stmt.ifLine cond n) pc env inp out =
            ⟨Except.ok (idx, false), env, inp, out⟩ ∧
          (OrderedLines p).get? idx = some n)) := by
  have habs : n ∉ p.Stmts.map Prod.fst → idxOfA (OrderedLines p) n = none := fun h =>
    (idxOfA_eq_none_iff _ _).mpr (fun hm => h ((mem_OrderedLines p n).mp hm))
  have hpres : n ∈ p.Stmts.map Prod.fst → ∃ idx, idxOfA (OrderedLines p) n = some idx := by
    intro h
    cases hi : idxOfA (OrderedLines p) n with
    | none => exact absurd ((idxOfA_eq_none_iff _ _).mp hi) (fun hn =>
        hn ((mem_OrderedLines p n).mpr h))
    | some idx => exact ⟨idx, rfl⟩
  refine ⟨fun h => ?_, fun h => ?_, fun hc hc0 => ⟨fun h => ?_, fun h => ?_⟩⟩
  · rw [execStmt, habs h]
  · rcases hpres h with ⟨idx, hidx⟩
    exact ⟨idx, hidx, by rw [execStmt, hidx], idxOfA_get? _ _ idx hidx⟩
  · simp only [execStmt, hc, if_neg hc0, habs h]
  · rcases hpres h with ⟨idx, hidx⟩
    exact ⟨idx, hidx, by simp only [execStmt, hc, if_neg hc0, hidx], idxOfA_get? _ _ idx hidx⟩

/-- Witness for C5 on the program 10 GOTO 40 (line 40 absent, line 10 present),
with the conditional IF 1 THEN n forms. -/
theorem jump_resolution_witness :
    ((40 : Int) ∉ progBadGoto.Stmts.map Prod.fst ∧
      execStmt (idxOfA (OrderedLines progBadGoto)) (Stmt.goto 40) 0 NewEnv [] [] =
        ⟨Except.error "undefined line 40", NewEnv, [], []⟩) ∧
    ((10 : Int) ∈ progBadGoto.Stmts.map Prod.fst ∧
      ∃ idx, idxOfA (OrderedLines progBadGoto) (10 : Int) = some idx ∧
        execStmt (idxOfA (OrderedLines progBadGoto)) (Stmt.goto 10) 0 NewEnv [] [] =
          ⟨Except.ok (idx, false), NewEnv, [], []⟩ ∧
        (OrderedLines progBadGoto).get? idx = some 10) := by
  constructor
  · refine ⟨by decide, ?_⟩
    have h := (jump_resolution progBadGoto 0 NewEnv [] [] 40 (Expr.numberLit 1) 1).1
    exact h (by decide)
  · refine ⟨by decide, ?_⟩
    have h := (jump_resolution progBadGoto 0 NewEnv [] [] 10 (Expr.numberLit 1) 1).2.1
    exact h (by decide)

/-- Keys after a map write are the old keys plus the written key. -/
theorem mem_keys_setA {κ α : Type} [DecidableEq κ] (l : List (κ × α)) (k a : κ) (v : α) :
    a ∈ (setA l k v).map Prod.fst ↔ a = k ∨ a ∈ l.map Prod.fst := by
  induction l with
  | nil => simp [setA]
  | cons kv rest ih =>
    rcases kv with ⟨k1, v1⟩
    by_cases h : k1 = k
    · subst h; simp [setA]
    · simp [setA, h, ih]; tauto

/-- A map write preserves key uniqueness. -/
theorem nodup_keys_setA {κ α : Type} [DecidableEq κ] (l : List (κ × α)) (k : κ) (v : α)
    (h : (l.map Prod.fst).Nodup) : ((setA l k v).map Prod.fst).Nodup := by
  induction l with
  | nil => simp [setA]
  | cons kv rest ih =>
    rcases kv with ⟨k1, v1⟩
    rcases List.nodup_cons.mp h with ⟨hk1, hrest⟩
    by_cases hk : k1 = k
    · subst hk
      simpa [setA] using List.nodup_cons.mpr ⟨hk1, hrest⟩
    · simp only [setA, if_neg hk, List.map_cons]
      refine List.nodup_cons.mpr ⟨?_, ih hrest⟩
      intro hmem
      rcases (mem_keys_setA rest k k1 v).mp hmem with rfl | hmem2
      · exact hk rfl
      · exact hk1 hmem2

/-- Keys after a map delete are the old keys minus the deleted key. -/
theorem mem_keys_removeA {κ α : Type} [DecidableEq κ] (l : List (κ × α)) (k a : κ) :
    a ∈ (removeA l k).map Prod.fst ↔ a ∈ l.map Prod.fst ∧ a ≠ k := by
  induction l with
  | nil => simp [removeA]
  | cons kv rest ih =>
    rcases kv with ⟨k1, v1⟩
    by_cases h : k1 = k
    · subst h; simp [removeA, ih]; tauto
    · simp [removeA, h, ih]
      constructor
      · rintro (rfl | ⟨hm, hne⟩)
        · exact ⟨Or.inl rfl, h⟩
        · exact ⟨Or.inr hm, hne⟩
      · rintro ⟨rfl | hm, hne⟩
        · exact Or.inl rfl
        · exact Or.inr ⟨hm, hne⟩

/-- A map delete preserves key uniqueness. -/
theorem nodup_keys_removeA {κ α : Type} [DecidableEq κ] (l : List (κ × α)) (k : κ)
    (h : (l.map Prod.fst).Nodup) : ((removeA l k).map Prod.fst).Nodup := by
  induction l with
  | nil => simp [removeA]
  | cons kv rest ih =>
    rcases kv with ⟨k1, v1⟩
    rcases List.nodup_cons.mp h with ⟨hk1, hrest⟩
    by_cases hk : k1 = k
    · subst hk; simpa [removeA] using ih hrest
    · simp only [removeA, if_neg hk, List.map_cons]
      exact List.nodup_cons.mpr
        ⟨fun hm => hk1 ((mem_keys_removeA rest k k1).mp hm).1, ih hrest⟩

/-- Lookup succeeds exactly on present keys. -/
theorem lookupA_isSome_iff {κ α : Type} [DecidableEq κ] (l : List (κ × α)) (k : κ) :
    (lookupA l k).isSome = true ↔ k ∈ l.map Prod.fst := by
  induction l with
  | nil => simp [lookupA]
  | cons kv rest ih =>
    rcases kv with ⟨k1, v1⟩
    by_cases h : k1 = k
    · subst h; simp [lookupA]
    · simp [lookupA, h, ih, Ne.symm h]

/-- Every sequence of set/delete operations keeps the table keys unique. -/
theorem keys_nodup_applyOps (ops : List POp) :
    ∀ p : Program, (p.Stmts.map Prod.fst).Nodup →
      ((applyOps ops p).Stmts.map Prod.fst).Nodup := by
  induction ops with
  | nil => exact fun p h => h
  | cons op rest ih =>
    intro p h
    cases op with
    | set n s st => exact ih _ (nodup_keys_setA _ _ _ h)
    | del n => exact ih _ (nodup_keys_removeA _ _ h)

/-- Ascending-with-uniqueness follows from sortedness plus no duplicates. -/
theorem sorted_lt_of_sorted_le_nodup {l : List Int} (hs : l.Sorted (· ≤ ·))
    (hn : l.Nodup) : l.Sorted (· < ·) :=
  (List.Pairwise.and hs hn).imp (fun h => lt_of_le_of_ne h.1 h.2)

/-- C7: after any sequence of SetLine and DeleteLine operations starting from the
empty program, OrderedLines lists the line numbers in strictly ascending order
(hence each occurs once) and contains exactly the keys currently stored in the
statement table, regardless of the order of insertions, replacements, deletions. -/
theorem orderedLines_sorted_complete (ops : List POp) :
    (OrderedLines (applyOps ops NewProgram)).Sorted (· < ·) ∧
    ∀ n : Int, n ∈ OrderedLines (applyOps ops NewProgram) ↔
      (lookupA (applyOps ops NewProgram).Stmts n).isSome = true := by
  have hkn : ((applyOps ops NewProgram).Stmts.map Prod.fst).Nodup :=
    keys_nodup_applyOps ops NewProgram (by simp [NewProgram])
  have hperm :=
    List.perm_insertionSort (· ≤ ·) ((applyOps ops NewProgram).Stmts.map Prod.fst)
  constructor
  · exact sorted_lt_of_sorted_le_nodup
      (List.sorted_insertionSort (· ≤ ·) _) (hperm.nodup_iff.mpr hkn)
  · intro n
    rw [mem_OrderedLines, lookupA_isSome_iff]

/-- Reading back the key just written yields the written value. -/
theorem lookupA_setA_self {κ α : Type} [DecidableEq κ] (l : List (κ × α)) (k : κ) (v : α) :
    lookupA (setA l k v) k = some v := by
  induction l with
  | nil => simp [setA, lookupA]
  | cons kv rest ih =>
    rcases kv with ⟨k1, v1⟩
    by_cases h : k1 = k
    · subst h; simp [setA, lookupA]
    · simp [setA, lookupA, h, ih]

/-- C8: Env.Get is total — after upper-casing the name, a name with the string
suffix yields the stored text (empty text when unset) and any other name yields
the stored number (zero when unset); and since Get and Set both upper-case first,
names equal up to letter case address the same slot: a successful Set under one
spelling is observed by Get under the other. -/
theorem env_get_total_case_insensitive :
    (∀ (e : Env) (name : String), isStrName (upName name) = true →
      lookupA e.StrVars (upName name) = none → Env.Get e name = Value.str "") ∧
    (∀ (e : Env) (name : String), isStrName (upName name) = false →
      lookupA e.NumVars (upName name) = none → Env.Get e name = Value.num 0) ∧
    (∀ (e : Env) (name s : String), isStrName (upName name) = true →
      lookupA e.StrVars (upName name) = some s → Env.Get e name = Value.str s) ∧
    (∀ (e : Env) (name : String) (q : ℚ), isStrName (upName name) = false →
      lookupA e.NumVars (upName name) = some q → Env.Get e name = Value.num q) ∧
    (∀ (e e2 : Env) (n1 n2 : String) (v : Value), upName n1 = upName n2 →
      Env.Set e n1 v = Except.ok e2 → Env.Get e2 n2 = v) := by
  refine ⟨fun e name h1 h2 => ?_, fun e name h1 h2 => ?_, fun e name s h1 h2 => ?_,
    fun e name q h1 h2 => ?_, fun e e2 n1 n2 v heq hset => ?_⟩
  · simp [Env.Get, h1, h2]
  · simp [Env.Get, h1, h2]
  · simp [Env.Get, h1, h2]
  · simp [Env.Get, h1, h2]
  · by_cases hs : isStrName (upName n1) = true
    · simp only [Env.Set, hs, if_true] at hset
      cases v with
      | num n => cases hset
      | str s =>
        injection hset with h2
        subst h2
        simp [Env.Get, ← heq, hs, lookupA_setA_self]
    · simp only [Env.Set, hs, Bool.false_eq_true, if_false] at hset
      cases v with
      | str s => cases hset
      | num n =>
        injection hset with h2
        subst h2
        simp [Env.Get, ← heq, hs, lookupA_setA_self]

/-- Witness for C8: the unset defaults on the empty environment for names A and
A-dollar, a stored read, and a mixed-case set/get pair on the same slot. -/
theorem env_get_total_case_insensitive_witness :
    (isStrName (upName "a$") = true ∧ lookupA NewEnv.StrVars (upName "a$") = none ∧
      Env.Get NewEnv "a$" = Value.str "") ∧
    (isStrName (upName "a") = false ∧ lookupA NewEnv.NumVars (upName "a") = none ∧
      Env.Get NewEnv "a" = Value.num 0) ∧
    (upName "x" = upName "X" ∧ Env.Set NewEnv "x" (Value.num 7) = Except.ok ⟨[("X", 7)], []⟩ ∧
      Env.Get ⟨[("X", 7)], []⟩ "X" = Value.num 7) := by
  refine ⟨⟨by decide, by rfl, ?_⟩, ⟨by decide, by rfl, ?_⟩, ⟨by decide, by rfl, ?_⟩⟩
  · exact env_get_total_case_insensitive.1 NewEnv "a$" (by decide) (by rfl)
  · exact env_get_total_case_insensitive.2.1 NewEnv "a" (by decide) (by rfl)
  · exact env_get_total_case_insensitive.2.2.2.2 NewEnv ⟨[("X", 7)], []⟩ "x" "X"
      (Value.num 7) (by decide) (by rfl)

/-- A successful lookup locates an entry of the list. -/
theorem lookupA_mem {κ α : Type} [DecidableEq κ] (l : List (κ × α)) (k : κ) (v : α)
    (h : lookupA l k = some v) : (k, v) ∈ l := by
  induction l with
  | nil => cases h
  | cons kv rest ih =>
    rcases kv with ⟨k1, v1⟩
    rw [lookupA] at h
    by_cases hk : k1 = k
    · rw [if_pos hk] at h
      injection h with h
      subst hk; subst h
      exact List.mem_cons_self _ _
    · rw [if_neg hk] at h
      exact List.mem_cons_of_mem _ (ih h)

/-- A statement with no INPUT form neither consumes nor inspects the input list:
its result, environment and output are the same under any input, and the input
comes back unchanged. -/
theorem execStmt_no_input_inp :
    ∀ (s : Stmt), noInputStmt s = true →
    ∀ (li : Int → Option ℕ) (pc : ℕ) (env : Env) (inp inp2 out : List String),
      (execStmt li s pc env inp out).res = (execStmt li s pc env inp2 out).res ∧
      (execStmt li s pc env inp out).env = (execStmt li s pc env inp2 out).env ∧
      (execStmt li s pc env inp out).out = (execStmt li s pc env inp2 out).out ∧
      (execStmt li s pc env inp out).inp = inp := by
  intro s
  induction s with
  | rem => intros; exact ⟨rfl, rfl, rfl, rfl⟩
  | letS name e =>
    intro hni li pc env inp inp2 out
    simp only [execStmt]
    cases hv : evalExpr env e with
    | error msg => exact ⟨rfl, rfl, rfl, rfl⟩
    | ok v =>
      dsimp only
      cases hs : env.Set name v with
      | error msg => exact ⟨rfl, rfl, rfl, rfl⟩
      | ok env3 => exact ⟨rfl, rfl, rfl, rfl⟩
  | print exprs =>
    intro hni li pc env inp inp2 out
    cases exprs with
    | nil => exact ⟨rfl, rfl, rfl, rfl⟩
    | cons a rest =>
      simp only [execStmt]
      cases hp : evalParts env (a :: rest) with
      | error msg => exact ⟨rfl, rfl, rfl, rfl⟩
      | ok parts => exact ⟨rfl, rfl, rfl, rfl⟩
  | input name =>
    intro hni
    exact Bool.noConfusion hni
  | ifS cond thenStmt ih =>
    intro hni li pc env inp inp2 out
    simp only [execStmt]
    cases hv : evalExpr env cond with
    | error msg => exact ⟨rfl, rfl, rfl, rfl⟩
    | ok v =>
      cases v with
      | str s2 => exact ⟨rfl, rfl, rfl, rfl⟩
      | num c =>
        by_cases hc : c = 0
        · simp [hc]
        · simp only [if_neg hc]
          exact ih hni li pc env inp inp2 out
  | ifLine cond thenLine =>
    intro hni li pc env inp inp2 out
    simp only [execStmt]
    cases hv : evalExpr env cond with
    | error msg => exact ⟨rfl, rfl, rfl, rfl⟩
    | ok v =>
      cases v with
      | str s2 => exact ⟨rfl, rfl, rfl, rfl⟩
      | num c =>
        by_cases hc : c = 0
        · simp [hc]
        · simp only [if_neg hc]
          cases hl : li thenLine with
          | none => exact ⟨rfl, rfl, rfl, rfl⟩
          | some idx => exact ⟨rfl, rfl, rfl, rfl⟩
  | goto line =>
    intro hni li pc env inp inp2 out
    simp only [execStmt]
    cases hl : li line with
    | none => exact ⟨rfl, rfl, rfl, rfl⟩
    | some idx => exact ⟨rfl, rfl, rfl, rfl⟩
  | endS => intros; exact ⟨rfl, rfl, rfl, rfl⟩

/-- A run of a program without INPUT statements produces a result and final
environment that do not depend on the input list. -/
theorem runLoop_no_input_inp (stmts : List (Int × Stmt))
    (hni : ∀ ls ∈ stmts, noInputStmt ls.2 = true) (order : List Int)
    (li : Int → Option ℕ) (maxOps : Int) :
    ∀ (fuel pc ops : ℕ) (env : Env) (inp inp2 out : List String),
      (runLoop stmts order li maxOps fuel pc ops env inp out).1 =
        (runLoop stmts order li maxOps fuel pc ops env inp2 out).1 ∧
      (runLoop stmts order li maxOps fuel pc ops env inp out).2.1 =
        (runLoop stmts order li maxOps fuel pc ops env inp2 out).2.1 := by
  intro fuel
  induction fuel with
  | zero => intros; exact ⟨rfl, rfl⟩
  | succ n ih =>
    intro pc ops env inp inp2 out
    rw [runLoop, runLoop]
    by_cases hpc : pc < order.length
    · rw [dif_pos hpc, dif_pos hpc]
      by_cases hlim : (maxOps > 0) ∧ ((ops : Int) + 1) > maxOps
      · rw [if_pos hlim, if_pos hlim]
        exact ⟨rfl, rfl⟩
      · rw [if_neg hlim, if_neg hlim]
        cases hlk : lookupA stmts (order.get ⟨pc, hpc⟩) with
        | none => exact ⟨rfl, rfl⟩
        | some stmt =>
          have hs : noInputStmt stmt = true :=
            hni _ (lookupA_mem stmts (order.get ⟨pc, hpc⟩) stmt hlk)
          dsimp only
          rcases h1 : execStmt li stmt pc env inp out with ⟨res1, env1, inpA, out1⟩
          rcases h2 : execStmt li stmt pc env inp2 out with ⟨res2, env2, inpB, out2⟩
          obtain ⟨hres, henv, hout, hinp⟩ :=
            execStmt_no_input_inp stmt hs li pc env inp inp2 out
          rw [h1, h2] at hres henv hout
          simp only at hres henv hout
          subst hres; subst henv; subst hout
          cases res1 with
          | error msg => exact ⟨rfl, rfl⟩
          | ok p =>
            rcases p with ⟨nextPC, fin⟩
            cases fin with
            | true => exact ⟨rfl, rfl⟩
            | false => exact ih nextPC _ env1 inpA inpB out1
    · rw [dif_neg hpc, dif_neg hpc]
      exact ⟨rfl, rfl⟩

/-- Amended C9: running the same stored program twice, each run preceded by
ResetEnv, produces identical results — provided the program contains no INPUT
statement. (The original claim fails because the input reader is shared across
runs, so INPUT statements observe different data on the second run.) -/
theorem rerun_idempotent_no_input (it : Interp) (fuel : ℕ)
    (hni : ∀ ls ∈ it.Prog.Stmts, noInputStmt ls.2 = true) :
    (runTwice it fuel).1 = (runTwice it fuel).2 := by
  simp only [runTwice, RunI, ResetEnv]
  by_cases hlen : (OrderedLines it.Prog).length = 0
  · simp [hlen]
  · simp only [if_neg hlen]
    exact (runLoop_no_input_inp it.Prog.Stmts hni (OrderedLines it.Prog)
      (idxOfA (OrderedLines it.Prog)) it.MaxOps fuel 0 0 NewEnv it.Inp _ []).1

/-- Counterexample to C9 as stated: for the program 10 INPUT X / 20 PRINT X with
pending input lines 1 and 2, the first and second post-reset runs emit different
output, because the second run reads the next line of the shared input reader. -/
theorem rerun_not_idempotent_with_input :
    (runTwice (NewInterpreter progInput ["1", "2"]) 5).1 = RunResult.ok ["? ", "1\n"] ∧
    (runTwice (NewInterpreter progInput ["1", "2"]) 5).2 = RunResult.ok ["? ", "2\n"] ∧
    (runTwice (NewInterpreter progInput ["1", "2"]) 5).1 ≠
      (runTwice (NewInterpreter progInput ["1", "2"]) 5).2 := by
  refine ⟨by rfl, by rfl, ?_⟩
  intro h
  rw [show (runTwice (NewInterpreter progInput ["1", "2"]) 5).1 =
        RunResult.ok ["? ", "1\n"] from rfl,
      show (runTwice (NewInterpreter progInput ["1", "2"]) 5).2 =
        RunResult.ok ["? ", "2\n"] from rfl] at h
  simp at h

/-- Witness for the amended C9 on the INPUT-free program 10 LET X = 5 / 20 PRINT X + 1. -/
theorem rerun_idempotent_no_input_witness :
    (∀ ls ∈ (NewInterpreter progPlain []).Prog.Stmts, noInputStmt ls.2 = true) ∧
    (runTwice (NewInterpreter progPlain []) 5).1 = (runTwice (NewInterpreter progPlain []) 5).2 :=
  ⟨by decide, rerun_idempotent_no_input (NewInterpreter progPlain []) 5 (by decide)⟩

/-- C3: precedence climbing groups 1 + 2 * 3 as 1 + (2 * 3), which evaluates to
7 (not 9), and groups the same-precedence chain 2 - 3 - 4 left-associatively as
(2 - 3) - 4, which evaluates to -5 (not 3). -/
theorem precedence_trees :
    parseExprTop "1 + 2 * 3" =
      some (Expr.binary "+" (Expr.numberLit 1)
        (Expr.binary "*" (Expr.numberLit 2) (Expr.numberLit 3))) ∧
    (parseExprTop "1 + 2 * 3").map (evalExpr NewEnv) = some (Except.ok (Value.num 7)) ∧
    parseExprTop "2 - 3 - 4" =
      some (Expr.binary "-" (Expr.binary "-" (Expr.numberLit 2) (Expr.numberLit 3))
        (Expr.numberLit 4)) ∧
    (parseExprTop "2 - 3 - 4").map (evalExpr NewEnv) =
      some (Except.ok (Value.num (-5))) := by
  refine ⟨by rfl, ?_, by rfl, ?_⟩
  · rw [show parseExprTop "1 + 2 * 3" =
      some (Expr.binary "+" (Expr.numberLit 1)
        (Expr.binary "*" (Expr.numberLit 2) (Expr.numberLit 3))) from rfl]
    simp [evalExpr, evalBinary]
    norm_num
  · rw [show parseExprTop "2 - 3 - 4" =
      some (Expr.binary "-" (Expr.binary "-" (Expr.numberLit 2) (Expr.numberLit 3))
        (Expr.numberLit 4)) from rfl]
    simp [evalExpr, evalBinary]
    norm_num

/-- Unfolding: exhausted value leaves the accumulator. -/
theorem natToCharsAux_zero (fuel : ℕ) (acc : List Char) :
    natToCharsAux fuel 0 acc = acc := by
  cases fuel with
  | zero => rfl
  | succ f => simp [natToCharsAux]

/-- Unfolding: a positive value pushes its last digit. -/
theorem natToCharsAux_succ (fuel n : ℕ) (acc : List Char) (h : n ≠ 0) :
    natToCharsAux (fuel + 1) n acc =
      natToCharsAux fuel (n / 10) (digitChar (n % 10) :: acc) := by
  rw [natToCharsAux, if_neg h]

/-- Digit characters are digits. -/
theorem digitChar_isDigit (r : ℕ) (h : r < 10) : isDigitCh (digitChar r) = true := by
  interval_cases r <;> decide

/-- Digit characters decode to their value. -/
theorem digitVal_digitChar (r : ℕ) (h : r < 10) : digitVal (digitChar r) = r := by
  interval_cases r <;> decide

/-- All characters produced by the digit writer are digits. -/
theorem natToCharsAux_all (n : ℕ) : ∀ (fuel : ℕ) (acc : List Char), n ≤ fuel →
    (natToCharsAux fuel n acc).all isDigitCh = acc.all isDigitCh := by
  induction n using Nat.strong_induction_on with
  | _ n ih =>
    intro fuel acc hle
    by_cases h0 : n = 0
    · subst h0; rw [natToCharsAux_zero]
    · obtain ⟨f, rfl⟩ : ∃ f, fuel = f + 1 := ⟨fuel - 1, by omega⟩
      rw [natToCharsAux_succ f n acc h0]
      have hdiv : n / 10 < n := Nat.div_lt_self (by omega) (by norm_num)
      rw [ih (n / 10) hdiv f _ (by omega)]
      simp [digitChar_isDigit (n % 10) (Nat.mod_lt n (by norm_num))]

/-- The digit writer never returns an empty list for a positive value. -/
theorem natToCharsAux_ne_nil (n : ℕ) : ∀ (fuel : ℕ) (acc : List Char),
    n ≠ 0 → n ≤ fuel → natToCharsAux fuel n acc ≠ [] := by
  induction n using Nat.strong_induction_on with
  | _ n ih =>
    intro fuel acc h0 hle
    obtain ⟨f, rfl⟩ : ∃ f, fuel = f + 1 := ⟨fuel - 1, by omega⟩
    rw [natToCharsAux_succ f n acc h0]
    by_cases hq : n / 10 = 0
    · rw [hq, natToCharsAux_zero]; simp
    · exact ih (n / 10) (Nat.div_lt_self (by omega) (by norm_num)) f _ hq (by omega)

/-- Folding the digit writer output decodes through dval. -/
theorem natToCharsAux_fold (n : ℕ) : ∀ (fuel : ℕ) (acc : List Char) (a : ℕ), n ≤ fuel →
    (natToCharsAux fuel n acc).foldl (fun x c => 10 * x + digitVal c) a =
      acc.foldl (fun x c => 10 * x + digitVal c) (dval a n) := by
  induction n using Nat.strong_induction_on with
  | _ n ih =>
    intro fuel acc a hle
    by_cases h0 : n = 0
    · subst h0; rw [natToCharsAux_zero, dval]; simp
    · obtain ⟨f, rfl⟩ : ∃ f, fuel = f + 1 := ⟨fuel - 1, by omega⟩
      rw [natToCharsAux_succ f n acc h0]
      have hdiv : n / 10 < n := Nat.div_lt_self (by omega) (by norm_num)
      rw [ih (n / 10) hdiv f _ a (by omega)]
      rw [List.foldl_cons, digitVal_digitChar (n % 10) (Nat.mod_lt n (by norm_num))]
      conv_rhs => rw [dval]
      rw [if_neg h0]

/-- dval at zero is the plain value. -/
theorem dval_zero_eq (n : ℕ) : dval 0 n = n := by
  induction n using Nat.strong_induction_on with
  | _ n ih =>
    by_cases h0 : n = 0
    · subst h0; rw [dval]; simp
    · rw [dval, if_neg h0, ih (n / 10) (Nat.div_lt_self (by omega) (by norm_num))]
      omega

/-- The decimal rendering of a natural number consists of digits. -/
theorem natToChars_all (n : ℕ) : (natToChars n).all isDigitCh = true := by
  rw [natToChars]
  by_cases h0 : n = 0
  · rw [if_pos h0]; decide
  · rw [if_neg h0, natToCharsAux_all n n [] le_rfl]; rfl

/-- The decimal rendering of a natural number is nonempty. -/
theorem natToChars_ne_nil (n : ℕ) : natToChars n ≠ [] := by
  rw [natToChars]
  by_cases h0 : n = 0
  · rw [if_pos h0]; simp
  · rw [if_neg h0]; exact natToCharsAux_ne_nil n n [] h0 le_rfl

/-- Decimal rendering and decoding of naturals are inverse. -/
theorem digitsToNat_natToChars (n : ℕ) : digitsToNat (natToChars n) = n := by
  rw [natToChars]
  by_cases h0 : n = 0
  · rw [if_pos h0, h0]; decide
  · rw [if_neg h0]
    rw [digitsToNat, natToCharsAux_fold n n [] 0 le_rfl]
    simp [dval_zero_eq]

/-- Whitespace skipping never lengthens the input. -/
theorem skipWS_length (cs : List Char) : (skipWS cs).length ≤ cs.length := by
  induction cs with
  | nil => simp [skipWS]
  | cons c cs ih =>
    rw [skipWS]
    by_cases h : c = ' ' ∨ c = '\t' ∨ c = '\r'
    · rw [if_pos h]; exact le_trans ih (by simp)
    · rw [if_neg h]

/-- Identifier reading leaves a suffix of its input. -/
theorem readIdentCore_length (cs : List Char) : (readIdentCore cs).2.length ≤ cs.length := by
  induction cs with
  | nil => simp [readIdentCore]
  | cons c cs ih =>
    rw [readIdentCore]
    by_cases h : isIdentCh c = true
    · rw [if_pos h]
      exact le_trans ih (by simp)
    · rw [if_neg h]
      by_cases h2 : c = '$'
      · rw [if_pos h2]; simp
      · rw [if_neg h2]

/-- Number reading leaves a suffix of its input. -/
theorem readNumCore_length : ∀ (cs : List Char) (b : Bool),
    (readNumCore b cs).2.length ≤ cs.length := by
  intro cs
  induction cs with
  | nil => intro b; simp [readNumCore]
  | cons c cs ih =>
    intro b
    rw [readNumCore]
    by_cases h : isDigitCh c = true
    · rw [if_pos h]
      exact le_trans (ih b) (by simp)
    · rw [if_neg h]
      by_cases h2 : (¬b = true) ∧ c = '.'
      · rw [if_pos h2]
        exact le_trans (ih true) (by simp)
      · rw [if_neg h2]

/-- String reading leaves a suffix of its input. -/
theorem readStrCore_length : ∀ (cs s r : List Char),
    readStrCore cs = some (s, r) → r.length ≤ cs.length := by
  intro cs
  induction cs with
  | nil => intro s r h; cases h
  | cons c cs ih =>
    intro s r h
    rw [readStrCore] at h
    by_cases h1 : c = '"'
    · rw [if_pos h1] at h
      injection h with h
      injection h with h2 h3
      subst h3; simp
    · rw [if_neg h1] at h
      by_cases h2 : c = '\n'
      · rw [if_pos h2] at h; cases h
      · rw [if_neg h2] at h
        cases hrec : readStrCore cs with
        | none => rw [hrec] at h; cases h
        | some pr =>
          rcases pr with ⟨s2, r2⟩
          rw [hrec] at h
          injection h with h
          injection h with h3 h4
          subst h4
          exact le_trans (ih s2 r2 hrec) (by simp)

/-- Any token other than end-of-input consumes at least one character. -/
theorem nextToken_progress (cs : List Char) :
    (nextToken cs).1.type = TokType.eofT ∨ (nextToken cs).2.length < cs.length := by
  rw [nextToken]
  cases hsk : skipWS cs with
  | nil => left; rfl
  | cons c cs1 =>
    have hlen : cs1.length < cs.length := by
      have h := skipWS_length cs
      rw [hsk] at h
      simp only [List.length_cons] at h
      omega
    right
    dsimp only
    by_cases h1 : c = '+'
    · rw [if_pos h1]; exact hlen
    rw [if_neg h1]
    by_cases h2 : c = '-'
    · rw [if_pos h2]; exact hlen
    rw [if_neg h2]
    by_cases h3 : c = '*'
    · rw [if_pos h3]; exact hlen
    rw [if_neg h3]
    by_cases h4 : c = '/'
    · rw [if_pos h4]; exact hlen
    rw [if_neg h4]
    by_cases h5 : c = '('
    · rw [if_pos h5]; exact hlen
    rw [if_neg h5]
    by_cases h6 : c = ')'
    · rw [if_pos h6]; exact hlen
    rw [if_neg h6]
    by_cases h7 : c = ','
    · rw [if_pos h7]; exact hlen
    rw [if_neg h7]
    by_cases h8 : c = '='
    · rw [if_pos h8]; exact hlen
    rw [if_neg h8]
    by_cases h9 : c = '<'
    · rw [if_pos h9]
      split
      · rename_i cs2 heq
        dsimp only
        simp only [List.length_cons] at hlen
        omega
      · rename_i cs2 heq
        dsimp only
        simp only [List.length_cons] at hlen
        omega
      · exact hlen
    rw [if_neg h9]
    by_cases h10 : c = '>'
    · rw [if_pos h10]
      split
      · rename_i cs2 heq
        dsimp only
        simp only [List.length_cons] at hlen
        omega
      · exact hlen
    rw [if_neg h10]
    by_cases h11 : c = '"'
    · rw [if_pos h11]
      split
      · simp only [List.length_nil]; omega
      · rename_i s r heq
        have := readStrCore_length cs1 s r heq
        simp only []
        omega
    rw [if_neg h11]
    by_cases h12 : isLetterCh c = true
    · rw [if_pos h12]
      have hident : isIdentCh c = true := by simp [isIdentCh, h12]
      have : (readIdentCore (c :: cs1)).2.length ≤ cs1.length := by
        rw [readIdentCore, if_pos hident]
        exact readIdentCore_length cs1
      simp only []
      omega
    rw [if_neg h12]
    by_cases h13 : isDigitCh c = true
    · rw [if_pos h13]
      have : (readNumCore false (c :: cs1)).2.length ≤ cs1.length := by
        rw [readNumCore, if_pos h13]
        exact readNumCore_length cs1 false
      simp only []
      omega
    rw [if_neg h13]
    exact hlen

/-- Any fuel beyond the input length yields the same token stream. -/
theorem tokenizeF_stable : ∀ (n : ℕ) (cs : List Char), cs.length = n →
    ∀ fuel, n < fuel → tokenizeF fuel cs = tokenizeF (n + 1) cs := by
  intro n
  induction n using Nat.strong_induction_on with
  | _ n ih =>
    intro cs hcs fuel hfuel
    obtain ⟨f, rfl⟩ : ∃ f, fuel = f + 1 := ⟨fuel - 1, by omega⟩
    rw [tokenizeF, tokenizeF]
    cases hnt : nextToken cs with
    | mk t rest =>
      dsimp only
      by_cases ht : t.type = TokType.eofT
      · rw [if_pos ht, if_pos ht]
      · rw [if_neg ht, if_neg ht]
        have hpr := nextToken_progress cs
        rw [hnt] at hpr
        rcases hpr with hpr | hpr
        · exact absurd hpr ht
        · simp only at hpr
          rw [ih rest.length (by omega) rest rfl f (by omega),
            ih rest.length (by omega) rest rfl n (by omega)]

/-- Stepping the token stream by one produced token. -/
theorem tokens_cons_of {cs : List Char} {t : Token} {rest : List Char}
    (h : nextToken cs = (t, rest)) (ht : ¬t.type = TokType.eofT) :
    tokens cs = t :: tokens rest := by
  rw [tokens, tokenizeF, h]
  dsimp only
  rw [if_neg ht]
  have hpr := nextToken_progress cs
  rw [h] at hpr
  rcases hpr with hpr | hpr
  · exact absurd hpr ht
  · simp only at hpr
    rw [tokenizeF_stable rest.length rest rfl cs.length (by omega)]
    rfl

/-- The empty input lexes to no tokens. -/
theorem tokens_nil : tokens ([] : List Char) = [] := rfl

/-- Tokenization is insensitive to a leading space. -/
theorem tokens_space (cs : List Char) : tokens (' ' :: cs) = tokens cs := by
  have hnt : nextToken (' ' :: cs) = nextToken cs := by
    rw [nextToken, nextToken, show skipWS (' ' :: cs) = skipWS cs from by
      rw [skipWS]; simp]
  rw [tokens, tokens, tokenizeF, tokenizeF, hnt]
  cases hn2 : nextToken cs with
  | mk t rest =>
    dsimp only
    by_cases ht : t.type = TokType.eofT
    · rw [if_pos ht, if_pos ht]
    · rw [if_neg ht, if_neg ht]
      have hpr := nextToken_progress cs
      rw [hn2] at hpr
      rcases hpr with hpr | hpr
      · exact absurd hpr ht
      · simp only at hpr
        simp only [List.length_cons]
        rw [tokenizeF_stable rest.length rest rfl (cs.length + 1) (by omega),
          tokenizeF_stable rest.length rest rfl cs.length (by omega)]

/-- Character order coincides with order of code points. -/
theorem char_toNat_le_iff {a b : Char} : a ≤ b ↔ a.toNat ≤ b.toNat := Iff.rfl

/-- Digits lie between code points 48 and 57. -/
theorem isDigit_toNat {c : Char} (h : isDigitCh c = true) :
    48 ≤ c.toNat ∧ c.toNat ≤ 57 := by
  rw [isDigitCh, decide_eq_true_iff] at h
  exact ⟨char_toNat_le_iff.mp h.1, char_toNat_le_iff.mp h.2⟩

/-- A digit differs from any non-digit character. -/
theorem digit_ne_of {c : Char} (h : isDigitCh c = true) {d : Char}
    (hd : isDigitCh d = false) : c ≠ d := by
  intro he
  subst he
  rw [h] at hd
  cases hd

/-- Digits are not whitespace. -/
theorem not_ws_of_digit {c : Char} (h : isDigitCh c = true) :
    ¬(c = ' ' ∨ c = '\t' ∨ c = '\r') := by
  rintro (rfl | rfl | rfl) <;> exact absurd h (by decide)

/-- Digits are not letters. -/
theorem isLetterCh_false_of_digit {c : Char} (h : isDigitCh c = true) :
    isLetterCh c = false := by
  obtain ⟨h1, h2⟩ := isDigit_toNat h
  rw [isLetterCh]
  simp only [Char.isAlpha, Char.isUpper, Char.isLower, Bool.or_eq_false_iff,
    Bool.and_eq_false_iff]
  constructor
  · left
    rw [decide_eq_false_iff_not]
    intro hh
    exact absurd (show (65 : ℕ) ≤ c.toNat from hh) (by omega)
  · left
    rw [decide_eq_false_iff_not]
    intro hh
    exact absurd (show (97 : ℕ) ≤ c.toNat from hh) (by omega)

/-- Upper-casing leaves a digit unchanged. -/
theorem toUpper_of_digit {c : Char} (h : isDigitCh c = true) :
    Char.toUpper c = c := by
  obtain ⟨h1, h2⟩ := isDigit_toNat h
  simp only [Char.toUpper]
  rw [if_neg (show ¬(c.toNat ≥ 97 ∧ c.toNat ≤ 122) by omega)]

/-- Facts about uppercase letters needed to lex them. -/
theorem upper_facts {c : Char} (hc : c ∈ upperList) :
    isLetterCh c = true ∧ isDigitCh c = false ∧ Char.toUpper c = c ∧
    ¬(c = ' ' ∨ c = '\t' ∨ c = '\r') ∧ c ≠ '+' ∧ c ≠ '-' ∧ c ≠ '*' ∧ c ≠ '/' ∧
    c ≠ '(' ∧ c ≠ ')' ∧ c ≠ ',' ∧ c ≠ '=' ∧ c ≠ '<' ∧ c ≠ '>' ∧ c ≠ '"' ∧
    c ≠ '$' ∧ isIdentCh c = true := by
  fin_cases hc <;> exact (by decide)

/-- Letters and digits are identifier characters. -/
theorem isIdentCh_of_digit {c : Char} (h : isDigitCh c = true) : isIdentCh c = true := by
  simp [isIdentCh, h]

/-- Facts about well-formed string-literal characters needed to lex them. -/
theorem strChar_facts {c : Char} (h : strCharOK c = true) :
    c ≠ '"' ∧ c ≠ '\n' ∧ c ≠ '\\' := by
  refine ⟨fun he => ?_, fun he => ?_, fun he => ?_⟩ <;>
    (subst he; exact absurd h (by decide))

/-- Whitespace skipping passes a non-whitespace head through. -/
theorem skipWS_cons_of {c : Char} (cs : List Char) (h : ¬(c = ' ' ∨ c = '\t' ∨ c = '\r')) :
    skipWS (c :: cs) = c :: cs := by
  rw [skipWS, if_neg h]

/-- The number reader consumes exactly a digit block when what follows starts
with a rendering separator. -/
theorem readNumCore_digits : ∀ (ds : List Char), ds.all isDigitCh = true →
    ∀ (rest : List Char), followOk rest → ∀ (b : Bool),
      readNumCore b (ds ++ rest) = (ds, rest) := by
  intro ds
  induction ds with
  | nil =>
    intro _ rest hrest b
    cases rest with
    | nil => rfl
    | cons c t =>
      rcases hrest with rfl | rfl | rfl <;>
        (rw [List.nil_append, readNumCore, if_neg (by decide),
          if_neg (fun h => absurd h.2 (by decide))])
  | cons d ds ih =>
    intro hds rest hrest b
    rw [List.all_cons, Bool.and_eq_true] at hds
    rw [List.cons_append, readNumCore, if_pos hds.1, ih hds.2 rest hrest b]

/-- The identifier reader consumes exactly an identifier-character block when
what follows starts with a rendering separator. -/
theorem readIdentCore_base : ∀ (ds : List Char), ds.all isIdentCh = true →
    ∀ (rest : List Char), followOk rest →
      readIdentCore (ds ++ rest) = (ds, rest) := by
  intro ds
  induction ds with
  | nil =>
    intro _ rest hrest
    cases rest with
    | nil => rfl
    | cons c t =>
      rcases hrest with rfl | rfl | rfl <;>
        (rw [List.nil_append, readIdentCore, if_neg (by decide), if_neg (by decide)])
  | cons d ds ih =>
    intro hds rest hrest
    rw [List.all_cons, Bool.and_eq_true] at hds
    rw [List.cons_append, readIdentCore, if_pos hds.1, ih hds.2 rest hrest]

/-- The identifier reader takes one trailing dollar sign and stops. -/
theorem readIdentCore_dollar : ∀ (ds : List Char), ds.all isIdentCh = true →
    ∀ (rest : List Char), readIdentCore (ds ++ '$' :: rest) = (ds ++ ['$'], rest) := by
  intro ds
  induction ds with
  | nil =>
    intro _ rest
    rw [List.nil_append, readIdentCore, if_neg (by decide), if_pos rfl]
    rfl
  | cons d ds ih =>
    intro hds rest
    rw [List.all_cons, Bool.and_eq_true] at hds
    rw [List.cons_append, readIdentCore, if_pos hds.1, ih hds.2 rest]
    rfl

/-- The string reader consumes the body up to the closing quote. -/
theorem readStrCore_lit : ∀ (ds : List Char), (∀ c ∈ ds, c ≠ '"' ∧ c ≠ '\n') →
    ∀ (rest : List Char), readStrCore (ds ++ '"' :: rest) = some (ds, rest) := by
  intro ds
  induction ds with
  | nil =>
    intro _ rest
    rw [List.nil_append, readStrCore, if_pos rfl]
  | cons c ds ih =>
    intro hds rest
    have hc := hds c (List.mem_cons_self c ds)
    have hrest : ∀ d ∈ ds, d ≠ '"' ∧ d ≠ '\n' := fun d hd =>
      hds d (List.mem_cons_of_mem c hd)
    rw [List.cons_append, readStrCore, if_neg hc.1, if_neg hc.2, ih hrest rest]

/-- A digit block lexes to one NUMBER token. -/
theorem nextToken_number (ds rest : List Char) (hne : ds ≠ [])
    (hds : ds.all isDigitCh = true) (hrest : followOk rest) :
    nextToken (ds ++ rest) = (numTok ds, rest) := by
  obtain ⟨d, ds', rfl⟩ : ∃ d ds', ds = d :: ds' := by
    cases ds with
    | nil => exact absurd rfl hne
    | cons d t => exact ⟨d, t, rfl⟩
  have hall := hds
  rw [List.all_cons, Bool.and_eq_true] at hall
  have hd := hall.1
  rw [List.cons_append, nextToken, skipWS_cons_of _ (not_ws_of_digit hd)]
  dsimp only
  rw [if_neg (digit_ne_of hd (by decide)), if_neg (digit_ne_of hd (by decide)),
    if_neg (digit_ne_of hd (by decide)), if_neg (digit_ne_of hd (by decide)),
    if_neg (digit_ne_of hd (by decide)), if_neg (digit_ne_of hd (by decide)),
    if_neg (digit_ne_of hd (by decide)), if_neg (digit_ne_of hd (by decide)),
    if_neg (digit_ne_of hd (by decide)), if_neg (digit_ne_of hd (by decide)),
    if_neg (digit_ne_of hd (by decide)),
    if_neg (show ¬(isLetterCh d = true) by simp [isLetterCh_false_of_digit hd]),
    if_pos hd]
  rw [← List.cons_append, readNumCore_digits (d :: ds') hds rest hrest false]
  rfl

/-- Well-formed string characters pass through quoting unchanged. -/
theorem flatMap_quoteChar : ∀ (cs : List Char), cs.all strCharOK = true →
    cs.flatMap quoteChar = cs := by
  intro cs
  induction cs with
  | nil => intro _; rfl
  | cons c cs ih =>
    intro h
    rw [List.all_cons, Bool.and_eq_true] at h
    obtain ⟨hq, hn, hb⟩ := strChar_facts h.1
    rw [List.flatMap_cons, quoteChar, if_neg hb, if_neg hq, ih h.2]
    rfl

/-- Quoting a string whose characters need no escaping just wraps it in quotes. -/
theorem quoteStr_of_ok (cs : List Char) (h : cs.all strCharOK = true) :
    quoteStr cs = '"' :: cs ++ ['"'] := by
  rw [quoteStr, flatMap_quoteChar cs h]

/-- A quoted well-formed string lexes to one STRING token. -/
theorem nextToken_string (s : String) (hs : s.data.all strCharOK = true)
    (rest : List Char) :
    nextToken (quoteStr s.data ++ rest) = (strTok s, rest) := by
  rw [quoteStr_of_ok s.data hs]
  rw [show ('"' :: s.data ++ ['"']) ++ rest = '"' :: (s.data ++ '"' :: rest) by simp]
  rw [nextToken, skipWS_cons_of _ (by decide)]
  dsimp only
  rw [if_neg (by decide), if_neg (by decide), if_neg (by decide), if_neg (by decide),
    if_neg (by decide), if_neg (by decide), if_neg (by decide), if_neg (by decide),
    if_neg (by decide), if_neg (by decide), if_pos rfl]
  have hfacts : ∀ c ∈ s.data, c ≠ '"' ∧ c ≠ '\n' := by
    intro c hc
    have := strChar_facts (by
      rw [List.all_eq_true] at hs
      exact hs c hc)
    exact ⟨this.1, this.2.1⟩
  rw [readStrCore_lit s.data hfacts rest]
  rfl

/-- Bool membership test to membership, for character lists. -/
theorem mem_of_containsChar {l : List Char} {c : Char} (h : l.contains c = true) :
    c ∈ l := by
  simpa using h

/-- Identifier-continuation characters are identifier characters fixed by
upper-casing. -/
theorem identChar_facts {c : Char} (h : upperOrDigit c = true) :
    isIdentCh c = true ∧ Char.toUpper c = c := by
  rw [upperOrDigit, Bool.or_eq_true] at h
  rcases h with h | h <;>
    (have hm := mem_of_containsChar h; fin_cases hm <;> exact (by decide))

/-- Upper-casing fixes a list of characters it fixes pointwise. -/
theorem upChars_of_fix : ∀ (cs : List Char), (∀ c ∈ cs, Char.toUpper c = c) →
    upChars cs = cs := by
  intro cs
  induction cs with
  | nil => intro _; rfl
  | cons c cs ih =>
    intro h
    rw [upChars, List.map_cons, h c (List.mem_cons_self c cs)]
    rw [show List.map Char.toUpper cs = upChars cs from rfl,
      ih (fun d hd => h d (List.mem_cons_of_mem c hd))]

/-- A non-keyword string looks up as a plain identifier. -/
theorem lookupIdent_of_not_kw (s : String) (h : keywordStrings.contains s = false) :
    lookupIdent s = TokType.ident := by
  have hmem : s ∉ keywordStrings := by simpa using h
  have hne : ∀ k, k ∈ keywordStrings → ¬(s = k) := fun k hk he => hmem (he ▸ hk)
  rw [lookupIdent,
    if_neg (hne "REM" (by decide)), if_neg (hne "LET" (by decide)),
    if_neg (hne "PRINT" (by decide)), if_neg (hne "INPUT" (by decide)),
    if_neg (hne "IF" (by decide)), if_neg (hne "THEN" (by decide)),
    if_neg (hne "GOTO" (by decide)), if_neg (hne "END" (by decide)),
    if_neg (hne "RUN" (by decide)), if_neg (hne "LIST" (by decide)),
    if_neg (hne "NEW" (by decide))]

/-- A name ending in the dollar suffix is never a keyword. -/
theorem lookupIdent_dollar (cs : List Char) :
    lookupIdent ⟨cs ++ ['$']⟩ = TokType.ident := by
  have hne : ∀ s : String, s.data.getLast? ≠ some '$' → ¬((⟨cs ++ ['$']⟩ : String) = s) := by
    intro s hs he
    apply hs
    rw [← he]
    exact List.getLast?_concat cs
  rw [lookupIdent,
    if_neg (hne "REM" (by decide)), if_neg (hne "LET" (by decide)),
    if_neg (hne "PRINT" (by decide)), if_neg (hne "INPUT" (by decide)),
    if_neg (hne "IF" (by decide)), if_neg (hne "THEN" (by decide)),
    if_neg (hne "GOTO" (by decide)), if_neg (hne "END" (by decide)),
    if_neg (hne "RUN" (by decide)), if_neg (hne "LIST" (by decide)),
    if_neg (hne "NEW" (by decide))]

/-- A well-formed identifier block lexes to one IDENT token carrying the name. -/
theorem nextToken_ident (n : String) (hn : nameWF n = true) (rest : List Char)
    (hrest : followOk rest) : nextToken (n.data ++ rest) = (identTok n, rest) := by
  rw [nameWF, Bool.or_eq_true] at hn
  rcases hn with hn | hn
  · rw [Bool.and_eq_true] at hn
    obtain ⟨hbase, hkw⟩ := hn
    obtain ⟨c, cs, hdata⟩ : ∃ c cs, n.data = c :: cs := by
      cases hcs : n.data with
      | nil => rw [hcs, baseOK] at hbase; cases hbase
      | cons c cs => exact ⟨c, cs, rfl⟩
    rw [hdata] at hbase
    rw [baseOK, Bool.and_eq_true] at hbase
    obtain ⟨hcup, hcall⟩ := hbase
    have hcmem : c ∈ upperList := mem_of_containsChar hcup
    obtain ⟨hLet, hDig, hUp, hWs, h1, h2, h3, h4, h5, h6, h7, h8, h9, h10, h11, h12,
      hIdent⟩ := upper_facts hcmem
    have hallIdent : (c :: cs).all isIdentCh = true := by
      rw [List.all_cons, Bool.and_eq_true]
      refine ⟨hIdent, ?_⟩
      rw [List.all_eq_true]
      intro d hd
      exact (identChar_facts ((List.all_eq_true.mp hcall) d hd)).1
    have hup : upChars (c :: cs) = c :: cs := by
      apply upChars_of_fix
      intro d hd
      rcases List.mem_cons.mp hd with rfl | hd2
      · exact hUp
      · exact (identChar_facts ((List.all_eq_true.mp hcall) d hd2)).2
    rw [hdata, List.cons_append, nextToken, skipWS_cons_of _ hWs]
    dsimp only
    rw [if_neg h1, if_neg h2, if_neg h3, if_neg h4, if_neg h5, if_neg h6, if_neg h7,
      if_neg h8, if_neg h9, if_neg h10, if_neg h11, if_pos hLet]
    rw [← List.cons_append, readIdentCore_base (c :: cs) hallIdent rest hrest]
    dsimp only
    rw [hup, ← hdata]
    rw [lookupIdent_of_not_kw n (by simpa using hkw)]
    rfl
  · rw [Bool.and_eq_true] at hn
    obtain ⟨hlast, hbase⟩ := hn
    rw [decide_eq_true_iff] at hlast
    have hne0 : n.data ≠ [] := by
      intro h0
      rw [h0] at hlast
      cases hlast
    have hdata : n.data = n.data.dropLast ++ ['$'] := by
      rw [List.getLast?_eq_getLast n.data hne0] at hlast
      injection hlast with hlast
      conv_lhs => rw [← List.dropLast_append_getLast hne0]
      rw [hlast]
    obtain ⟨c, cs, hsplit⟩ : ∃ c cs, n.data.dropLast = c :: cs := by
      cases hcs : n.data.dropLast with
      | nil => rw [hcs, baseOK] at hbase; cases hbase
      | cons c cs => exact ⟨c, cs, rfl⟩
    rw [hsplit] at hbase
    rw [baseOK, Bool.and_eq_true] at hbase
    obtain ⟨hcup, hcall⟩ := hbase
    have hcmem : c ∈ upperList := mem_of_containsChar hcup
    obtain ⟨hLet, hDig, hUp, hWs, h1, h2, h3, h4, h5, h6, h7, h8, h9, h10, h11, h12,
      hIdent⟩ := upper_facts hcmem
    have hallIdent : (c :: cs).all isIdentCh = true := by
      rw [List.all_cons, Bool.and_eq_true]
      refine ⟨hIdent, ?_⟩
      rw [List.all_eq_true]
      intro d hd
      exact (identChar_facts ((List.all_eq_true.mp hcall) d hd)).1
    have hup : upChars ((c :: cs) ++ ['$']) = (c :: cs) ++ ['$'] := by
      apply upChars_of_fix
      intro d hd
      rcases List.mem_append.mp hd with hd2 | hd2
      · rcases List.mem_cons.mp hd2 with rfl | hd3
        · exact hUp
        · exact (identChar_facts ((List.all_eq_true.mp hcall) d hd3)).2
      · rcases List.mem_singleton.mp hd2 with rfl
        decide
    rw [hdata, hsplit]
    rw [show ((c :: cs) ++ ['$']) ++ rest = c :: (cs ++ '$' :: rest) by simp]
    rw [nextToken, skipWS_cons_of _ hWs]
    dsimp only
    rw [if_neg h1, if_neg h2, if_neg h3, if_neg h4, if_neg h5, if_neg h6, if_neg h7,
      if_neg h8, if_neg h9, if_neg h10, if_neg h11, if_pos hLet]
    rw [show (c :: (cs ++ '$' :: rest)) = (c :: cs) ++ '$' :: rest by simp]
    rw [readIdentCore_dollar (c :: cs) hallIdent rest]
    dsimp only
    rw [hup]
    have hids : (c :: cs) ++ ['$'] = n.data := by rw [hdata, hsplit]
    rw [show (⟨(c :: cs) ++ ['$']⟩ : String) = n from by rw [hids]]
    rw [show lookupIdent n = TokType.ident from by
      rw [show n = (⟨(c :: cs) ++ ['$']⟩ : String) from by rw [hids]]
      exact lookupIdent_dollar (c :: cs)]
    rfl

/-- Token-stream step for a digit block. -/
theorem tokens_number (ds rest : List Char) (hne : ds ≠ [])
    (hds : ds.all isDigitCh = true) (hrest : followOk rest) :
    tokens (ds ++ rest) = numTok ds :: tokens rest :=
  tokens_cons_of (nextToken_number ds rest hne hds hrest) (fun hh => TokType.noConfusion hh)

/-- Token-stream step for an identifier block. -/
theorem tokens_ident (n : String) (rest : List Char) (hn : nameWF n = true)
    (hrest : followOk rest) :
    tokens (n.data ++ rest) = identTok n :: tokens rest :=
  tokens_cons_of (nextToken_ident n hn rest hrest) (fun hh => TokType.noConfusion hh)

/-- Token-stream step for a quoted string. -/
theorem tokens_string (s : String) (rest : List Char) (hs : s.data.all strCharOK = true) :
    tokens (quoteStr s.data ++ rest) = strTok s :: tokens rest :=
  tokens_cons_of (nextToken_string s hs rest) (fun hh => TokType.noConfusion hh)

/-- Token-stream step, with everything explicit for unification. -/
theorem tokens_cons_rfl (cs : List Char) (t : Token) (rest : List Char)
    (h : nextToken cs = (t, rest)) (ht : ¬t.type = TokType.eofT) :
    tokens cs = t :: tokens rest :=
  tokens_cons_of h ht

/-- Token-stream step for a left parenthesis. -/
theorem tokens_lparen (rest : List Char) :
    tokens ('(' :: rest) = lparenTok :: tokens rest :=
  tokens_cons_rfl _ lparenTok rest rfl (by decide)

/-- Token-stream step for a right parenthesis. -/
theorem tokens_rparen (rest : List Char) :
    tokens (')' :: rest) = rparenTok :: tokens rest :=
  tokens_cons_rfl _ rparenTok rest rfl (by decide)

/-- Token-stream step for a comma. -/
theorem tokens_comma (rest : List Char) :
    tokens (',' :: rest) = commaTok :: tokens rest :=
  tokens_cons_rfl _ commaTok rest rfl (by decide)

/-- Token-stream step for a unary sign lexeme. -/
theorem tokens_unary_op (op : String) (h : op = "+" ∨ op = "-") (X : List Char) :
    tokens (op.data ++ X) = opTokOf op :: tokens X := by
  rcases h with rfl | rfl <;>
    exact tokens_cons_rfl _ (opTokOf _) X rfl (by decide)

/-- Token-stream step for a binary operator lexeme followed by a space. -/
theorem tokens_bin_op (op : String) (h : op ∈ binOpsL) (Y : List Char) :
    tokens (op.data ++ ' ' :: Y) = opTokOf op :: tokens Y := by
  have hsp : ∀ (t : Token) (cs : List Char), nextToken cs = (t, ' ' :: Y) →
      ¬t.type = TokType.eofT → tokens cs = t :: tokens Y := by
    intro t cs hnt ht
    rw [tokens_cons_rfl cs t (' ' :: Y) hnt ht, tokens_space]
  fin_cases h
  · exact hsp (opTokOf "+") _ rfl (by decide)
  · exact hsp (opTokOf "-") _ rfl (by decide)
  · exact hsp (opTokOf "*") _ rfl (by decide)
  · exact hsp (opTokOf "/") _ rfl (by decide)
  · exact hsp (opTokOf "=") _ rfl (by decide)
  · exact hsp (opTokOf "<>") _ rfl (by decide)
  · exact hsp (opTokOf "<") _ rfl (by decide)
  · exact hsp (opTokOf "<=") _ rfl (by decide)
  · exact hsp (opTokOf ">") _ rfl (by decide)
  · exact hsp (opTokOf ">=") _ rfl (by decide)

/-- Dropping a satisfied predicate from a list it covers leaves nothing. -/
theorem dropWhile_all {l : List Char} (h : l.all isDigitCh = true) :
    l.dropWhile isDigitCh = [] := by
  induction l with
  | nil => rfl
  | cons c t ih =>
    simp only [List.all_cons, Bool.and_eq_true] at h
    rw [List.dropWhile_cons, if_pos (by rw [h.1]), ih h.2]

/-- Taking a satisfied predicate from a list it covers keeps everything. -/
theorem takeWhile_all {l : List Char} (h : l.all isDigitCh = true) :
    l.takeWhile isDigitCh = l := by
  induction l with
  | nil => rfl
  | cons c t ih =>
    simp only [List.all_cons, Bool.and_eq_true] at h
    rw [List.takeWhile_cons, if_pos (by rw [h.1]), ih h.2]

/-- parseFloatCore on a pure digit string yields its decimal value. -/
theorem parseFloatCore_digits {l : List Char} (hne : l ≠ [])
    (h : l.all isDigitCh = true) :
    parseFloatCore l = some ((digitsToNat l : ℕ) : ℚ) := by
  rw [parseFloatCore, dropWhile_all h]
  dsimp only
  rw [takeWhile_all h, if_neg hne]

/-- parseFloatM on a pure digit string yields its decimal value. -/
theorem parseFloatM_digits {l : List Char} (hne : l ≠ [])
    (h : l.all isDigitCh = true) :
    parseFloatM ⟨l⟩ = some ((digitsToNat l : ℕ) : ℚ) := by
  cases l with
  | nil => exact absurd rfl hne
  | cons c t =>
    simp only [List.all_cons, Bool.and_eq_true] at h
    rw [parseFloatM]
    dsimp only
    rw [if_neg (digit_ne_of h.1 (by decide)), if_neg (digit_ne_of h.1 (by decide))]
    exact parseFloatCore_digits hne (by simp [List.all_cons, h.1, h.2])

/-- Modelled Atoi on an in-range pure digit string yields its decimal value. -/
theorem atoiM_digits {l : List Char} (hne : l ≠ [])
    (h : l.all isDigitCh = true) (hb : digitsToNat l < 2 ^ 63) :
    atoiM ⟨l⟩ = some ((digitsToNat l : ℕ) : ℤ) := by
  cases l with
  | nil => exact absurd rfl hne
  | cons c t =>
    simp only [List.all_cons, Bool.and_eq_true] at h
    rw [atoiM]
    dsimp only
    rw [if_neg (digit_ne_of h.1 (by decide)), if_neg (digit_ne_of h.1 (by decide)),
      if_pos (⟨by simp [List.all_cons, h.1, h.2], hb⟩ :
        (c :: t).all isDigitCh = true ∧ digitsToNat (c :: t) < 2 ^ 63)]

/-- Digit strings contain no comma. -/
theorem digits_no_comma {l : List Char} (h : l.all isDigitCh = true) :
    l.contains ',' = false := by
  by_contra hc
  have hmem : ',' ∈ l := mem_of_containsChar (by
    cases hcv : l.contains ',' with
    | false => exact absurd hcv hc
    | true => rfl)
  have := List.all_eq_true.mp h _ hmem
  exact absurd this (by decide)

/-- parseIntStrict on an in-range pure digit string yields its decimal value. -/
theorem parseIntStrict_digits {l : List Char} (hne : l ≠ [])
    (h : l.all isDigitCh = true) (hb : digitsToNat l < 2 ^ 63) :
    parseIntStrict ⟨l⟩ = some ((digitsToNat l : ℕ) : ℤ) := by
  rw [parseIntStrict]
  rw [show (String.mk l).data = l from rfl, digits_no_comma h]
  rw [if_neg (by simp)]
  exact atoiM_digits hne h hb

/-- A rational with denominator one is the cast of its numerator. -/
theorem ratCast_num {q : ℚ} (h : q.den = 1) : ((q.num : ℤ) : ℚ) = q := by
  have hd := Rat.num_div_den q
  rw [h] at hd
  simpa using hd

/-- Folding digits from an accumulator scales the accumulator by the length. -/
theorem digitsFold_acc (l : List Char) : ∀ a : ℕ,
    l.foldl (fun x c => 10 * x + digitVal c) a =
      a * 10 ^ l.length + l.foldl (fun x c => 10 * x + digitVal c) 0 := by
  induction l with
  | nil => intro a; simp
  | cons c t ih =>
    intro a
    rw [List.foldl_cons, ih (10 * a + digitVal c), List.foldl_cons,
      ih (10 * 0 + digitVal c)]
    simp only [List.length_cons, pow_succ]
    ring

/-- Decimal value of concatenated digit strings. -/
theorem digitsToNat_append (A B : List Char) :
    digitsToNat (A ++ B) = digitsToNat A * 10 ^ B.length + digitsToNat B := by
  rw [digitsToNat, digitsToNat, digitsToNat, List.foldl_append, digitsFold_acc]

/-- Leading zero characters do not change the decoded value. -/
theorem digitsToNat_zeros (j : ℕ) (D : List Char) :
    digitsToNat (List.replicate j '0' ++ D) = digitsToNat D := by
  induction j with
  | zero => rfl
  | succ j ih =>
    rw [List.replicate_succ, List.cons_append, digitsToNat, List.foldl_cons]
    rw [show 10 * 0 + digitVal '0' = 0 from rfl]
    exact ih

/-- Digit values are at most nine. -/
theorem digitVal_le_nine {c : Char} (h : isDigitCh c = true) : digitVal c ≤ 9 := by
  obtain ⟨h1, h2⟩ := isDigit_toNat h
  show c.toNat - 48 ≤ 9
  omega

/-- A digit string decodes below the power of ten of its length. -/
theorem digitsToNat_lt (l : List Char) (h : l.all isDigitCh = true) :
    digitsToNat l < 10 ^ l.length := by
  induction l with
  | nil => decide
  | cons c t ih =>
    simp only [List.all_cons, Bool.and_eq_true] at h
    rw [digitsToNat, List.foldl_cons, digitsFold_acc]
    have h9 := digitVal_le_nine h.1
    have ht := ih h.2
    rw [digitsToNat] at ht
    simp only [List.length_cons, pow_succ, Nat.mul_zero, Nat.zero_add]
    calc digitVal c * 10 ^ t.length + List.foldl (fun x c => 10 * x + digitVal c) 0 t
        < digitVal c * 10 ^ t.length + 10 ^ t.length := by omega
      _ = (digitVal c + 1) * 10 ^ t.length := by ring
      _ ≤ 10 * 10 ^ t.length := Nat.mul_le_mul_right _ (by omega)
      _ = 10 ^ t.length * 10 := by ring

/-- A digit string decodes at least to its head digit times the tail power. -/
theorem digitsToNat_cons_ge (c : Char) (t : List Char) :
    digitVal c * 10 ^ t.length ≤ digitsToNat (c :: t) := by
  rw [digitsToNat, List.foldl_cons, digitsFold_acc]
  simp only [Nat.mul_zero, Nat.zero_add]
  omega

/-- The digit writer emits a nonzero leading digit for a positive value. -/
theorem natToCharsAux_head (n : ℕ) : ∀ (fuel : ℕ) (acc : List Char),
    n ≠ 0 → n ≤ fuel → ∃ c cs, natToCharsAux fuel n acc = c :: cs ∧
      isDigitCh c = true ∧ 1 ≤ digitVal c := by
  induction n using Nat.strong_induction_on with
  | _ n ih =>
    intro fuel acc h0 hle
    obtain ⟨f, rfl⟩ : ∃ f, fuel = f + 1 := ⟨fuel - 1, by omega⟩
    rw [natToCharsAux_succ f n acc h0]
    by_cases hq : n / 10 = 0
    · rw [hq, natToCharsAux_zero]
      have hlt : n < 10 := by omega
      refine ⟨digitChar (n % 10), acc, rfl, digitChar_isDigit _ (Nat.mod_lt n (by norm_num)), ?_⟩
      rw [digitVal_digitChar _ (Nat.mod_lt n (by norm_num))]
      omega
    · exact ih (n / 10) (Nat.div_lt_self (by omega) (by norm_num)) f _ hq (by omega)

/-- A positive value decodes to at least the power of ten of its digit count
minus one. -/
theorem natToChars_lb (m : ℕ) (hm : 1 ≤ m) :
    10 ^ ((natToChars m).length - 1) ≤ m := by
  obtain ⟨c, cs, hcc, -, hd1⟩ := natToCharsAux_head m m [] (by omega) le_rfl
  have hD : natToChars m = c :: cs := by rw [natToChars, if_neg (by omega), hcc]
  have hval : digitsToNat (natToChars m) = m := digitsToNat_natToChars m
  rw [hD] at hval ⊢
  have := digitsToNat_cons_ge c cs
  simp only [List.length_cons, Nat.add_sub_cancel]
  calc 10 ^ cs.length = 1 * 10 ^ cs.length := by ring
    _ ≤ digitVal c * 10 ^ cs.length := by
        exact Nat.mul_le_mul_right _ hd1
    _ ≤ digitsToNat (c :: cs) := digitsToNat_cons_ge c cs
    _ = m := hval

/-- Every value decodes below the power of ten of its digit count. -/
theorem natToChars_ub (m : ℕ) : m < 10 ^ (natToChars m).length := by
  conv_lhs => rw [← digitsToNat_natToChars m]
  exact digitsToNat_lt _ (natToChars_all m)

/-- Taking a predicate holds on any take of a covered list. -/
theorem all_take (l : List Char) (n : ℕ) (h : l.all isDigitCh = true) :
    (l.take n).all isDigitCh = true := by
  rw [List.all_eq_true] at h ⊢
  exact fun x hx => h x (List.take_subset n l hx)

/-- Taking a predicate holds on any drop of a covered list. -/
theorem all_drop (l : List Char) (n : ℕ) (h : l.all isDigitCh = true) :
    (l.drop n).all isDigitCh = true := by
  rw [List.all_eq_true] at h ⊢
  exact fun x hx => h x (List.drop_subset n l hx)

/-- Dropping digits from a digit prefix exposes the decimal point. -/
theorem dropWhile_digits_dot {A : List Char} (hA : A.all isDigitCh = true)
    (B : List Char) :
    (A ++ ('.' :: B)).dropWhile isDigitCh = '.' :: B := by
  induction A with
  | nil => rw [List.nil_append, List.dropWhile_cons, if_neg (by decide)]
  | cons c t ih =>
    simp only [List.all_cons, Bool.and_eq_true] at hA
    rw [List.cons_append, List.dropWhile_cons, if_pos (by rw [hA.1]), ih hA.2]

/-- Taking digits from a digit prefix stops at the decimal point. -/
theorem takeWhile_digits_dot {A : List Char} (hA : A.all isDigitCh = true)
    (B : List Char) :
    (A ++ ('.' :: B)).takeWhile isDigitCh = A := by
  induction A with
  | nil => rw [List.nil_append, List.takeWhile_cons, if_neg (by decide)]
  | cons c t ih =>
    simp only [List.all_cons, Bool.and_eq_true] at hA
    rw [List.cons_append, List.takeWhile_cons, if_pos (by rw [hA.1]), ih hA.2]

/-- The number reader consumes a digit block, one decimal point, and a second
digit block, stopping at a rendering separator. -/
theorem readNumCore_frac : ∀ (ip : List Char), ip.all isDigitCh = true →
    ∀ (fp : List Char), fp.all isDigitCh = true → ∀ (rest : List Char), followOk rest →
      readNumCore false (ip ++ ('.' :: (fp ++ rest))) = (ip ++ ('.' :: fp), rest) := by
  intro ip
  induction ip with
  | nil =>
    intro _ fp hfp rest hrest
    rw [List.nil_append, readNumCore, if_neg (by decide),
      if_pos (⟨by decide, rfl⟩ : ¬(false = true) ∧ '.' = '.'),
      readNumCore_digits fp hfp rest hrest true]
    rfl
  | cons d ip2 ih =>
    intro hip fp hfp rest hrest
    rw [List.all_cons, Bool.and_eq_true] at hip
    rw [List.cons_append, readNumCore, if_pos hip.1, ih hip.2 fp hfp rest hrest]
    rfl

/-- NextToken lexes a fractional decimal literal as one number token. -/
theorem nextToken_number_frac (ip fp rest : List Char) (hne : ip ≠ [])
    (hip : ip.all isDigitCh = true) (hfp : fp.all isDigitCh = true)
    (hrest : followOk rest) :
    nextToken (ip ++ ('.' :: (fp ++ rest))) = (numTok (ip ++ ('.' :: fp)), rest) := by
  obtain ⟨d, ip2, rfl⟩ : ∃ d t, ip = d :: t := by
    cases ip with
    | nil => exact absurd rfl hne
    | cons d t => exact ⟨d, t, rfl⟩
  have hall := hip
  rw [List.all_cons, Bool.and_eq_true] at hall
  have hd := hall.1
  rw [List.cons_append, nextToken, skipWS_cons_of _ (not_ws_of_digit hd)]
  dsimp only
  rw [if_neg (digit_ne_of hd (by decide)), if_neg (digit_ne_of hd (by decide)),
    if_neg (digit_ne_of hd (by decide)), if_neg (digit_ne_of hd (by decide)),
    if_neg (digit_ne_of hd (by decide)), if_neg (digit_ne_of hd (by decide)),
    if_neg (digit_ne_of hd (by decide)), if_neg (digit_ne_of hd (by decide)),
    if_neg (digit_ne_of hd (by decide)), if_neg (digit_ne_of hd (by decide)),
    if_neg (digit_ne_of hd (by decide)),
    if_neg (show ¬(isLetterCh d = true) by simp [isLetterCh_false_of_digit hd]),
    if_pos hd]
  rw [← List.cons_append, readNumCore_frac (d :: ip2) hip fp hfp rest hrest]
  rfl

/-- Token-stream step for a fractional decimal literal. -/
theorem tokens_number_frac (ip fp rest : List Char) (hne : ip ≠ [])
    (hip : ip.all isDigitCh = true) (hfp : fp.all isDigitCh = true)
    (hrest : followOk rest) :
    tokens (ip ++ ('.' :: (fp ++ rest))) = numTok (ip ++ ('.' :: fp)) :: tokens rest :=
  tokens_cons_of (nextToken_number_frac ip fp rest hne hip hfp hrest)
    (fun hh => TokType.noConfusion hh)

/-- The factor remover divides out a power of its prime. -/
theorem rmF_factor (p : ℕ) : ∀ (f n : ℕ), ∃ j, n = p ^ j * rmF p f n := by
  intro f
  induction f with
  | zero => intro n; exact ⟨0, by simp [rmF]⟩
  | succ f ih =>
    intro n
    by_cases hc : 2 ≤ p ∧ 1 ≤ n ∧ n % p = 0
    · rw [rmF, if_pos hc]
      obtain ⟨j, hj⟩ := ih (n / p)
      refine ⟨j + 1, ?_⟩
      have hdvd : p ∣ n := Nat.dvd_of_mod_eq_zero hc.2.2
      calc n = p * (n / p) := (Nat.mul_div_cancel' hdvd).symm
        _ = p * (p ^ j * rmF p f (n / p)) := by rw [← hj]
        _ = p ^ (j + 1) * rmF p f (n / p) := by ring
    · rw [rmF, if_neg hc]; exact ⟨0, by simp⟩

/-- Denominators passing the decimal test divide a power of ten. -/
theorem decDen_dvd {d : ℕ} (h : decDen d = true) : d ∣ 10 ^ d := by
  rw [decDen, decide_eq_true_iff] at h
  obtain ⟨a, ha⟩ := rmF_factor 2 d d
  obtain ⟨b, hb⟩ := rmF_factor 5 (rm 2 d) (rm 2 d)
  rw [show rmF 5 (rm 2 d) (rm 2 d) = rm 5 (rm 2 d) from rfl, h, mul_one] at hb
  rw [show rmF 2 d d = rm 2 d from rfl, hb] at ha
  have h2a : a < 2 ^ a := Nat.lt_two_pow a
  have h5b : b < 5 ^ b := Nat.lt_pow_self (by norm_num) b
  have hb5 : 5 ^ b ≤ d := by
    rw [ha]; exact Nat.le_mul_of_pos_left _ (Nat.pos_pow_of_pos a (by norm_num))
  have ha2 : 2 ^ a ≤ d := by
    rw [ha]; exact Nat.le_mul_of_pos_right _ (Nat.pos_pow_of_pos b (by norm_num))
  have h10 : (10 : ℕ) ^ d = 2 ^ d * 5 ^ d := by
    rw [show (10 : ℕ) = 2 * 5 from rfl, mul_pow]
  rw [h10]
  conv_lhs => rw [ha]
  exact mul_dvd_mul (pow_dvd_pow 2 (by omega)) (pow_dvd_pow 5 (by omega))

/-- The scale search finds a dividing power of ten when one is in range. -/
theorem decScaleAux_finds (d : ℕ) : ∀ (f k0 j : ℕ), d ∣ 10 ^ (k0 + j) → j < f →
    ∃ k, decScaleAux d f k0 = some k ∧ d ∣ 10 ^ k := by
  intro f
  induction f with
  | zero => intro k0 j hdvd hj; omega
  | succ f ih =>
    intro k0 j hdvd hj
    by_cases h0 : 10 ^ k0 % d = 0
    · exact ⟨k0, by rw [decScaleAux, if_pos h0], Nat.dvd_of_mod_eq_zero h0⟩
    · rw [decScaleAux, if_neg h0]
      cases j with
      | zero =>
        rw [Nat.add_zero] at hdvd
        obtain ⟨c, hc⟩ := hdvd
        exact absurd (by rw [hc]; exact Nat.mul_mod_right d c) h0
      | succ j2 =>
        exact ih (k0 + 1) j2 (by rw [show k0 + 1 + j2 = k0 + (j2 + 1) by omega]; exact hdvd)
          (by omega)

/-- The scale of an exact decimal rational exists and scales it to an integer. -/
theorem decScale_some {q : ℚ} (h : decDen q.den = true) :
    ∃ k, decScale q = some k ∧ q.den ∣ 10 ^ k := by
  obtain ⟨k, hk, hdvd⟩ := decScaleAux_finds q.den (q.den + 1) 0 q.den
    (by simpa using decDen_dvd h) (by omega)
  exact ⟨k, hk, hdvd⟩

/-- The scaled numerator is the value times the power of ten, as a rational. -/
theorem cast_scale {q : ℚ} {k : ℕ} (h0 : 0 ≤ q.num) (hdvd : q.den ∣ 10 ^ k) :
    ((q.num.toNat * (10 ^ k / q.den) : ℕ) : ℚ) = q * 10 ^ k := by
  have hden0 : ((q.den : ℕ) : ℚ) ≠ 0 := by
    exact_mod_cast q.den_nz
  have htn : ((q.num.toNat : ℕ) : ℚ) = ((q.num : ℤ) : ℚ) := by
    exact_mod_cast Int.toNat_of_nonneg h0
  rw [Nat.cast_mul, Nat.cast_div hdvd hden0, htn]
  conv_rhs => rw [← Rat.num_div_den q]
  push_cast
  field_simp

/-- The fixed-notation branch of formatPos, once the exponent window holds. -/
theorem formatPos_fixed {q : ℚ} {k : ℕ} (hsc : decScale q = some k)
    (hbr : ¬(((natToChars (q.num.toNat * (10 ^ k / q.den))).length : ℤ) - 1 - (k : ℤ) < -4 ∨
      21 ≤ ((natToChars (q.num.toNat * (10 ^ k / q.den))).length : ℤ) - 1 - (k : ℤ))) :
    formatPos q = fixedChars (q.num.toNat * (10 ^ k / q.den)) k := by
  rw [formatPos, hsc]
  dsimp only
  rw [if_neg hbr]

/-- Shape of the rendered digits of a well-formed numeric value: a nonempty
digit block, optionally a decimal point and a second nonempty digit block, and
the decoded value is the original rational. -/
theorem formatNum_shape {v : ℚ} (h : numWF v = true) :
    ∃ ip f2,
      (((formatNum v).data = ip ∧ f2 = ([] : List Char) ∧
          ((digitsToNat ip : ℕ) : ℚ) = v) ∨
        ((formatNum v).data = ip ++ ('.' :: f2) ∧ f2 ≠ [] ∧ f2.all isDigitCh = true ∧
          ((digitsToNat ip : ℕ) : ℚ) + ((digitsToNat f2 : ℕ) : ℚ) / 10 ^ f2.length = v)) ∧
      ip ≠ [] ∧ ip.all isDigitCh = true := by
  rw [numWF, Bool.and_eq_true, Bool.and_eq_true] at h
  obtain ⟨⟨hn0, hdec⟩, hwin⟩ := h
  rw [decide_eq_true_iff] at hn0
  by_cases hz : v.num = 0
  · have hv0 : v = 0 := by exact_mod_cast Rat.num_eq_zero.mp hz
    subst hv0
    exact ⟨['0'], [], Or.inl ⟨rfl, rfl, by norm_num [digitsToNat, digitVal]⟩,
      by simp, by decide⟩
  · have hpos : 0 < v.num := by omega
    have hvpos : 0 < v := Rat.num_pos.mp hpos
    obtain ⟨hw1, hw2⟩ : (v.den : ℤ) ≤ 10 ^ 4 * v.num ∧ v.num < 10 ^ 21 * (v.den : ℤ) := by
      rw [Bool.or_eq_true, decide_eq_true_iff, Bool.and_eq_true,
        decide_eq_true_iff, decide_eq_true_iff] at hwin
      rcases hwin with hwin | hwin
      · exact absurd hwin hz
      · exact hwin
    obtain ⟨k, hsc, hdvd⟩ := decScale_some hdec
    have hmcast : ((v.num.toNat * (10 ^ k / v.den) : ℕ) : ℚ) = v * 10 ^ k :=
      cast_scale hn0 hdvd
    have hdenpos : (0 : ℚ) < (v.den : ℕ) := by exact_mod_cast v.pos
    have hv21 : v < 10 ^ 21 := by
      rw [← Rat.num_div_den v, div_lt_iff hdenpos]
      exact_mod_cast hw2
    have hv4 : (1 : ℚ) ≤ v * 10 ^ 4 := by
      rw [← Rat.num_div_den v, div_mul_eq_mul_div, le_div_iff hdenpos, one_mul]
      calc ((v.den : ℕ) : ℚ) ≤ ((10 ^ 4 * v.num : ℤ) : ℚ) := by exact_mod_cast hw1
        _ = ((v.num : ℤ) : ℚ) * 10 ^ 4 := by push_cast; ring
    have hmpos : 1 ≤ v.num.toNat * (10 ^ k / v.den) := by
      by_contra hmz
      have hz2 : v.num.toNat * (10 ^ k / v.den) = 0 := by omega
      have : ((0 : ℕ) : ℚ) = v * 10 ^ k := by rw [← hz2]; exact hmcast
      have hvk : (0 : ℚ) < v * 10 ^ k := by positivity
      rw [← this] at hvk
      norm_num at hvk
    set m := v.num.toNat * (10 ^ k / v.den) with hmdef
    set L := (natToChars m).length with hLdef
    have hL1 : 1 ≤ L := by
      rw [hLdef]
      exact List.length_pos.mpr (natToChars_ne_nil m)
    have hub : m < 10 ^ L := natToChars_ub m
    have hlb : 10 ^ (L - 1) ≤ m := natToChars_lb m hmpos
    have hLk21 : L ≤ k + 21 := by
      have hc1 : ((10 ^ (L - 1) : ℕ) : ℚ) ≤ ((m : ℕ) : ℚ) := by exact_mod_cast hlb
      have hc2 : ((m : ℕ) : ℚ) < 10 ^ (21 + k) := by
        rw [hmcast, pow_add]
        exact mul_lt_mul_of_pos_right hv21 (by positivity)
      have hc3 : ((10 : ℚ)) ^ (L - 1) < 10 ^ (21 + k) := by
        calc ((10 : ℚ)) ^ (L - 1) = ((10 ^ (L - 1) : ℕ) : ℚ) := by push_cast; ring
          _ ≤ ((m : ℕ) : ℚ) := hc1
          _ < 10 ^ (21 + k) := hc2
      have := (pow_lt_pow_iff_right (by norm_num : (1 : ℚ) < 10)).mp hc3
      omega
    have hkL3 : k ≤ L + 3 := by
      by_cases hk4 : k ≤ 3
      · omega
      · have hc1 : ((10 : ℚ)) ^ (k - 4) ≤ v * 10 ^ k := by
          have : ((10 : ℚ)) ^ (k - 4) * 1 ≤ 10 ^ (k - 4) * (v * 10 ^ 4) :=
            mul_le_mul_of_nonneg_left hv4 (by positivity)
          calc ((10 : ℚ)) ^ (k - 4) = 10 ^ (k - 4) * 1 := by ring
            _ ≤ 10 ^ (k - 4) * (v * 10 ^ 4) := this
            _ = v * (10 ^ (k - 4) * 10 ^ 4) := by ring
            _ = v * 10 ^ k := by rw [← pow_add, show k - 4 + 4 = k from by omega]
        have hc2 : ((10 : ℚ)) ^ (k - 4) < 10 ^ L := by
          calc ((10 : ℚ)) ^ (k - 4) ≤ v * 10 ^ k := hc1
            _ = ((m : ℕ) : ℚ) := hmcast.symm
            _ < ((10 ^ L : ℕ) : ℚ) := by exact_mod_cast hub
            _ = 10 ^ L := by push_cast; ring
        have := (pow_lt_pow_iff_right (by norm_num : (1 : ℚ) < 10)).mp hc2
        omega
    have hbr : ¬(((L : ℤ) - 1 - (k : ℤ) < -4) ∨ 21 ≤ (L : ℤ) - 1 - (k : ℤ)) := by
      omega
    have hdata : (formatNum v).data = fixedChars m k := by
      rw [formatNum, if_neg (not_lt.mpr hn0)]
      show formatPos v = fixedChars m k
      rw [formatPos_fixed hsc hbr]
    rcases Nat.eq_zero_or_pos k with rfl | hk1
    · refine ⟨natToChars m, [], Or.inl ⟨?_, rfl, ?_⟩, natToChars_ne_nil m, natToChars_all m⟩
      · rw [hdata, fixedChars, if_pos rfl]
      · rw [digitsToNat_natToChars, hmcast]
        norm_num
    · by_cases hkL : k < L
      · refine ⟨(natToChars m).take (L - k), (natToChars m).drop (L - k),
          Or.inr ⟨?_, ?_, all_drop _ _ (natToChars_all m), ?_⟩, ?_,
          all_take _ _ (natToChars_all m)⟩
        · rw [hdata, fixedChars, if_neg (by omega), if_pos (by rw [← hLdef]; omega),
            ← hLdef]
        · have : ((natToChars m).drop (L - k)).length = k := by
            rw [List.length_drop, ← hLdef]; omega
          intro hnil
          rw [hnil] at this
          simp at this
          omega
        · have hsplit : (natToChars m).take (L - k) ++ (natToChars m).drop (L - k) =
              natToChars m := List.take_append_drop _ _
          have hlen2 : ((natToChars m).drop (L - k)).length = k := by
            rw [List.length_drop, ← hLdef]; omega
          have hmsum := digitsToNat_append ((natToChars m).take (L - k))
            ((natToChars m).drop (L - k))
          rw [hsplit, hlen2, digitsToNat_natToChars] at hmsum
          rw [hlen2]
          have hcast : ((digitsToNat ((natToChars m).take (L - k)) * 10 ^ k +
              digitsToNat ((natToChars m).drop (L - k)) : ℕ) : ℚ) = v * 10 ^ k := by
            rw [← hmsum]; exact hmcast
          push_cast at hcast
          have h10 : ((10 : ℚ)) ^ k ≠ 0 := by positivity
          field_simp
          linarith [hcast]
        · have : ((natToChars m).take (L - k)).length = L - k := by
            rw [List.length_take, ← hLdef]; omega
          intro hnil
          rw [hnil] at this
          simp at this
          omega
      · refine ⟨['0'], List.replicate (k - L) '0' ++ natToChars m,
          Or.inr ⟨?_, ?_, ?_, ?_⟩, by simp, by decide⟩
        · rw [hdata, fixedChars, if_neg (by omega), if_neg (by rw [← hLdef]; omega),
            ← hLdef]
          rfl
        · simp [natToChars_ne_nil m]
        · rw [List.all_append, Bool.and_eq_true]
          refine ⟨?_, natToChars_all m⟩
          rw [List.all_eq_true]
          intro x hx
          rw [List.eq_of_mem_replicate hx]
          decide
        · have hlen2 : (List.replicate (k - L) '0' ++ natToChars m).length = k := by
            rw [List.length_append, List.length_replicate, ← hLdef]; omega
          have hval2 : digitsToNat (List.replicate (k - L) '0' ++ natToChars m) = m := by
            rw [digitsToNat_zeros, digitsToNat_natToChars]
          rw [hlen2, hval2]
          rw [show digitsToNat ['0'] = 0 from rfl]
          have h10 : ((10 : ℚ)) ^ k ≠ 0 := by positivity
          rw [hmcast]
          push_cast
          field_simp

/-- Well-formed numeric values render to a nonempty digit string. -/
theorem formatNum_ne_nil {v : ℚ} (h : numWF v = true) : (formatNum v).data ≠ [] := by
  obtain ⟨ip, f2, hcase, hne, -⟩ := formatNum_shape h
  rcases hcase with ⟨hdata, -, -⟩ | ⟨hdata, -, -, -⟩
  · rw [hdata]; exact hne
  · rw [hdata]
    cases ip with
    | nil => exact absurd rfl hne
    | cons c t => simp

/-- Reparsing the rendered digits of a well-formed numeric value returns it. -/
theorem formatNum_parseFloatM {v : ℚ} (h : numWF v = true) :
    parseFloatM ⟨(formatNum v).data⟩ = some v := by
  obtain ⟨ip, f2, hcase, hne, hip⟩ := formatNum_shape h
  rcases hcase with ⟨hdata, -, hval⟩ | ⟨hdata, hf2ne, hf2, hval⟩
  · rw [hdata, parseFloatM_digits hne hip, hval]
  · obtain ⟨d, ip2, rfl⟩ : ∃ d t, ip = d :: t := by
      cases ip with
      | nil => exact absurd rfl hne
      | cons d t => exact ⟨d, t, rfl⟩
    have hall := hip
    rw [List.all_cons, Bool.and_eq_true] at hall
    have hd := hall.1
    rw [hdata]
    rw [show (d :: ip2) ++ ('.' :: f2) = d :: (ip2 ++ ('.' :: f2)) from rfl]
    rw [parseFloatM]
    dsimp only
    rw [if_neg (digit_ne_of hd (by decide)), if_neg (digit_ne_of hd (by decide))]
    rw [show d :: (ip2 ++ ('.' :: f2)) = (d :: ip2) ++ ('.' :: f2) from rfl]
    rw [parseFloatCore, dropWhile_digits_dot hip f2]
    dsimp only
    rw [if_pos rfl,
      if_pos (⟨dropWhile_all hf2, Or.inl (by rw [takeWhile_digits_dot hip f2]; exact hne)⟩ :
        f2.dropWhile isDigitCh = [] ∧
          (((d :: ip2) ++ ('.' :: f2)).takeWhile isDigitCh ≠ [] ∨
            f2.takeWhile isDigitCh ≠ [])),
      takeWhile_digits_dot hip f2, takeWhile_all hf2, hval]

/-- The rendered digits of a well-formed numeric value lex to one number token. -/
theorem formatNum_lexes {v : ℚ} (h : numWF v = true) (rest : List Char)
    (hrest : followOk rest) :
    tokens ((formatNum v).data ++ rest) = numTok (formatNum v).data :: tokens rest := by
  obtain ⟨ip, f2, hcase, hne, hip⟩ := formatNum_shape h
  rcases hcase with ⟨hdata, -, -⟩ | ⟨hdata, hf2ne, hf2, -⟩
  · rw [hdata]
    exact tokens_number ip rest hne hip hrest
  · rw [hdata]
    rw [show (ip ++ ('.' :: f2)) ++ rest = ip ++ ('.' :: (f2 ++ rest)) by simp]
    exact tokens_number_frac ip f2 rest hne hip hf2 hrest

/-- The rendering of a well-formed expression lexes to its expected tokens,
in front of whatever the following separator-led text lexes to. -/
theorem tokens_renderExpr : ∀ (e : Expr), exprWF e = true →
    ∀ (rest : List Char), followOk rest →
      tokens (renderExpr e ++ rest) = exprToks e ++ tokens rest := by
  intro e
  induction e with
  | numberLit v =>
    intro he rest hrest
    rw [renderExpr, exprToks]
    rw [formatNum_lexes (show numWF v = true from he) rest hrest]
    rfl
  | stringLit s =>
    intro he rest hrest
    rw [renderExpr, exprToks]
    rw [tokens_string s rest (by exact he)]
    rfl
  | varRef n =>
    intro he rest hrest
    rw [renderExpr, exprToks]
    rw [tokens_ident n rest (by exact he) hrest]
    rfl
  | unary op rhs ih =>
    intro he rest hrest
    rw [show exprWF (Expr.unary op rhs) = ((op = "+" || op = "-") && exprWF rhs) from rfl,
      Bool.and_eq_true] at he
    have hop : op = "+" ∨ op = "-" := by simpa using he.1
    rw [renderExpr, exprToks]
    rw [show ('(' :: (op.data ++ renderExpr rhs) ++ [')']) ++ rest =
      '(' :: (op.data ++ (renderExpr rhs ++ (')' :: rest))) by simp]
    rw [tokens_lparen, tokens_unary_op op hop,
      ih he.2 (')' :: rest) (Or.inr (Or.inl rfl)), tokens_rparen]
    simp
  | binary op l r ihl ihr =>
    intro he rest hrest
    rw [show exprWF (Expr.binary op l r) =
      (binOpsL.contains op && exprWF l && exprWF r) from rfl] at he
    simp only [Bool.and_eq_true] at he
    obtain ⟨⟨hopc, hl⟩, hr⟩ := he
    have hop : op ∈ binOpsL := by simpa using hopc
    rw [renderExpr, exprToks]
    rw [show ('(' :: (renderExpr l ++ ' ' :: (op.data ++ ' ' :: renderExpr r)) ++ [')']) ++
      rest = '(' :: (renderExpr l ++ ' ' :: (op.data ++ ' ' :: (renderExpr r ++
        (')' :: rest)))) by simp]
    rw [tokens_lparen,
      ihl hl (' ' :: (op.data ++ ' ' :: (renderExpr r ++ (')' :: rest)))) (Or.inl rfl),
      tokens_space, tokens_bin_op op hop,
      ihr hr (')' :: rest) (Or.inr (Or.inl rfl)), tokens_rparen]
    simp

/-- Token-stream step for the assignment sign followed by a space. -/
theorem tokens_assign (Y : List Char) :
    tokens ('=' :: ' ' :: Y) = Token.mk TokType.assign "=" :: tokens Y := by
  rw [tokens_cons_rfl ('=' :: ' ' :: Y) ⟨TokType.assign, "="⟩ (' ' :: Y) rfl (by decide),
    tokens_space]

/-- Token-stream step for the PRINT keyword followed by a space. -/
theorem tokens_kw_print (X : List Char) :
    tokens ("PRINT ".data ++ X) = Token.mk TokType.printK "PRINT" :: tokens X := by
  rw [tokens_cons_rfl ("PRINT ".data ++ X) ⟨TokType.printK, "PRINT"⟩ (' ' :: X) rfl
    (by decide), tokens_space]

/-- Token-stream step for the INPUT keyword followed by a space. -/
theorem tokens_kw_input (X : List Char) :
    tokens ("INPUT ".data ++ X) = Token.mk TokType.inputK "INPUT" :: tokens X := by
  rw [tokens_cons_rfl ("INPUT ".data ++ X) ⟨TokType.inputK, "INPUT"⟩ (' ' :: X) rfl
    (by decide), tokens_space]

/-- Token-stream step for the GOTO keyword followed by a space. -/
theorem tokens_kw_goto (X : List Char) :
    tokens ("GOTO ".data ++ X) = Token.mk TokType.gotoK "GOTO" :: tokens X := by
  rw [tokens_cons_rfl ("GOTO ".data ++ X) ⟨TokType.gotoK, "GOTO"⟩ (' ' :: X) rfl
    (by decide), tokens_space]

/-- The rendering of a list of well-formed expressions lexes to the
comma-separated concatenation of their token lists. -/
theorem tokens_renderExprList : ∀ (l : List Expr), l.all exprWF = true →
    tokens (renderExprList l) = exprListToks l := by
  intro l
  induction l with
  | nil => intro _; rfl
  | cons e rest ih =>
    intro hl
    simp only [List.all_cons, Bool.and_eq_true] at hl
    cases rest with
    | nil =>
      show tokens (renderExpr e) = exprToks e
      rw [show renderExpr e = renderExpr e ++ [] from (List.append_nil _).symm,
        tokens_renderExpr e hl.1 [] trivial, tokens_nil, List.append_nil]
    | cons f rest2 =>
      show tokens (renderExpr e ++ ',' :: ' ' :: renderExprList (f :: rest2)) =
        exprToks e ++ commaTok :: exprListToks (f :: rest2)
      rw [tokens_renderExpr e hl.1 (',' :: ' ' :: renderExprList (f :: rest2))
          (Or.inr (Or.inr rfl)),
        tokens_comma, tokens_space, ih hl.2]

/-- The rendering of a well-formed statement lexes to its expected token list. -/
theorem tokens_renderStmt (s : Stmt) (hs : stmtWF s = true) :
    tokens (renderStmt s) = stmtToks s := by
  cases s with
  | rem => rfl
  | letS n e =>
    rw [show stmtWF (Stmt.letS n e) = (nameWF n && exprWF e) from rfl,
      Bool.and_eq_true] at hs
    show tokens (n.data ++ (' ' :: '=' :: ' ' :: renderExpr e)) =
      identTok n :: Token.mk TokType.assign "=" :: exprToks e
    rw [tokens_ident n (' ' :: '=' :: ' ' :: renderExpr e) hs.1 (Or.inl rfl),
      tokens_space, tokens_assign,
      show renderExpr e = renderExpr e ++ [] from (List.append_nil _).symm,
      tokens_renderExpr e hs.2 [] trivial, tokens_nil, List.append_nil]
  | print es =>
    cases es with
    | nil => rfl
    | cons e rest =>
      show tokens ("PRINT ".data ++ renderExprList (e :: rest)) =
        Token.mk TokType.printK "PRINT" :: exprListToks (e :: rest)
      rw [tokens_kw_print, tokens_renderExprList (e :: rest) hs]
  | input n =>
    show tokens ("INPUT ".data ++ n.data) =
      [Token.mk TokType.inputK "INPUT", identTok n]
    rw [tokens_kw_input,
      show n.data = n.data ++ [] from (List.append_nil _).symm,
      tokens_ident n [] hs trivial, tokens_nil]
  | ifS c s => simp [stmtWF] at hs
  | ifLine c n => simp [stmtWF] at hs
  | goto n =>
    rw [show stmtWF (Stmt.goto n) = (decide (0 ≤ n) && decide (n < 2 ^ 63)) from rfl,
      Bool.and_eq_true, decide_eq_true_iff, decide_eq_true_iff] at hs
    have h1 : intToChars n = natToChars n.toNat := by
      rw [intToChars, if_neg (not_lt.mpr hs.1)]
    show tokens ("GOTO ".data ++ intToChars n) =
      [Token.mk TokType.gotoK "GOTO", numTok (intToChars n)]
    rw [h1, tokens_kw_goto]
    conv_lhs => rw [show natToChars n.toNat = natToChars n.toNat ++ [] from
      (List.append_nil _).symm]
    rw [tokens_number (natToChars n.toNat) [] (natToChars_ne_nil _) (natToChars_all _)
      trivial, tokens_nil]
  | endS => rfl

/-- Every expression needs at least one unit of prefix fuel. -/
theorem one_le_pFuel (e : Expr) : 1 ≤ pFuel e := by
  cases e <;> simp [pFuel]

/-- The climbing loop stops when nothing follows or the lookahead binds no
tighter than the threshold. -/
theorem parseLoop_stop (fuel pr : ℕ) (left : Expr) (p : PState) (hf : 1 ≤ fuel)
    (h : (peekTok p).type = TokType.eofT ∨ tokPrec (peekTok p).type ≤ pr) :
    parseLoopF fuel pr left p = (some left, p) := by
  obtain ⟨f, rfl⟩ : ∃ f, fuel = f + 1 := ⟨fuel - 1, by omega⟩
  rw [parseLoopF]
  rw [if_neg]
  rintro ⟨h1, h2⟩
  rcases h with h | h
  · exact h1 h
  · omega

/-- parseExprF is prefix parsing followed by a stopped loop whenever the
remaining tokens cannot extend the parse. -/
theorem parseExpr_of_prefix (e : Expr) (restT : List Token) (errs : List String)
    (pr fuel : ℕ)
    (hpre : parsePrefixF fuel ⟨exprToks e ++ restT, errs⟩ =
      (some e, ⟨lastTok e :: restT, errs⟩))
    (hf : 1 ≤ fuel) (hstop : stopAt pr restT) :
    parseExprF (fuel + 1) pr ⟨exprToks e ++ restT, errs⟩ =
      (some e, ⟨lastTok e :: restT, errs⟩) := by
  rw [parseExprF, hpre]
  dsimp only
  refine parseLoop_stop fuel pr e _ hf ?_
  cases restT with
  | nil => exact Or.inl rfl
  | cons t T => exact Or.inr hstop

/-- Operator tokens of the rendered binary operators: not EOF, binding tighter
than LOWEST, and accepted by the infix switch. -/
theorem binOp_tok_facts (op : String) (h : op ∈ binOpsL) :
    ¬(opTokOf op).type = TokType.eofT ∧ LOWEST < tokPrec (opTokOf op).type ∧
      isInfixOp (opTokOf op).type = true := by
  fin_cases h <;> exact ⟨by decide, by decide, by decide⟩

/-- Step taken by parsePrefixF on a number token. -/
theorem parsePrefixF_num (f : ℕ) (ds : List Char) (T : List Token) (errs : List String) :
    parsePrefixF (f + 1) ⟨numTok ds :: T, errs⟩ =
      (match parseFloatM ⟨ds⟩ with
       | none => (none, addErr ⟨numTok ds :: T, errs⟩ ("invalid number " ++ String.mk ds))
       | some v => (some (Expr.numberLit v), ⟨numTok ds :: T, errs⟩)) := rfl

/-- Step taken by parsePrefixF on a unary plus. -/
theorem parsePrefixF_plusTok (f : ℕ) (T : List Token) (errs : List String) :
    parsePrefixF (f + 1) ⟨Token.mk TokType.plus "+" :: T, errs⟩ =
      (match parseExprF f UNARYPREC ⟨T, errs⟩ with
       | (none, p1) => (none, p1)
       | (some rhs, p1) => (some (Expr.unary "+" rhs), p1)) := rfl

/-- Step taken by parsePrefixF on a unary minus. -/
theorem parsePrefixF_minusTok (f : ℕ) (T : List Token) (errs : List String) :
    parsePrefixF (f + 1) ⟨Token.mk TokType.minus "-" :: T, errs⟩ =
      (match parseExprF f UNARYPREC ⟨T, errs⟩ with
       | (none, p1) => (none, p1)
       | (some rhs, p1) => (some (Expr.unary "-" rhs), p1)) := rfl

/-- Step taken by parsePrefixF on a left parenthesis. -/
theorem parsePrefixF_lparen (f : ℕ) (T : List Token) (errs : List String) :
    parsePrefixF (f + 1) ⟨lparenTok :: T, errs⟩ =
      (match parseExprF f LOWEST ⟨T, errs⟩ with
       | (none, p1) => (none, p1)
       | (some e, p1) =>
         if (peekTok p1).type = TokType.rparen then (some e, advance p1)
         else (none, addErr p1 "expected closing paren")) := rfl

/-- Step taken by parseExprF: prefix part, then the climbing loop. -/
theorem parseExprF_step (f pr : ℕ) (p : PState) :
    parseExprF (f + 1) pr p =
      (match parsePrefixF f p with
       | (none, p1) => (none, p1)
       | (some left, p1) => parseLoopF f pr left p1) := rfl

/-- Step taken by the climbing loop when the lookahead binds tighter. -/
theorem parseLoopF_go (f pr : ℕ) (left : Expr) (a t : Token) (T : List Token)
    (errs : List String) (h1 : ¬t.type = TokType.eofT) (h2 : pr < tokPrec t.type)
    (h3 : isInfixOp t.type = true) :
    parseLoopF (f + 1) pr left ⟨a :: t :: T, errs⟩ =
      (match parseInfixF f left ⟨t :: T, errs⟩ with
       | (none, p1) => (none, p1)
       | (some left2, p1) => parseLoopF f pr left2 p1) := by
  rw [parseLoopF, if_pos (⟨h1, h2⟩ :
    (peekTok ⟨a :: t :: T, errs⟩).type ≠ TokType.eofT ∧
      pr < tokPrec (peekTok ⟨a :: t :: T, errs⟩).type)]
  rw [if_pos (show isInfixOp (peekTok (⟨a :: t :: T, errs⟩ : PState)).type = true from h3)]
  rfl

/-- Step taken by parseInfixF resting on the operator token. -/
theorem parseInfixF_cons (f : ℕ) (left : Expr) (t : Token) (T : List Token)
    (errs : List String) :
    parseInfixF (f + 1) left ⟨t :: T, errs⟩ =
      (match parseExprF f (tokPrec t.type) ⟨T, errs⟩ with
       | (none, p1) => (none, p1)
       | (some right, p1) => (some (Expr.binary t.literal left right), p1)) := rfl

/-- parsePrefixF consumes the rendered tokens of a well-formed expression and
rests on its final token. -/
theorem parsePrefix_renders : ∀ (e : Expr), exprWF e = true →
    ∀ (restT : List Token) (errs : List String) (fuel : ℕ), pFuel e ≤ fuel →
      parsePrefixF fuel ⟨exprToks e ++ restT, errs⟩ =
        (some e, ⟨lastTok e :: restT, errs⟩) := by
  intro e
  induction e with
  | numberLit v =>
    intro he restT errs fuel hf
    have h9 := one_le_pFuel (Expr.numberLit v)
    obtain ⟨f, rfl⟩ : ∃ x, fuel = x + 1 := ⟨fuel - 1, by omega⟩
    have hfl : parseFloatM ⟨(formatNum v).data⟩ = some v :=
      formatNum_parseFloatM (show numWF v = true from he)
    show parsePrefixF (f + 1) ⟨numTok (formatNum v).data :: restT, errs⟩ =
      (some (Expr.numberLit v), ⟨numTok (formatNum v).data :: restT, errs⟩)
    rw [parsePrefixF_num, hfl]
  | stringLit s =>
    intro he restT errs fuel hf
    have h9 := one_le_pFuel (Expr.stringLit s)
    obtain ⟨f, rfl⟩ : ∃ x, fuel = x + 1 := ⟨fuel - 1, by omega⟩
    rfl
  | varRef n =>
    intro he restT errs fuel hf
    have h9 := one_le_pFuel (Expr.varRef n)
    obtain ⟨f, rfl⟩ : ∃ x, fuel = x + 1 := ⟨fuel - 1, by omega⟩
    rfl
  | unary op rhs ih =>
    intro he restT errs fuel hf
    rw [show exprWF (Expr.unary op rhs) = ((op = "+" || op = "-") && exprWF rhs) from rfl,
      Bool.and_eq_true] at he
    have hop : op = "+" ∨ op = "-" := by simpa using he.1
    have hr := he.2
    rw [show pFuel (Expr.unary op rhs) = pFuel rhs + 4 from rfl] at hf
    obtain ⟨f1, rfl⟩ : ∃ x, fuel = x + 1 := ⟨fuel - 1, by omega⟩
    obtain ⟨f2, rfl⟩ : ∃ x, f1 = x + 1 := ⟨f1 - 1, by omega⟩
    obtain ⟨f3, rfl⟩ : ∃ x, f2 = x + 1 := ⟨f2 - 1, by omega⟩
    obtain ⟨m, rfl⟩ : ∃ x, f3 = x + 1 := ⟨f3 - 1, by omega⟩
    have hm : pFuel rhs ≤ m := by omega
    have hQ : parseExprF (m + 1) UNARYPREC ⟨exprToks rhs ++ rparenTok :: restT, errs⟩ =
        (some rhs, ⟨lastTok rhs :: rparenTok :: restT, errs⟩) :=
      parseExpr_of_prefix rhs (rparenTok :: restT) errs UNARYPREC m
        (ih hr (rparenTok :: restT) errs m hm)
        (le_trans (one_le_pFuel rhs) hm)
        (show tokPrec rparenTok.type ≤ UNARYPREC by decide)
    rcases hop with rfl | rfl
    · rw [show exprToks (Expr.unary "+" rhs) ++ restT =
        lparenTok :: Token.mk TokType.plus "+" :: (exprToks rhs ++ rparenTok :: restT) by
          simp [exprToks, opTokOf, opTypeOf]]
      rw [parsePrefixF_lparen, parseExprF_step, parsePrefixF_plusTok, hQ]
      dsimp only
      rw [parseLoop_stop (m + 1 + 1) LOWEST (Expr.unary "+" rhs)
        ⟨lastTok rhs :: rparenTok :: restT, errs⟩ (by omega) (Or.inr (le_refl 1))]
      dsimp only
      rw [if_pos (show (peekTok (⟨lastTok rhs :: rparenTok :: restT, errs⟩ : PState)).type =
        TokType.rparen from rfl)]
      rfl
    · rw [show exprToks (Expr.unary "-" rhs) ++ restT =
        lparenTok :: Token.mk TokType.minus "-" :: (exprToks rhs ++ rparenTok :: restT) by
          simp [exprToks, opTokOf, opTypeOf]]
      rw [parsePrefixF_lparen, parseExprF_step, parsePrefixF_minusTok, hQ]
      dsimp only
      rw [parseLoop_stop (m + 1 + 1) LOWEST (Expr.unary "-" rhs)
        ⟨lastTok rhs :: rparenTok :: restT, errs⟩ (by omega) (Or.inr (le_refl 1))]
      dsimp only
      rw [if_pos (show (peekTok (⟨lastTok rhs :: rparenTok :: restT, errs⟩ : PState)).type =
        TokType.rparen from rfl)]
      rfl
  | binary op l r ihl ihr =>
    intro he restT errs fuel hf
    rw [show exprWF (Expr.binary op l r) =
      (binOpsL.contains op && exprWF l && exprWF r) from rfl] at he
    simp only [Bool.and_eq_true] at he
    obtain ⟨⟨hopc, hl⟩, hr⟩ := he
    have hop : op ∈ binOpsL := by simpa using hopc
    obtain ⟨hne, hlt, hinf⟩ := binOp_tok_facts op hop
    rw [show pFuel (Expr.binary op l r) = pFuel l + pFuel r + 5 from rfl] at hf
    have h1l := one_le_pFuel l
    have h1r := one_le_pFuel r
    obtain ⟨f1, rfl⟩ : ∃ x, fuel = x + 1 := ⟨fuel - 1, by omega⟩
    obtain ⟨f2, rfl⟩ : ∃ x, f1 = x + 1 := ⟨f1 - 1, by omega⟩
    obtain ⟨f3, rfl⟩ : ∃ x, f2 = x + 1 := ⟨f2 - 1, by omega⟩
    obtain ⟨f4, rfl⟩ : ∃ x, f3 = x + 1 := ⟨f3 - 1, by omega⟩
    obtain ⟨m, rfl⟩ : ∃ x, f4 = x + 1 := ⟨f4 - 1, by omega⟩
    have hQr : parseExprF (m + 1) (tokPrec (opTokOf op).type)
        ⟨exprToks r ++ rparenTok :: restT, errs⟩ =
        (some r, ⟨lastTok r :: rparenTok :: restT, errs⟩) :=
      parseExpr_of_prefix r (rparenTok :: restT) errs (tokPrec (opTokOf op).type) m
        (ihr hr (rparenTok :: restT) errs m (by omega))
        (by omega)
        (le_of_lt hlt)
    rw [show exprToks (Expr.binary op l r) ++ restT =
      lparenTok :: (exprToks l ++ (opTokOf op :: (exprToks r ++ rparenTok :: restT))) by
        simp [exprToks]]
    rw [parsePrefixF_lparen, parseExprF_step,
      ihl hl (opTokOf op :: (exprToks r ++ rparenTok :: restT)) errs (m + 1 + 1 + 1)
        (by omega)]
    dsimp only
    rw [parseLoopF_go (m + 1 + 1) LOWEST l (lastTok l) (opTokOf op)
      (exprToks r ++ rparenTok :: restT) errs hne hlt hinf]
    rw [parseInfixF_cons, hQr]
    dsimp only
    rw [show (opTokOf op).literal = op from rfl]
    rw [parseLoop_stop (m + 1 + 1) LOWEST (Expr.binary op l r)
      ⟨lastTok r :: rparenTok :: restT, errs⟩ (by omega) (Or.inr (le_refl 1))]
    dsimp only
    rw [if_pos (show (peekTok (⟨lastTok r :: rparenTok :: restT, errs⟩ : PState)).type =
      TokType.rparen from rfl)]
    rfl

/-- parseExprF consumes the rendered tokens of a well-formed expression and
rests on its final token, at any threshold the following tokens respect. -/
theorem parseExpr_renders (e : Expr) (he : exprWF e = true) (restT : List Token)
    (errs : List String) (pr fuel : ℕ) (hf : pFuel e + 1 ≤ fuel)
    (hstop : stopAt pr restT) :
    parseExprF fuel pr ⟨exprToks e ++ restT, errs⟩ =
      (some e, ⟨lastTok e :: restT, errs⟩) := by
  obtain ⟨m, rfl⟩ : ∃ x, fuel = x + 1 := ⟨fuel - 1, by omega⟩
  exact parseExpr_of_prefix e restT errs pr m
    (parsePrefix_renders e he restT errs m (by omega))
    (le_trans (one_le_pFuel e) (by omega)) hstop

/-- The token list of a rendered expression list splits into the first
expression and the separator-led tail. -/
theorem exprListToks_sep : ∀ (e : Expr) (l : List Expr),
    exprListToks (e :: l) = exprToks e ++ sepToks l := by
  intro e l
  induction l generalizing e with
  | nil => simp [exprListToks, sepToks]
  | cons f r2 ih =>
    rw [show exprListToks (e :: f :: r2) =
      exprToks e ++ commaTok :: exprListToks (f :: r2) from rfl, ih f]
    rfl

/-- The separator-led tails always permit the loop to stop at LOWEST. -/
theorem stopAt_sep (l : List Expr) : stopAt LOWEST (sepToks l) := by
  cases l with
  | nil => trivial
  | cons e r => exact le_refl 1

/-- Every list needs at least one unit of loop fuel. -/
theorem one_le_plFuel (l : List Expr) : 1 ≤ plFuel l := by
  cases l with
  | nil => exact le_refl 1
  | cons e r =>
    have := one_le_pFuel e
    rw [show plFuel (e :: r) = pFuel e + plFuel r + 2 from rfl]
    omega

/-- Step taken by the PRINT comma loop on a comma lookahead. -/
theorem parsePrintLoopF_comma (f : ℕ) (acc : List Expr) (t : Token)
    (T : List Token) (errs : List String) :
    parsePrintLoopF (f + 1) acc ⟨t :: commaTok :: T, errs⟩ =
      (match parseExprF f LOWEST ⟨T, errs⟩ with
       | (none, p1) => (none, p1)
       | (some e, p1) => parsePrintLoopF f (acc ++ [e]) p1) := rfl

/-- The PRINT comma loop collects the rendered well-formed expressions of the
separator-led tail into the accumulated list. -/
theorem parsePrintLoop_renders : ∀ (l : List Expr), l.all exprWF = true →
    ∀ (acc : List Expr) (t : Token) (errs : List String) (fuel : ℕ),
      plFuel l ≤ fuel →
      (parsePrintLoopF fuel acc ⟨t :: sepToks l, errs⟩).1 =
        some (Stmt.print (acc ++ l)) := by
  intro l
  induction l with
  | nil =>
    intro _ acc t errs fuel hf
    rw [show plFuel ([] : List Expr) = 1 from rfl] at hf
    obtain ⟨f, rfl⟩ : ∃ x, fuel = x + 1 := ⟨fuel - 1, by omega⟩
    rw [parsePrintLoopF,
      if_neg (show ¬(peekTok (⟨t :: sepToks [], errs⟩ : PState)).type = TokType.comma
        from fun hh => TokType.noConfusion hh)]
    simp
  | cons e l2 ih =>
    intro hl acc t errs fuel hf
    simp only [List.all_cons, Bool.and_eq_true] at hl
    have h1e := one_le_pFuel e
    have h1l := one_le_plFuel l2
    rw [show plFuel (e :: l2) = pFuel e + plFuel l2 + 2 from rfl] at hf
    obtain ⟨m, rfl⟩ : ∃ x, fuel = x + 1 := ⟨fuel - 1, by omega⟩
    rw [show sepToks (e :: l2) = commaTok :: (exprToks e ++ sepToks l2) from rfl]
    rw [parsePrintLoopF_comma,
      parseExpr_renders e hl.1 (sepToks l2) errs LOWEST m (by omega) (stopAt_sep l2)]
    dsimp only
    rw [ih hl.2 (acc ++ [e]) (lastTok e) errs m (by omega)]
    simp

/-- Statement dispatch on the REM keyword token. -/
theorem parseStatementF_ident_assign (f : ℕ) (n : String) (T : List Token)
    (errs : List String) :
    parseStatementF (f + 1) ⟨identTok n :: Token.mk TokType.assign "=" :: T, errs⟩ =
      parseLetF f false ⟨identTok n :: Token.mk TokType.assign "=" :: T, errs⟩ := rfl

/-- Steps taken by parseLetF without a LET keyword, resting on the identifier
with the assignment sign as lookahead. -/
theorem parseLetF_steps (f : ℕ) (n : String) (T : List Token) (errs : List String) :
    parseLetF (f + 1) false ⟨identTok n :: Token.mk TokType.assign "=" :: T, errs⟩ =
      (match parseExprF f LOWEST ⟨T, errs⟩ with
       | (none, p1) => (none, p1)
       | (some e, p1) => (some (Stmt.letS n e), p1)) := rfl

/-- Statement dispatch on the PRINT keyword token. -/
theorem parseStatementF_print (f : ℕ) (T : List Token) (errs : List String) :
    parseStatementF (f + 1) ⟨Token.mk TokType.printK "PRINT" :: T, errs⟩ =
      parsePrintF f ⟨Token.mk TokType.printK "PRINT" :: T, errs⟩ := rfl

/-- Step taken by parsePrintF on a nonempty tail. -/
theorem parsePrintF_go (f : ℕ) (pt : Token) (T : List Token) (errs : List String)
    (h : ¬(T.headD eofTok).type = TokType.eofT) :
    parsePrintF (f + 1) ⟨pt :: T, errs⟩ =
      (match parseExprF f LOWEST ⟨T, errs⟩ with
       | (none, p1) => (none, p1)
       | (some first, p1) => parsePrintLoopF f [first] p1) := by
  rw [parsePrintF,
    if_neg (show ¬(peekTok (⟨pt :: T, errs⟩ : PState)).type = TokType.eofT from h)]
  rfl

/-- Statement dispatch on the GOTO keyword token. -/
theorem parseStatementF_goto (f : ℕ) (T : List Token) (errs : List String) :
    parseStatementF (f + 1) ⟨Token.mk TokType.gotoK "GOTO" :: T, errs⟩ =
      parseGotoF f ⟨Token.mk TokType.gotoK "GOTO" :: T, errs⟩ := rfl

/-- Steps taken by parseGotoF on a number lookahead. -/
theorem parseGotoF_num (f : ℕ) (g : Token) (ds : List Char) (T : List Token)
    (errs : List String) :
    parseGotoF (f + 1) ⟨g :: numTok ds :: T, errs⟩ =
      (match parseIntStrict ⟨ds⟩ with
       | none => (none, addErr ⟨numTok ds :: T, errs⟩ "invalid GOTO line number")
       | some n => (some (Stmt.goto n), ⟨numTok ds :: T, errs⟩)) := rfl

/-- The head token of a rendered expression is never the EOF token. -/
theorem exprToks_head_ne_eof (e : Expr) (X : List Token) :
    ¬((exprToks e ++ X).headD eofTok).type = TokType.eofT := by
  cases e <;> exact fun hh => TokType.noConfusion hh

/-- parseStatementF reconstructs every well-formed statement from its rendered
token list. -/
theorem parseStatement_renders (s : Stmt) (hs : stmtWF s = true) (fuel : ℕ)
    (hf : sFuel s ≤ fuel) :
    (parseStatementF fuel ⟨stmtToks s, []⟩).1 = some s := by
  cases s with
  | rem =>
    obtain ⟨f, rfl⟩ : ∃ x, fuel = x + 1 := ⟨fuel - 1, by
      rw [show sFuel Stmt.rem = 1 from rfl] at hf; omega⟩
    rfl
  | letS n e =>
    rw [show stmtWF (Stmt.letS n e) = (nameWF n && exprWF e) from rfl,
      Bool.and_eq_true] at hs
    rw [show sFuel (Stmt.letS n e) = pFuel e + 3 from rfl] at hf
    have h1e := one_le_pFuel e
    obtain ⟨f1, rfl⟩ : ∃ x, fuel = x + 1 := ⟨fuel - 1, by omega⟩
    obtain ⟨m, rfl⟩ : ∃ x, f1 = x + 1 := ⟨f1 - 1, by omega⟩
    show (parseStatementF (m + 1 + 1)
      ⟨identTok n :: Token.mk TokType.assign "=" :: exprToks e, []⟩).1 =
      some (Stmt.letS n e)
    rw [parseStatementF_ident_assign, parseLetF_steps]
    have hQ : parseExprF m LOWEST ⟨exprToks e, []⟩ =
        (some e, ⟨[lastTok e], []⟩) := by
      rw [show (⟨exprToks e, []⟩ : PState) = ⟨exprToks e ++ [], []⟩ by simp]
      exact parseExpr_renders e hs.2 [] [] LOWEST m (by omega) trivial
    rw [hQ]
  | print es =>
    cases es with
    | nil =>
      obtain ⟨f1, rfl⟩ : ∃ x, fuel = x + 1 := ⟨fuel - 1, by
        rw [show sFuel (Stmt.print []) = 2 from rfl] at hf; omega⟩
      obtain ⟨f2, rfl⟩ : ∃ x, f1 = x + 1 := ⟨f1 - 1, by
        rw [show sFuel (Stmt.print []) = 2 from rfl] at hf; omega⟩
      rfl
    | cons e rest =>
      have hl : exprWF e = true ∧ rest.all exprWF = true := by
        have hh : (e :: rest).all exprWF = true := hs
        simpa [List.all_cons, Bool.and_eq_true] using hh
      rw [show sFuel (Stmt.print (e :: rest)) = pFuel e + plFuel rest + 3 from rfl] at hf
      have h1e := one_le_pFuel e
      have h1l := one_le_plFuel rest
      obtain ⟨f1, rfl⟩ : ∃ x, fuel = x + 1 := ⟨fuel - 1, by omega⟩
      obtain ⟨m, rfl⟩ : ∃ x, f1 = x + 1 := ⟨f1 - 1, by omega⟩
      rw [show stmtToks (Stmt.print (e :: rest)) =
        Token.mk TokType.printK "PRINT" :: (exprToks e ++ sepToks rest) from by
          rw [show stmtToks (Stmt.print (e :: rest)) =
            Token.mk TokType.printK "PRINT" :: exprListToks (e :: rest) from rfl,
            exprListToks_sep]]
      rw [parseStatementF_print,
        parsePrintF_go m (Token.mk TokType.printK "PRINT")
          (exprToks e ++ sepToks rest) [] (exprToks_head_ne_eof e (sepToks rest))]
      rw [parseExpr_renders e hl.1 (sepToks rest) [] LOWEST m (by omega)
        (stopAt_sep rest)]
      dsimp only
      rw [parsePrintLoop_renders rest hl.2 [e] (lastTok e) [] m (by omega)]
      simp
  | input n =>
    obtain ⟨f1, rfl⟩ : ∃ x, fuel = x + 1 := ⟨fuel - 1, by
      rw [show sFuel (Stmt.input n) = 2 from rfl] at hf; omega⟩
    obtain ⟨f2, rfl⟩ : ∃ x, f1 = x + 1 := ⟨f1 - 1, by
      rw [show sFuel (Stmt.input n) = 2 from rfl] at hf; omega⟩
    rfl
  | ifS c s2 => simp [stmtWF] at hs
  | ifLine c k => simp [stmtWF] at hs
  | goto k =>
    rw [show stmtWF (Stmt.goto k) = (decide (0 ≤ k) && decide (k < 2 ^ 63)) from rfl,
      Bool.and_eq_true, decide_eq_true_iff, decide_eq_true_iff] at hs
    obtain ⟨h0, h63⟩ := hs
    obtain ⟨f1, rfl⟩ : ∃ x, fuel = x + 1 := ⟨fuel - 1, by
      rw [show sFuel (Stmt.goto k) = 2 from rfl] at hf; omega⟩
    obtain ⟨f2, rfl⟩ : ∃ x, f1 = x + 1 := ⟨f1 - 1, by
      rw [show sFuel (Stmt.goto k) = 2 from rfl] at hf; omega⟩
    have h1 : intToChars k = natToChars k.toNat := by
      rw [intToChars, if_neg (not_lt.mpr h0)]
    rw [show stmtToks (Stmt.goto k) =
      [Token.mk TokType.gotoK "GOTO", numTok (natToChars k.toNat)] from by
        rw [show stmtToks (Stmt.goto k) =
          [Token.mk TokType.gotoK "GOTO", numTok (intToChars k)] from rfl, h1]]
    rw [parseStatementF_goto, parseGotoF_num,
      parseIntStrict_digits (natToChars_ne_nil _) (natToChars_all _)
        (by rw [digitsToNat_natToChars]; omega),
      digitsToNat_natToChars]
    dsimp only
    rw [Int.toNat_of_nonneg h0]
  | endS =>
    obtain ⟨f, rfl⟩ : ∃ x, fuel = x + 1 := ⟨fuel - 1, by
      rw [show sFuel Stmt.endS = 1 from rfl] at hf; omega⟩
    rfl

/-- Well-formed names render to a nonempty character list. -/
theorem nameWF_ne_nil {n : String} (h : nameWF n = true) : n.data ≠ [] := by
  intro hnil
  rw [nameWF, hnil] at h
  simp [baseOK] at h

/-- The prefix fuel of a well-formed expression is bounded by twice its rendered
length. -/
theorem pFuel_le_render : ∀ (e : Expr), exprWF e = true →
    pFuel e ≤ 2 * (renderExpr e).length := by
  intro e
  induction e with
  | numberLit v =>
    intro he
    have hne : (formatNum v).data ≠ [] :=
      formatNum_ne_nil (show numWF v = true from he)
    have hlen : 0 < (formatNum v).data.length := List.length_pos.mpr hne
    rw [show pFuel (Expr.numberLit v) = 1 from rfl,
      show renderExpr (Expr.numberLit v) = (formatNum v).data from rfl]
    omega
  | stringLit s =>
    intro _
    rw [show pFuel (Expr.stringLit s) = 1 from rfl,
      show renderExpr (Expr.stringLit s) = quoteStr s.data from rfl, quoteStr]
    simp
    omega
  | varRef n =>
    intro he
    have hne : n.data ≠ [] := nameWF_ne_nil (by exact he)
    have hlen : 0 < n.data.length := List.length_pos.mpr hne
    rw [show pFuel (Expr.varRef n) = 1 from rfl,
      show renderExpr (Expr.varRef n) = n.data from rfl]
    omega
  | unary op rhs ih =>
    intro he
    rw [show exprWF (Expr.unary op rhs) = ((op = "+" || op = "-") && exprWF rhs) from rfl,
      Bool.and_eq_true] at he
    have hop : op = "+" ∨ op = "-" := by simpa using he.1
    have hih := ih he.2
    rw [show pFuel (Expr.unary op rhs) = pFuel rhs + 4 from rfl,
      show renderExpr (Expr.unary op rhs) = '(' :: (op.data ++ renderExpr rhs) ++ [')']
        from rfl]
    rcases hop with rfl | rfl <;> simp [List.length_append] <;> omega
  | binary op l r ihl ihr =>
    intro he
    rw [show exprWF (Expr.binary op l r) =
      (binOpsL.contains op && exprWF l && exprWF r) from rfl] at he
    simp only [Bool.and_eq_true] at he
    obtain ⟨⟨hopc, hl⟩, hr⟩ := he
    have hop : op ∈ binOpsL := by simpa using hopc
    have hoplen : 1 ≤ op.data.length := by fin_cases hop <;> decide
    have h1 := ihl hl
    have h2 := ihr hr
    rw [show pFuel (Expr.binary op l r) = pFuel l + pFuel r + 5 from rfl,
      show renderExpr (Expr.binary op l r) =
        '(' :: (renderExpr l ++ ' ' :: (op.data ++ ' ' :: renderExpr r)) ++ [')']
        from rfl]
    simp [List.length_append]
    omega

/-- The loop fuel of a well-formed expression list is bounded by twice its
rendered length plus three. -/
theorem plFuel_le_render : ∀ (l : List Expr), l.all exprWF = true →
    plFuel l ≤ 2 * (renderExprList l).length + 3 := by
  intro l
  induction l with
  | nil => intro _; rw [show plFuel ([] : List Expr) = 1 from rfl]; omega
  | cons e l2 ih =>
    intro hl
    simp only [List.all_cons, Bool.and_eq_true] at hl
    have h1 := pFuel_le_render e hl.1
    have h2 := ih hl.2
    cases l2 with
    | nil =>
      rw [show plFuel [e] = pFuel e + 1 + 2 from rfl,
        show renderExprList [e] = renderExpr e from rfl]
      omega
    | cons f l3 =>
      rw [show plFuel (e :: f :: l3) = pFuel e + plFuel (f :: l3) + 2 from rfl,
        show renderExprList (e :: f :: l3) =
          renderExpr e ++ ',' :: ' ' :: renderExprList (f :: l3) from rfl]
      simp only [List.length_append, List.length_cons]
      omega

/-- The statement fuel of a well-formed statement is within the fuel the
top-level parser wrapper provisions from the source length. -/
theorem sFuel_le_render (s : Stmt) (hs : stmtWF s = true) :
    sFuel s ≤ 2 * (renderStmt s).length + 16 := by
  cases s with
  | rem => decide
  | letS n e =>
    rw [show stmtWF (Stmt.letS n e) = (nameWF n && exprWF e) from rfl,
      Bool.and_eq_true] at hs
    have h1 := pFuel_le_render e hs.2
    rw [show sFuel (Stmt.letS n e) = pFuel e + 3 from rfl,
      show renderStmt (Stmt.letS n e) = n.data ++ (' ' :: '=' :: ' ' :: renderExpr e)
        from rfl]
    simp only [List.length_append, List.length_cons]
    omega
  | print es =>
    cases es with
    | nil => decide
    | cons e rest =>
      have hl : exprWF e = true ∧ rest.all exprWF = true := by
        have hh : (e :: rest).all exprWF = true := hs
        simpa [List.all_cons, Bool.and_eq_true] using hh
      have h1 := pFuel_le_render e hl.1
      have h2 := plFuel_le_render rest hl.2
      rw [show sFuel (Stmt.print (e :: rest)) = pFuel e + plFuel rest + 3 from rfl,
        show renderStmt (Stmt.print (e :: rest)) =
          "PRINT ".data ++ renderExprList (e :: rest) from rfl]
      cases rest with
      | nil =>
        rw [show renderExprList [e] = renderExpr e from rfl]
        simp only [List.length_append]
        rw [show plFuel ([] : List Expr) = 1 from rfl]
        omega
      | cons f r2 =>
        rw [show renderExprList (e :: f :: r2) =
          renderExpr e ++ ',' :: ' ' :: renderExprList (f :: r2) from rfl]
        simp only [List.length_append, List.length_cons]
        omega
  | input n =>
    rw [show sFuel (Stmt.input n) = 2 from rfl,
      show renderStmt (Stmt.input n) = "INPUT ".data ++ n.data from rfl]
    simp only [List.length_append]
    omega
  | ifS c s2 => simp [stmtWF] at hs
  | ifLine c k => simp [stmtWF] at hs
  | goto k =>
    rw [show sFuel (Stmt.goto k) = 2 from rfl,
      show renderStmt (Stmt.goto k) = "GOTO ".data ++ intToChars k from rfl]
    simp only [List.length_append]
    omega
  | endS => decide

/-- PRINT of a single number token parses to PRINT of the token's value. -/
theorem parseStatementF_print_one_num (v : ℚ) (ds : List Char)
    (hv : parseFloatM ⟨ds⟩ = some v) (fuel : ℕ) (hf : 4 ≤ fuel) :
    (parseStatementF fuel ⟨[Token.mk TokType.printK "PRINT", numTok ds], []⟩).1 =
      some (Stmt.print [Expr.numberLit v]) := by
  obtain ⟨f1, rfl⟩ : ∃ x, fuel = x + 1 := ⟨fuel - 1, by omega⟩
  obtain ⟨f2, rfl⟩ : ∃ x, f1 = x + 1 := ⟨f1 - 1, by omega⟩
  obtain ⟨f3, rfl⟩ : ∃ x, f2 = x + 1 := ⟨f2 - 1, by omega⟩
  obtain ⟨f4, rfl⟩ : ∃ x, f3 = x + 1 := ⟨f3 - 1, by omega⟩
  rw [parseStatementF_print,
    parsePrintF_go (f4 + 1 + 1) (Token.mk TokType.printK "PRINT") [numTok ds] []
      (fun hh => TokType.noConfusion hh),
    parseExprF_step, parsePrefixF_num, hv]
  dsimp only
  rw [parseLoop_stop (f4 + 1) LOWEST (Expr.numberLit v) ⟨[numTok ds], []⟩ (by omega)
    (Or.inl rfl)]
  dsimp only
  rw [parsePrintLoopF,
    if_neg (show ¬(peekTok (⟨[numTok ds], []⟩ : PState)).type = TokType.comma from
      fun hh => TokType.noConfusion hh)]

/-- Top-level parse of PRINT followed by one decimal literal. -/
theorem parsePrintTop_num (ds : List Char) (v : ℚ)
    (htok : tokens ("PRINT ".data ++ ds) = [Token.mk TokType.printK "PRINT", numTok ds])
    (hv : parseFloatM ⟨ds⟩ = some v) :
    parseStatementTop ("PRINT ".data ++ ds) = some (Stmt.print [Expr.numberLit v]) := by
  rw [parseStatementTop, htok]
  exact parseStatementF_print_one_num v ds hv _ (by omega)

/-- C6: the amended round-trip. For every well-formed statement — the shapes the
parser actually produces whose literals survive stringification: no IF forms
(the parseIfStmt lookahead slip makes every IF parse fail), upper-case
non-keyword names, escape-free printable string literals, and nonnegative exact
decimal numeric values that are zero or lie in [10^-4, 10^21), the window where
the shortest g-format stays in fixed notation — parsing the stringification
returns exactly the original statement, with no numeric renormalization needed.
As literally stated over every parser-producible statement the claim fails
twice: a string literal holding a backslash is producible (readString performs
no unescaping) but strconv.Quote doubles the backslash, and a numeric literal
outside the window is producible but prints in scientific notation, which the
lexer splits into several tokens; see the two companion counterexamples. -/
theorem parse_render_roundtrip (s : Stmt) (hs : stmtWF s = true) :
    parseStatementTop (renderStmt s) = some s := by
  rw [parseStatementTop, tokens_renderStmt s hs]
  exact parseStatement_renders s hs (2 * (renderStmt s).length + 16)
    (sFuel_le_render s hs)

/-- The statement PRINT with the three-character string literal a-backslash-b is
parser-producible, but its stringification quotes the backslash and reparses to
the four-character literal a-backslash-backslash-b, breaking the literal
round-trip claim of C6. -/
theorem parse_render_backslash_counterexample :
    parseStatementTop "PRINT \"a\\b\"".data =
      some (Stmt.print [Expr.stringLit "a\\b"]) ∧
    renderStmt (Stmt.print [Expr.stringLit "a\\b"]) = "PRINT \"a\\\\b\"".data ∧
    parseStatementTop (renderStmt (Stmt.print [Expr.stringLit "a\\b"])) =
      some (Stmt.print [Expr.stringLit "a\\\\b"]) ∧
    Stmt.print [Expr.stringLit "a\\\\b"] ≠ Stmt.print [Expr.stringLit "a\\b"] :=
  ⟨by rfl, by rfl, by rfl, by decide⟩

/-- The producible statements PRINT 1000000000000000000000 (the value 10^21) and
PRINT 0.00001 (the value 10^-5) stringify in scientific notation — PRINT 1e+21
and PRINT 1e-05 — which the lexer splits into a number, an identifier and more,
so both reparse as PRINT 1: the round-trip of C6 fails on numeric values whose
shortest form leaves fixed notation, forcing the exponent window of the
amendment. -/
theorem parse_render_sci_counterexample :
    parseStatementTop ("PRINT ".data ++ "1000000000000000000000".data) =
      some (Stmt.print [Expr.numberLit ((1000000000000000000000 : ℕ) : ℚ)]) ∧
    renderStmt (Stmt.print [Expr.numberLit ((1000000000000000000000 : ℕ) : ℚ)]) =
      "PRINT 1e+21".data ∧
    parseStatementTop "PRINT 1e+21".data =
      some (Stmt.print [Expr.numberLit ((1 : ℕ) : ℚ)]) ∧
    Stmt.print [Expr.numberLit ((1000000000000000000000 : ℕ) : ℚ)] ≠
      Stmt.print [Expr.numberLit ((1 : ℕ) : ℚ)] ∧
    parseStatementTop ("PRINT ".data ++ "0.00001".data) =
      some (Stmt.print [Expr.numberLit qTiny]) ∧
    renderStmt (Stmt.print [Expr.numberLit qTiny]) = "PRINT 1e-05".data ∧
    parseStatementTop "PRINT 1e-05".data =
      some (Stmt.print [Expr.numberLit ((1 : ℕ) : ℚ)]) ∧
    Stmt.print [Expr.numberLit qTiny] ≠ Stmt.print [Expr.numberLit ((1 : ℕ) : ℚ)] := by
  refine ⟨?_, by rfl, by rfl, by decide, ?_, by rfl, by rfl, by decide⟩
  · exact parsePrintTop_num "1000000000000000000000".data
      ((1000000000000000000000 : ℕ) : ℚ) (by rfl) (by rfl)
  · refine parsePrintTop_num "0.00001".data qTiny (by rfl) ?_
    have h1 : parseFloatM ⟨"0.00001".data⟩ =
        some (((0 : ℕ) : ℚ) + ((1 : ℕ) : ℚ) / 10 ^ 5) := rfl
    have h2 : (((0 : ℕ) : ℚ) + ((1 : ℕ) : ℚ) / 10 ^ 5) = qTiny := by
      rw [show qTiny = ((qTiny.num : ℤ) : ℚ) / ((qTiny.den : ℕ) : ℚ) from
        (Rat.num_div_den qTiny).symm]
      rw [show qTiny.num = 1 from rfl, show qTiny.den = 100000 from rfl]
      push_cast
      norm_num
    rw [h1, h2]

/-- Witness: the amended C6 round-trip applied to the concrete statement
PRINT 0.5, 7 — a producible statement carrying a fractional literal. -/
theorem parse_render_roundtrip_witness :
    stmtWF (Stmt.print [Expr.numberLit qHalf, Expr.numberLit 7]) = true ∧
    parseStatementTop
        (renderStmt (Stmt.print [Expr.numberLit qHalf, Expr.numberLit 7])) =
      some (Stmt.print [Expr.numberLit qHalf, Expr.numberLit 7]) :=
  ⟨by decide, parse_render_roundtrip _ (by decide)⟩

end MiniBasic
